import Mathlib

/-!
Verification of the `create-magicblock` scaffolding CLI.

The development shallowly embeds the TypeScript sources:
* the package-manager detector (`detectPackageManager`, `PACKAGE_MANAGER_CONFIG`),
* the recursive template copier (`copyFilesAndDirectories`),
* the `package.json` name patcher (`renamePackageJsonName`),
* the lockfile pruner (`cleanupLockFiles`),
* the `Anchor.toml` patcher (`updateAnchorToml`, a first-match regex substitution),
* the dependency preflight (`checkDependencies`),
* the interactive `main` orchestrator (prompt validation, target-directory guard).

Strings are modelled as `List Char`; the filesystem is modelled as a finite
tree of named entries.  External processes (version checks, git, installs) are
modelled by their observable outcome, and the Node built-ins `JSON.parse` /
`JSON.stringify` by an executable parser/serializer over a JSON value type.
-/

namespace CreateMagicblock

/-- Character class of the JavaScript regex `\s` (whitespace), which the
user-agent parser (`\S`) and the `Anchor.toml` patterns (`\s`) use.  Note that
it contains the line terminators `\n` and `\r`. -/
def jsWs (c : Char) : Bool :=
  c = ' ' || c = '\t' || c = '\n' || c = '\r' ||
  c.val = 0x0b || c.val = 0x0c || c.val = 0xa0 || c.val = 0x1680 ||
  (0x2000 ≤ c.val && c.val ≤ 0x200a) || c.val = 0x2028 || c.val = 0x2029 ||
  c.val = 0x202f || c.val = 0x205f || c.val = 0x3000 || c.val = 0xfeff

/-- The four recognized package managers (source: `type PackageManager`). -/
inductive PackageManager where
  | npm | yarn | pnpm | bun
deriving DecidableEq, Repr

/-- String key of a package manager, as it appears in the user agent and in
`Anchor.toml` (`packageManager.name` interpolated into a template string). -/
def pmKey : PackageManager → String
  | .npm => "npm"
  | .yarn => "yarn"
  | .pnpm => "pnpm"
  | .bun => "bun"

/-- One entry of `PACKAGE_MANAGER_CONFIG` (source type
`Omit<PackageManagerInfo, 'version'>`). -/
structure PMConfig where
  name : PackageManager
  installCommand : String
  runCommand : String
  lockFile : String
deriving DecidableEq, Repr

/-- Source interface `PackageManagerInfo`. -/
structure PackageManagerInfo where
  name : PackageManager
  version : String
  installCommand : String
  runCommand : String
  lockFile : String
deriving DecidableEq, Repr

/-- The object spread `{ ...PACKAGE_MANAGER_CONFIG[pm], version }`. -/
def withVersion (c : PMConfig) (v : String) : PackageManagerInfo :=
  ⟨c.name, v, c.installCommand, c.runCommand, c.lockFile⟩

/-- Source constant `PACKAGE_MANAGER_CONFIG` (part_012 lines 15–40). -/
def PACKAGE_MANAGER_CONFIG : PackageManager → PMConfig
  | .npm => ⟨.npm, "npm install", "npm run", "package-lock.json"⟩
  | .yarn => ⟨.yarn, "yarn", "yarn", "yarn.lock"⟩
  | .pnpm => ⟨.pnpm, "pnpm install", "pnpm", "pnpm-lock.yaml"⟩
  | .bun => ⟨.bun, "bun install", "bun run", "bun.lockb"⟩

/-- Strips a literal character sequence from the front of the input, returning
the remainder; `none` when the input does not start with the literal. -/
def stripLit : List Char → List Char → Option (List Char)
  | [], l => some l
  | _ :: _, [] => none
  | p :: ps, c :: cs => if p = c then stripLit ps cs else none

/-- One alternative of the user-agent regex `^(npm|yarn|pnpm|bun)\/(\S+)`:
the literal name, a slash, then a nonempty maximal run of non-whitespace
characters (the captured version). -/
def tryAgent (pm : PackageManager) (l : List Char) : Option (PackageManager × List Char) :=
  match stripLit ((pmKey pm).data ++ ['/']) l with
  | none => none
  | some rest =>
    let ver := rest.takeWhile (fun c => !jsWs c)
    if ver.isEmpty then none else some (pm, ver)

/-- Matching of `userAgent.match(/^(npm|yarn|pnpm|bun)\/(\S+)/)`.  The four
alternatives have pairwise distinct first characters, so the left-to-right
alternation is an ordinary first-success choice. -/
def matchUserAgent (l : List Char) : Option (PackageManager × List Char) :=
  tryAgent .npm l <|> tryAgent .yarn l <|> tryAgent .pnpm l <|> tryAgent .bun l

/-- Source `detectPackageManager` (part_012 lines 52–74), with the
`npm_config_user_agent` environment read made an explicit parameter.  The
JavaScript guard `if (!userAgent)` treats both an absent and an empty string
as missing; the empty string is the `ua.data = []` case, on which the regex
match also fails, yielding the same npm default. -/
def detectPackageManager (userAgent : Option String) : PackageManagerInfo :=
  match userAgent with
  | none => withVersion (PACKAGE_MANAGER_CONFIG .npm) "unknown"
  | some ua =>
    match matchUserAgent ua.data with
    | none => withVersion (PACKAGE_MANAGER_CONFIG .npm) "unknown"
    | some (pm, ver) => withVersion (PACKAGE_MANAGER_CONFIG pm) (String.mk ver)

/-- Helper: `takeWhile` over an append whose left part wholly satisfies the
predicate and whose right part starts with a failing character (or is empty). -/
theorem takeWhile_append_all {p : Char → Bool} (a b : List Char)
    (ha : ∀ c ∈ a, p c = true) (hb : ∀ c ∈ b.take 1, p c = false) :
    (a ++ b).takeWhile p = a := by
  induction a with
  | nil =>
    simp only [List.nil_append]
    cases b with
    | nil => rfl
    | cons c t =>
      have : p c = false := hb c (by simp)
      simp [List.takeWhile, this]
  | cons c t ih =>
    have hc : p c = true := ha c (by simp)
    have ih' := ih (fun x hx => ha x (by simp [hx]))
    simp only [List.cons_append, List.takeWhile, hc, List.append_eq]
    exact congrArg (c :: ·) ih'

/-- Helper: stripping `lit` from `lit ++ rest` succeeds with `rest`. -/
theorem stripLit_append (lit rest : List Char) : stripLit lit (lit ++ rest) = some rest := by
  induction lit with
  | nil => rfl
  | cons c t ih => simp [stripLit, ih]

/-- Helper: `String.mk` then `String.data` is the identity. -/
theorem mk_data (l : List Char) : (String.mk l).data = l := rfl

/-- Helper: a recognized user agent parses to the named manager and the
maximal non-whitespace run after the slash. -/
theorem matchUserAgent_pos (pm : PackageManager) (ver rest : List Char)
    (hv : ver ≠ []) (hver : ∀ c ∈ ver, jsWs c = false)
    (hrest : ∀ c ∈ rest.take 1, jsWs c = true) :
    matchUserAgent (((pmKey pm).data ++ ['/']) ++ (ver ++ rest)) = some (pm, ver) := by
  have htw : (ver ++ rest).takeWhile (fun c => !jsWs c) = ver :=
    takeWhile_append_all ver rest (fun c hc => by simp [hver c hc])
      (fun c hc => by simp [hrest c hc])
  have hemp : ver.isEmpty = false := by
    cases ver with
    | nil => exact absurd rfl hv
    | cons _ _ => rfl
  cases pm <;> simp [matchUserAgent, tryAgent, pmKey, stripLit, htw, hemp]

/-- Helper: an input on which every alternative's literal fails yields no
user-agent match. -/
theorem matchUserAgent_none (s : List Char)
    (h : ∀ pm : PackageManager, stripLit ((pmKey pm).data ++ ['/']) s = none) :
    matchUserAgent s = none := by
  simp [matchUserAgent, tryAgent, h PackageManager.npm, h PackageManager.yarn,
    h PackageManager.pnpm, h PackageManager.bun]

/-- C2: detection returns the fixed table entry for a recognized
`name/version …` user agent, with the parsed version; an absent, empty, or
unrecognized user agent yields the npm entry with version `"unknown"`. -/
theorem detectPackageManager_spec :
    (∀ (pm : PackageManager) (ver rest : List Char),
        ver ≠ [] →
        (∀ c ∈ ver, jsWs c = false) →
        (∀ c ∈ rest.take 1, jsWs c = true) →
        detectPackageManager (some (String.mk (((pmKey pm).data ++ ['/']) ++ (ver ++ rest)))) =
          withVersion (PACKAGE_MANAGER_CONFIG pm) (String.mk ver)) ∧
    detectPackageManager none = withVersion (PACKAGE_MANAGER_CONFIG .npm) "unknown" ∧
    detectPackageManager (some "") = withVersion (PACKAGE_MANAGER_CONFIG .npm) "unknown" ∧
    (∀ s : List Char,
        (∀ pm : PackageManager, stripLit ((pmKey pm).data ++ ['/']) s = none) →
        detectPackageManager (some (String.mk s)) =
          withVersion (PACKAGE_MANAGER_CONFIG .npm) "unknown") := by
  refine ⟨fun pm ver rest hv hver hrest => ?_, rfl, rfl, fun s h => ?_⟩
  · have hm := matchUserAgent_pos pm ver rest hv hver hrest
    rw [List.append_assoc, List.singleton_append] at hm
    simp [detectPackageManager, mk_data, hm]
  · have hm := matchUserAgent_none s h
    simp [detectPackageManager, mk_data, hm]

/-- Witness for C2 at a concrete yarn user agent. -/
theorem detectPackageManager_spec_witness :
    detectPackageManager (some (String.mk ((((pmKey .yarn).data ++ ['/']) ++
        ("1.22.19".data ++ " npm/? node/v20.10.0 darwin arm64".data)))) ) =
      withVersion (PACKAGE_MANAGER_CONFIG .yarn) (String.mk "1.22.19".data) :=
  detectPackageManager_spec.1 .yarn "1.22.19".data " npm/? node/v20.10.0 darwin arm64".data
    (by decide) (by decide) (by decide)

/-! ## Filesystem model

A directory tree is a finite tree of named entries.  `other` stands for a
directory entry that is neither a regular file nor a directory (symlink,
socket, …): `copyFilesAndDirectories` silently skips such entries
(`entry.isFile()` / `entry.isDirectory()` both false). -/

mutual

/-- Filesystem node: regular file with byte content, directory with an
ordered list of named children (`readdirSync` order), or another entry kind. -/
inductive Fs where
  | file (content : List Char)
  | dir (entries : FsEntries)
  | other

/-- Ordered list of named directory entries (a specialized `List (String × Fs)`
so that recursion over the tree is structural). -/
inductive FsEntries where
  | nil
  | cons (name : String) (entry : Fs) (rest : FsEntries)

end

/-- First entry with the given name (filesystem names are unique per
directory; the model is tolerant of duplicates by taking the first). -/
def lookupEntry : FsEntries → String → Option Fs
  | .nil, _ => none
  | .cons n e rest, name => if n = name then some e else lookupEntry rest name

/-- Body of the `for (const entry of entries)` loop of
`copyFilesAndDirectories` (part_012 lines 92–103), ran against a fresh
target: files are copied byte-for-byte, directories recursively, and entries
that are neither are skipped. -/
def copyEntries : FsEntries → FsEntries
  | .nil => .nil
  | .cons n (.file c) rest => .cons n (.file c) (copyEntries rest)
  | .cons n (.dir es) rest => .cons n (.dir (copyEntries es)) (copyEntries rest)
  | .cons _ .other rest => copyEntries rest

/-- Source `copyFilesAndDirectories` (part_012 lines 79–104), with the
filesystem reads made explicit: the argument is the state of the source
path (`none` when `fs.existsSync(sourceDir)` is false), the result the tree
written at the target path (created fresh; the orchestrator guarantees the
target is absent or empty).  A missing source throws before anything is
written, which the error return models.  A source that exists but is not a
directory makes `readdirSync` throw `ENOTDIR`. -/
def copyFilesAndDirectories (sourceDir : Option Fs) : Except String Fs :=
  match sourceDir with
  | none => .error "Source directory does not exist"
  | some (.dir es) => .ok (.dir (copyEntries es))
  | some _ => .error "ENOTDIR: not a directory"

mutual

/-- Number of regular files in a tree. -/
def countFiles : Fs → Nat
  | .file _ => 1
  | .other => 0
  | .dir es => countFilesList es

/-- Number of regular files under a list of entries. -/
def countFilesList : FsEntries → Nat
  | .nil => 0
  | .cons _ e rest => countFiles e + countFilesList rest

end

mutual

/-- Number of directories in a tree (the root included). -/
def countDirs : Fs → Nat
  | .file _ => 0
  | .other => 0
  | .dir es => 1 + countDirsList es

/-- Number of directories under a list of entries. -/
def countDirsList : FsEntries → Nat
  | .nil => 0
  | .cons _ e rest => countDirs e + countDirsList rest

end

mutual

/-- Byte content of the regular file at a relative path, if any. -/
def fileAt : Fs → List String → Option (List Char)
  | .file c, [] => some c
  | .dir es, n :: p => fileAtEntries es n p
  | _, _ => none

/-- Path lookup continuation over a list of entries. -/
def fileAtEntries : FsEntries → String → List String → Option (List Char)
  | .nil, _, _ => none
  | .cons m e rest, n, p => if m = n then fileAt e p else fileAtEntries rest n p

end

mutual

/-- A tree consisting only of regular files and directories. -/
def pureFs : Fs → Bool
  | .file _ => true
  | .other => false
  | .dir es => pureFsEntries es

/-- Entry-list version of `pureFs`. -/
def pureFsEntries : FsEntries → Bool
  | .nil => true
  | .cons _ e rest => pureFs e && pureFsEntries rest

end

/-- Helper: copying a list of file/directory entries reproduces it exactly. -/
theorem copyEntries_eq (es : FsEntries) (h : pureFsEntries es = true) :
    copyEntries es = es :=
  match es with
  | .nil => rfl
  | .cons n (.file c) rest => by
    simp only [pureFsEntries, pureFs, Bool.true_and] at h
    simp [copyEntries, copyEntries_eq rest h]
  | .cons n (.dir es') rest => by
    simp only [pureFsEntries, pureFs, Bool.and_eq_true] at h
    simp [copyEntries, copyEntries_eq es' h.1, copyEntries_eq rest h.2]
  | .cons n .other rest => by
    simp only [pureFsEntries, pureFs, Bool.false_and] at h
    exact absurd h (by simp)

/-- C1: copying an existing tree of `N` regular files and `M` directories
terminates (the function is total) and produces exactly `N` files with
byte-identical content at mirrored relative paths and `M` directories; on a
missing source it throws `Source directory does not exist`, producing
nothing. -/
theorem copyFilesAndDirectories_spec :
    (∀ es : FsEntries, pureFsEntries es = true →
        ∃ t, copyFilesAndDirectories (some (.dir es)) = .ok t ∧
          countFiles t = countFiles (.dir es) ∧
          countDirs t = countDirs (.dir es) ∧
          (∀ p, fileAt t p = fileAt (.dir es) p)) ∧
    copyFilesAndDirectories none = .error "Source directory does not exist" := by
  refine ⟨fun es h => ⟨.dir es, ?_, rfl, rfl, fun _ => rfl⟩, rfl⟩
  simp [copyFilesAndDirectories, copyEntries_eq es h]

/-- Witness for C1 on a small two-level tree. -/
theorem copyFilesAndDirectories_spec_witness :
    ∃ t, copyFilesAndDirectories (some (.dir
        (.cons "src" (.dir (.cons "main.ts" (.file "console.log(1)".data) .nil))
          (.cons "README.md" (.file "hello".data) .nil)))) = .ok t ∧
      countFiles t = countFiles (.dir
        (.cons "src" (.dir (.cons "main.ts" (.file "console.log(1)".data) .nil))
          (.cons "README.md" (.file "hello".data) .nil))) ∧
      countDirs t = countDirs (.dir
        (.cons "src" (.dir (.cons "main.ts" (.file "console.log(1)".data) .nil))
          (.cons "README.md" (.file "hello".data) .nil))) ∧
      (∀ p, fileAt t p = fileAt (.dir
        (.cons "src" (.dir (.cons "main.ts" (.file "console.log(1)".data) .nil))
          (.cons "README.md" (.file "hello".data) .nil))) p) :=
  copyFilesAndDirectories_spec.1 _ (by decide)

/-! ## Lockfile pruner -/

/-- Source constant `allLockFiles` (part_012 line 126). -/
def allLockFiles : List String :=
  ["package-lock.json", "yarn.lock", "pnpm-lock.yaml", "bun.lockb"]

/-- Effect of `fs.unlinkSync` on a directory: drop the named entry. -/
def removeEntry (name : String) : FsEntries → FsEntries
  | .nil => .nil
  | .cons n e rest =>
    if n = name then removeEntry name rest else .cons n e (removeEntry name rest)

/-- One iteration of the `for (const lockFile of allLockFiles)` loop of
`cleanupLockFiles` (part_012 lines 128–136): skip the detected manager's
lockfile, delete the file when it exists, do nothing otherwise. -/
def cleanupStep (packageManager : PackageManagerInfo) (es : FsEntries)
    (lockFile : String) : FsEntries :=
  if lockFile = packageManager.lockFile then es
  else if (lookupEntry es lockFile).isSome then removeEntry lockFile es
  else es

/-- Source `cleanupLockFiles` (part_012 lines 125–137), acting on the entry
list of the target directory. -/
def cleanupLockFiles (targetDir : FsEntries) (packageManager : PackageManagerInfo) :
    FsEntries :=
  allLockFiles.foldl (cleanupStep packageManager) targetDir

/-- Helper: entry lookup after a removal. -/
theorem lookupEntry_removeEntry (name n : String) (es : FsEntries) :
    lookupEntry (removeEntry name es) n =
      if n = name then none else lookupEntry es n :=
  match es with
  | .nil => by simp [removeEntry, lookupEntry]
  | .cons n' e rest => by
    have ih := lookupEntry_removeEntry name n rest
    by_cases h1 : n' = name
    · by_cases h2 : n = name
      · subst h2
        simp [removeEntry, lookupEntry, h1, ih]
      · have hne : ¬ name = n := fun h => h2 h.symm
        simp [removeEntry, lookupEntry, h1, h2, ih, hne]
    · by_cases h2 : n' = n
      · have : ¬ n = name := fun hn => h1 (h2.trans hn)
        simp [removeEntry, lookupEntry, h1, h2, this]
      · simp [removeEntry, lookupEntry, h1, h2, ih]

/-- Helper: entry lookup after one pruning step. -/
theorem lookupEntry_cleanupStep (pm : PackageManagerInfo) (es : FsEntries)
    (lock n : String) :
    lookupEntry (cleanupStep pm es lock) n =
      if n = lock ∧ lock ≠ pm.lockFile then none else lookupEntry es n := by
  unfold cleanupStep
  by_cases h1 : lock = pm.lockFile
  · simp [h1]
  · by_cases h2 : (lookupEntry es lock).isSome
    · rw [if_neg h1, if_pos h2, lookupEntry_removeEntry]
      by_cases h3 : n = lock <;> simp [h3, h1]
    · rw [if_neg h1, if_neg h2]
      by_cases h3 : n = lock
      · subst h3
        simp only [Option.isSome] at h2
        cases h : lookupEntry es n with
        | none => simp [h1]
        | some v => rw [h] at h2; simp at h2
      · simp [h3]

/-- C5: pruning deletes exactly the lockfiles of the fixed four-name set that
differ from the detected manager's lockfile; the matching lockfile and every
entry outside the set are untouched, and absent lockfiles cause no error.  In
particular, with all four lockfiles present and pnpm detected only
`pnpm-lock.yaml` remains. -/
theorem cleanupLockFiles_spec :
    (∀ (es : FsEntries) (pm : PackageManagerInfo) (n : String),
        lookupEntry (cleanupLockFiles es pm) n =
          if n ∈ allLockFiles ∧ n ≠ pm.lockFile then none else lookupEntry es n) ∧
    cleanupLockFiles
        (.cons "package-lock.json" (.file []) (.cons "yarn.lock" (.file [])
          (.cons "pnpm-lock.yaml" (.file []) (.cons "bun.lockb" (.file [])
            (.cons "src" (.dir .nil) .nil)))))
        (withVersion (PACKAGE_MANAGER_CONFIG .pnpm) "8.10.0") =
      .cons "pnpm-lock.yaml" (.file []) (.cons "src" (.dir .nil) .nil) := by
  refine ⟨fun es pm n => ?_, rfl⟩
  simp only [cleanupLockFiles, allLockFiles, List.foldl_cons, List.foldl_nil]
  rw [lookupEntry_cleanupStep, lookupEntry_cleanupStep, lookupEntry_cleanupStep,
    lookupEntry_cleanupStep]
  by_cases h1 : n = "package-lock.json" <;> by_cases h2 : n = "yarn.lock" <;>
    by_cases h3 : n = "pnpm-lock.yaml" <;> by_cases h4 : n = "bun.lockb" <;>
    by_cases h5 : n = pm.lockFile <;>
    simp_all [List.mem_cons]

/-! ## Project-name prompt: format and validate (part_010 lines 36–46) -/

/-- Source `format` callback: `val.toLowerCase().split(" ").join("-")`.
`Char.toLower` lowercases exactly the ASCII range, which is all the
validation regex distinguishes. -/
def formatProjectName (val : List Char) : List Char :=
  List.intercalate ['-'] ((val.map Char.toLower).splitOn ' ')

/-- Character class of the validation regex `[a-z0-9-]`. -/
def isNameChar (c : Char) : Bool :=
  ('a' ≤ c && c ≤ 'z') || ('0' ≤ c && c ≤ '9') || c = '-'

/-- Source `validate` callback: `/^[a-z0-9-]+$/.test(val)` (anchored, so the
whole string must be a nonempty run of name characters). -/
def validateProjectName (val : List Char) : Bool :=
  !val.isEmpty && val.all isNameChar

/-- Modelled from the spec: the `prompts` library (an external dependency
whose sources are not part of this repository) wires the `format` and
`validate` callbacks so that the name is "lowercase, spaces converted to
hyphens before the regex check".  Acceptance of an entered name is therefore
validation of its formatted form. -/
def promptNameAccepted (entered : List Char) : Bool :=
  validateProjectName (formatProjectName entered)

/-- C6: a name is accepted iff its lowercased, space-to-hyphen normalization
is a nonempty string of `[a-z0-9-]` characters; `"my-mb-project"` is
accepted, `"My Cool App"` is accepted and normalizes to `"my-cool-app"`,
and `"my_app!"` is rejected. -/
theorem promptNameAccepted_spec :
    (∀ s : List Char, promptNameAccepted s = true ↔
        (formatProjectName s ≠ [] ∧ ∀ c ∈ formatProjectName s, isNameChar c = true)) ∧
    formatProjectName "My Cool App".data = "my-cool-app".data ∧
    promptNameAccepted "my-mb-project".data = true ∧
    promptNameAccepted "My Cool App".data = true ∧
    promptNameAccepted "my_app!".data = false := by
  refine ⟨fun s => ?_, by decide, by decide, by decide, by decide⟩
  simp [promptNameAccepted, validateProjectName, List.all_eq_true,
    List.isEmpty_iff]

/-! ## Dependency preflight (part_012 lines 168–207) -/

/-- The four checked toolchain commands, in the iteration order of the
`deps` object literal. -/
inductive DepTool where
  | rustc | cargo | solana | anchor
deriving DecidableEq, Repr

/-- Version-check command of each tool (`deps[k].command`). -/
def depCommand : DepTool → String
  | .rustc => "rustc --version"
  | .cargo => "cargo --version"
  | .solana => "solana --version"
  | .anchor => "anchor --version"

/-- Install link printed for a missing tool (`deps[k].link`). -/
def depLink : DepTool → String
  | .rustc => "https://www.rust-lang.org/learn/get-started"
  | .cargo => "https://www.rust-lang.org/learn/get-started"
  | .solana => "https://solana.com/docs/intro/installation"
  | .anchor => "https://www.anchor-lang.com/docs/installation"

/-- Iteration order of `Object.entries(deps)`. -/
def depOrder : List DepTool := [.rustc, .cargo, .solana, .anchor]

/-- The `for (const dep of Object.entries(deps))` loop: every tool's command
is executed (`avail` is the success of `execSync`); each failing tool is
reported with its install link, and the `missing` flag is set.  Returns the
reported missing tools (with links, in order) and the final flag. -/
def checkLoop (avail : DepTool → Bool) : List DepTool → List (DepTool × String) × Bool
  | [] => ([], false)
  | t :: rest =>
    let (rep, miss) := checkLoop avail rest
    if avail t then (rep, miss) else ((t, depLink t) :: rep, true)

/-- Source `checkDependencies`: run the loop over all four tools, then
`process.exit(1)` iff the `missing` flag is set.  First component: the
reported missing tools; second: whether the run aborts. -/
def checkDependencies (avail : DepTool → Bool) : List (DepTool × String) × Bool :=
  checkLoop avail depOrder

/-! ## Anchor.toml patcher (part_012 lines 142–166)

`updateAnchorToml` performs two `String.replace` calls with non-global
multiline regexes, i.e. two leftmost-match substitutions where a match may
start only at the beginning of the string or right after a line terminator
(the JavaScript `m`-flag semantics of `^`).  The greedy pieces `\s*`, `\s+`
and `[^"]*` of both patterns are each followed by a character excluded from
the repeated class, so matching is deterministic (no backtracking) and the
regexes are faithfully rendered as the functional matchers below. -/

/-- Characters after which the JavaScript multiline `^` matches (the ECMA
line terminators). -/
def isLineTerm (c : Char) : Bool :=
  c = '\n' || c = '\r' || c.val = 0x2028 || c.val = 0x2029

/-- Matcher for `^package_manager\s*=\s*"[^"]*"` at the head of the input
(the `^` anchoring is handled by the scanner): returns the remainder after
the match.  Note `\s` and `[^"]` also match line terminators. -/
def matchPMAt (l : List Char) : Option (List Char) :=
  match stripLit "package_manager".data l with
  | none => none
  | some l1 =>
    match l1.dropWhile jsWs with
    | '=' :: l3 =>
      match l3.dropWhile jsWs with
      | '"' :: l5 =>
        match l5.dropWhile (fun c => !(c = '"')) with
        | '"' :: l7 => some l7
        | _ => none
      | _ => none
    | _ => none

/-- One alternative of `(npm run|yarn|pnpm|bun run)\s+ts-mocha`: the literal
itself, at least one whitespace character (maximal run), then `ts-mocha`. -/
def matchOneAlt (alt : List Char) (l : List Char) : Option (List Char) :=
  match stripLit alt l with
  | none => none
  | some [] => none
  | some (c :: l1) =>
    if jsWs c then stripLit "ts-mocha".data ((c :: l1).dropWhile jsWs) else none

/-- The four run-command alternatives, in the regex's left-to-right order
(their first characters are pairwise distinct, so at most one can match). -/
def matchAltTail (l : List Char) : Option (List Char) :=
  matchOneAlt "npm run".data l <|> matchOneAlt "yarn".data l <|>
    matchOneAlt "pnpm".data l <|> matchOneAlt "bun run".data l

/-- Matcher for `^test\s*=\s*"(npm run|yarn|pnpm|bun run)\s+ts-mocha` at the
head of the input: returns the remainder after the match. -/
def matchTestAt (l : List Char) : Option (List Char) :=
  match stripLit "test".data l with
  | none => none
  | some l1 =>
    match l1.dropWhile jsWs with
    | '=' :: l3 =>
      match l3.dropWhile jsWs with
      | '"' :: l5 => matchAltTail l5
      | _ => none
    | _ => none

/-- Replacement text `package_manager = "${packageManager.name}"`. -/
def pmReplacement (packageManager : PackageManagerInfo) : List Char :=
  "package_manager = \"".data ++ (pmKey packageManager.name).data ++ ['"']

/-- Replacement text `test = "${packageManager.runCommand} ts-mocha`. -/
def testReplacement (packageManager : PackageManagerInfo) : List Char :=
  "test = \"".data ++ packageManager.runCommand.data ++ " ts-mocha".data

/-- Leftmost-match single replacement, the semantics of a non-global
`String.replace`: scan left to right; at the start of the string (`flag`)
and after every line terminator, try the matcher; on the first success
substitute the replacement for the matched span and stop. -/
def replaceFirstAux (M : List Char → Option (List Char)) (repl : List Char) :
    Bool → List Char → List Char
  | _, [] => []
  | flag, c :: rest =>
    if flag then
      match M (c :: rest) with
      | some after => repl ++ after
      | none => c :: replaceFirstAux M repl (isLineTerm c) rest
    else c :: replaceFirstAux M repl (isLineTerm c) rest

/-- Replacement over the whole string (position 0 is a line start). -/
def replaceFirst (M : List Char → Option (List Char)) (repl : List Char)
    (l : List Char) : List Char :=
  replaceFirstAux M repl true l

/-- Body of `updateAnchorToml` once the file exists: the `package_manager`
substitution, then the `test` substitution on its result. -/
def updateAnchorTomlContent (packageManager : PackageManagerInfo)
    (content : List Char) : List Char :=
  replaceFirst matchTestAt (testReplacement packageManager)
    (replaceFirst matchPMAt (pmReplacement packageManager) content)

/-- Source `updateAnchorToml` (part_012 lines 142–166): a missing
`Anchor.toml` is left alone (`none`), otherwise the two substitutions are
applied to its content and the result written back. -/
def updateAnchorToml (packageManager : PackageManagerInfo) :
    Option (List Char) → Option (List Char)
  | none => none
  | some content => some (updateAnchorTomlContent packageManager content)

/-- Number of lines of a text (one more than the newline count). -/
def numLines (l : List Char) : Nat :=
  (l.filter (fun c => c = '\n')).length + 1

/-- Helper: a successful `stripLit` returns a suffix of its input. -/
theorem stripLit_suffix (lit : List Char) :
    ∀ l r, stripLit lit l = some r → r <:+ l := by
  induction lit with
  | nil =>
    intro l r h
    injection h with h
    exact h ▸ List.suffix_refl l
  | cons p ps ih =>
    intro l r h
    cases l with
    | nil => exact absurd h (by simp [stripLit])
    | cons c cs =>
      simp only [stripLit] at h
      split at h
      · exact (ih cs r h).trans (List.suffix_cons c cs)
      · exact absurd h (by simp)

/-- Helper: a successful `matchPMAt` returns a suffix of its input. -/
theorem matchPMAt_suffix : ∀ l after, matchPMAt l = some after → after <:+ l := by
  intro l after h
  unfold matchPMAt at h
  split at h
  · exact absurd h (by simp)
  · rename_i l1 heq1
    split at h
    · rename_i l3 heq2
      split at h
      · rename_i l5 heq3
        split at h
        · rename_i l7 heq4
          injection h with h
          subst h
          have s5 : l7 <:+ l5 := by
            have h1 : l7 <:+ '"' :: l7 := List.suffix_cons _ _
            rw [← heq4] at h1
            exact h1.trans (List.dropWhile_suffix _)
          have s3 : l5 <:+ l3 := by
            have h1 : l5 <:+ '"' :: l5 := List.suffix_cons _ _
            rw [← heq3] at h1
            exact h1.trans (List.dropWhile_suffix _)
          have s1 : l3 <:+ l1 := by
            have h1 : l3 <:+ '=' :: l3 := List.suffix_cons _ _
            rw [← heq2] at h1
            exact h1.trans (List.dropWhile_suffix _)
          exact ((s5.trans s3).trans s1).trans (stripLit_suffix _ _ _ heq1)
        · exact absurd h (by simp)
      · exact absurd h (by simp)
    · exact absurd h (by simp)

/-- Helper: a successful `matchOneAlt` returns a suffix of its input. -/
theorem matchOneAlt_suffix (alt : List Char) :
    ∀ l after, matchOneAlt alt l = some after → after <:+ l := by
  intro l after h
  unfold matchOneAlt at h
  split at h
  · exact absurd h (by simp)
  · exact absurd h (by simp)
  · rename_i c l1 heq1
    split at h
    · have s2 : after <:+ (c :: l1).dropWhile jsWs := stripLit_suffix _ _ _ h
      exact (s2.trans (List.dropWhile_suffix _)).trans (stripLit_suffix _ _ _ heq1)
    · exact absurd h (by simp)

/-- Helper: a successful `matchAltTail` returns a suffix of its input. -/
theorem matchAltTail_suffix : ∀ l after, matchAltTail l = some after → after <:+ l := by
  intro l after h
  unfold matchAltTail at h
  rcases (Option.orElse_eq_some _ _ _).1 h with h1 | ⟨_, h1⟩
  · exact matchOneAlt_suffix _ _ _ h1
  rcases (Option.orElse_eq_some _ _ _).1 h1 with h2 | ⟨_, h2⟩
  · exact matchOneAlt_suffix _ _ _ h2
  rcases (Option.orElse_eq_some _ _ _).1 h2 with h3 | ⟨_, h3⟩
  · exact matchOneAlt_suffix _ _ _ h3
  · exact matchOneAlt_suffix _ _ _ h3

/-- Helper: a successful `matchTestAt` returns a suffix of its input. -/
theorem matchTestAt_suffix : ∀ l after, matchTestAt l = some after → after <:+ l := by
  intro l after h
  unfold matchTestAt at h
  split at h
  · exact absurd h (by simp)
  · rename_i l1 heq1
    split at h
    · rename_i l3 heq2
      split at h
      · rename_i l5 heq3
        have s5 : after <:+ l5 := matchAltTail_suffix _ _ h
        have s3 : l5 <:+ l3 := by
          have h1 : l5 <:+ '"' :: l5 := List.suffix_cons _ _
          rw [← heq3] at h1
          exact h1.trans (List.dropWhile_suffix _)
        have s1 : l3 <:+ l1 := by
          have h1 : l3 <:+ '=' :: l3 := List.suffix_cons _ _
          rw [← heq2] at h1
          exact h1.trans (List.dropWhile_suffix _)
        exact ((s5.trans s3).trans s1).trans (stripLit_suffix _ _ _ heq1)
      · exact absurd h (by simp)
    · exact absurd h (by simp)

/-- Whether the position right after `pre` is a position where the multiline
`^` matches: the very start of the scan (when the scan begins at a line
start, `flag`) or just after a line terminator. -/
def lineStartAt (pre : List Char) (flag : Bool) : Prop :=
  (pre = [] ∧ flag = true) ∨ ∃ pre' c, pre = pre' ++ [c] ∧ isLineTerm c = true

/-- What a leftmost-match substitution does: either the input is returned
unchanged, or it splits as `pre ++ mat ++ suf` where `mat` is a match at a
line-start position, no strictly earlier line-start position matches, and
exactly `mat` is replaced — every byte of `pre` and `suf` is passed through. -/
def ReplaceSpec (M : List Char → Option (List Char)) (repl : List Char)
    (flag : Bool) (l output : List Char) : Prop :=
  output = l ∨
  ∃ pre mat suf, l = pre ++ mat ++ suf ∧ output = pre ++ repl ++ suf ∧
    M (mat ++ suf) = some suf ∧ lineStartAt pre flag ∧
    (∀ u v, pre = u ++ v → v ≠ [] → lineStartAt u flag → M (v ++ (mat ++ suf)) = none)

/-- Helper: extending a substitution decomposition by one unmatched head
character. -/
theorem ReplaceSpec_cons (M : List Char → Option (List Char)) (repl : List Char)
    (c : Char) (rest out : List Char) (flag : Bool)
    (hm : flag = true → M (c :: rest) = none)
    (prev : ReplaceSpec M repl (isLineTerm c) rest out) :
    ReplaceSpec M repl flag (c :: rest) (c :: out) := by
  rcases prev with h | ⟨pre, mat, suf, h1, h2, h3, h4, h5⟩
  · exact Or.inl (by rw [h])
  refine Or.inr ⟨c :: pre, mat, suf, by simp [h1], by simp [h2], h3, ?_, ?_⟩
  · rcases h4 with ⟨hpre, hflag⟩ | ⟨pre', d, hpre, hd⟩
    · subst hpre
      exact Or.inr ⟨[], c, rfl, hflag⟩
    · exact Or.inr ⟨c :: pre', d, by simp [hpre], hd⟩
  · intro u v huv hv hu
    cases u with
    | nil =>
      simp only [List.nil_append] at huv
      subst huv
      rcases hu with ⟨_, hflag⟩ | ⟨pre', d, habs, _⟩
      · have hmc := hm hflag
        have harr : (c :: pre) ++ (mat ++ suf) = c :: rest := by simp [h1]
        rw [harr]
        exact hmc
      · exact absurd habs (by simp)
    | cons e u' =>
      rw [List.cons_append] at huv
      injection huv with hce hpre
      apply h5 u' v hpre hv
      rcases hu with ⟨habs, _⟩ | ⟨w, d, hw, hd⟩
      · exact absurd habs (by simp)
      · cases w with
        | nil =>
          rw [List.nil_append] at hw
          injection hw with hed hu'
          refine Or.inl ⟨hu'.symm ▸ rfl, ?_⟩
          rw [hce, hed]
          exact hd
        | cons f w' =>
          rw [List.cons_append] at hw
          injection hw with hef hw'
          exact Or.inr ⟨w', d, hw', hd⟩

/-- Helper: `replaceFirstAux` satisfies the substitution decomposition,
provided the matcher returns suffixes of its input. -/
theorem replaceFirstAux_decomp (M : List Char → Option (List Char)) (repl : List Char)
    (hM : ∀ l after, M l = some after → after <:+ l) :
    ∀ (l : List Char) (flag : Bool),
      ReplaceSpec M repl flag l (replaceFirstAux M repl flag l) := by
  intro l
  induction l with
  | nil => intro flag; exact Or.inl rfl
  | cons c rest ih =>
    intro flag
    cases hf : flag with
    | false =>
      have hstep : replaceFirstAux M repl false (c :: rest) =
          c :: replaceFirstAux M repl (isLineTerm c) rest := by
        simp [replaceFirstAux]
      rw [hstep]
      exact ReplaceSpec_cons M repl c rest _ false (by simp) (ih (isLineTerm c))
    | true =>
      cases hm : M (c :: rest) with
      | none =>
        have hstep : replaceFirstAux M repl true (c :: rest) =
            c :: replaceFirstAux M repl (isLineTerm c) rest := by
          simp [replaceFirstAux, hm]
        rw [hstep]
        exact ReplaceSpec_cons M repl c rest _ true (fun _ => hm) (ih (isLineTerm c))
      | some after =>
        have hstep : replaceFirstAux M repl true (c :: rest) = repl ++ after := by
          simp [replaceFirstAux, hm]
        rw [hstep]
        obtain ⟨mat, hmat⟩ := hM _ _ hm
        refine Or.inr ⟨[], mat, after, by simp [hmat.symm], by simp, ?_, Or.inl ⟨rfl, rfl⟩, ?_⟩
        · rw [hmat]; exact hm
        · intro u v huv hv _
          have : v = [] := (List.append_eq_nil.1 huv.symm).2
          exact absurd this hv

/-- C3 counterexample: on the file `"package_manager\n= \"x\""` (whose first
line has no quoted value on it) the substitution matches across the newline —
`\s*` matches line terminators — merging two lines into one, so the operation
is not confined to rewriting the quoted value on the `package_manager` line:
the output has one line where the input had two, contradicting a
line-by-line edit that passes every byte outside the two edited lines
through unchanged. -/
theorem updateAnchorToml_lines_cex :
    updateAnchorTomlContent (withVersion (PACKAGE_MANAGER_CONFIG .npm) "unknown")
        "package_manager\n= \"x\"".data = "package_manager = \"npm\"".data ∧
    numLines "package_manager\n= \"x\"".data = 2 ∧
    numLines (updateAnchorTomlContent (withVersion (PACKAGE_MANAGER_CONFIG .npm) "unknown")
        "package_manager\n= \"x\"".data) = 1 := by
  exact ⟨by decide, by decide, by decide⟩

/-- C3 (amended): `updateAnchorToml` is a no-op on a missing file; otherwise
it performs two leftmost-match substitutions: the first region at a line
start matching `package_manager\s*=\s*"[^"]*"` is replaced by
`package_manager = "<name>"`, then on the result the first region at a line
start matching `test\s*=\s*"(npm run|yarn|pnpm|bun run)\s+ts-mocha` is
replaced by `test = "<runCommand> ts-mocha`; every byte outside the replaced
regions is passed through unchanged.  Because `\s` and `[^"]` also match
line terminators, a replaced region may span several lines (see the
counterexample), so the edit is not in general confined to two lines. -/
theorem updateAnchorToml_amended (pm : PackageManagerInfo) :
    updateAnchorToml pm none = none ∧
    ∀ content : List Char,
      updateAnchorToml pm (some content) = some (updateAnchorTomlContent pm content) ∧
      ReplaceSpec matchPMAt (pmReplacement pm) true content
        (replaceFirst matchPMAt (pmReplacement pm) content) ∧
      ReplaceSpec matchTestAt (testReplacement pm) true
        (replaceFirst matchPMAt (pmReplacement pm) content)
        (updateAnchorTomlContent pm content) := by
  refine ⟨rfl, fun content => ⟨rfl, ?_, ?_⟩⟩
  · exact replaceFirstAux_decomp matchPMAt (pmReplacement pm) matchPMAt_suffix content true
  · exact replaceFirstAux_decomp matchTestAt (testReplacement pm) matchTestAt_suffix _ true

/-! ## JSON model (the Node built-ins `JSON.parse` / `JSON.stringify`)

`renamePackageJsonName` parses `package.json`, mutates the `name` property
and re-serializes with 2-space indentation.  The built-ins are modelled by an
executable parser/serializer over a JSON value type.  Two deliberate
simplifications, irrelevant to the claims: numeric literals are kept
verbatim instead of being normalized through a float (`1.50` stays `1.50`),
and duplicate object keys are kept instead of collapsed. -/

mutual

/-- JSON value. -/
inductive Json where
  | null
  | bool (b : Bool)
  | num (lit : List Char)
  | str (s : List Char)
  | arr (elems : JsonArr)
  | obj (fields : JsonObj)

/-- JSON array elements. -/
inductive JsonArr where
  | nil
  | cons (head : Json) (tail : JsonArr)

/-- JSON object fields, in textual order. -/
inductive JsonObj where
  | nil
  | cons (key : List Char) (val : Json) (tail : JsonObj)

end

/-- First binding of a key in an object. -/
def lookupKey : JsonObj → List Char → Option Json
  | .nil, _ => none
  | .cons k v rest, key => if k = key then some v else lookupKey rest key

/-- JavaScript property assignment `obj[key] = v` on a plain object: update
the value at the key's (first) existing position, else append a new binding
at the end. -/
def setKey : JsonObj → List Char → Json → JsonObj
  | .nil, key, v => .cons key v .nil
  | .cons k v' rest, key, v =>
    if k = key then .cons k v rest else .cons k v' (setKey rest key v)

/-- JSON whitespace (`ws` of the JSON grammar, what `JSON.parse` skips). -/
def jsonWs (c : Char) : Bool :=
  c = ' ' || c = '\t' || c = '\n' || c = '\r'

/-- Decimal digit. -/
def isDigit (c : Char) : Bool := '0' ≤ c && c ≤ '9'

/-- Hexadecimal digit value. -/
def hexDigit (c : Char) : Option Nat :=
  let n := c.toNat
  if 48 ≤ n ∧ n ≤ 57 then some (n - 48)
  else if 97 ≤ n ∧ n ≤ 102 then some (n - 87)
  else if 65 ≤ n ∧ n ≤ 70 then some (n - 55)
  else none

/-- Single-character JSON string escapes. -/
def unescapeChar (c : Char) : Option Char :=
  if c = '"' then some '"'
  else if c = '\\' then some '\\'
  else if c = '/' then some '/'
  else if c = 'b' then some (Char.ofNat 8)
  else if c = 'f' then some (Char.ofNat 12)
  else if c = 'n' then some '\n'
  else if c = 'r' then some '\r'
  else if c = 't' then some '\t'
  else none

/-- Parse the remainder of a JSON string after the opening quote; returns
the decoded characters and the input after the closing quote. -/
def parseStringRest : Nat → List Char → Except (List Char) (List Char × List Char)
  | 0, _ => .error "parser fuel exhausted".data
  | _, [] => .error "Unterminated string in JSON".data
  | fuel + 1, c :: rest =>
    if c = '"' then .ok ([], rest)
    else if c = '\\' then
      match rest with
      | [] => .error "Unterminated string in JSON".data
      | e :: rest2 =>
        if e = 'u' then
          match rest2 with
          | h1 :: h2 :: h3 :: h4 :: rest3 =>
            match hexDigit h1, hexDigit h2, hexDigit h3, hexDigit h4 with
            | some d1, some d2, some d3, some d4 =>
              match parseStringRest fuel rest3 with
              | .ok (s, r) =>
                .ok (Char.ofNat (((d1 * 16 + d2) * 16 + d3) * 16 + d4) :: s, r)
              | .error e => .error e
            | _, _, _, _ => .error "Bad Unicode escape in JSON".data
          | _ => .error "Bad Unicode escape in JSON".data
        else
          match unescapeChar e with
          | some c' =>
            match parseStringRest fuel rest2 with
            | .ok (s, r) => .ok (c' :: s, r)
            | .error e => .error e
          | none => .error "Bad escaped character in JSON".data
    else if c.val < 0x20 then .error "Bad control character in JSON string".data
    else
      match parseStringRest fuel rest with
      | .ok (s, r) => .ok (c :: s, r)
      | .error e => .error e

/-- Integer part of a JSON number: `0`, or a nonzero digit followed by
digits. -/
def parseIntPart (l : List Char) : Except (List Char) (List Char × List Char) :=
  match l with
  | '0' :: rest => .ok (['0'], rest)
  | c :: rest =>
    if isDigit c then .ok (c :: rest.takeWhile isDigit, rest.dropWhile isDigit)
    else .error "Unexpected token in JSON number".data
  | [] => .error "Unexpected end of JSON input".data

/-- Optional fractional part of a JSON number. -/
def parseFracPart (l : List Char) : Except (List Char) (List Char × List Char) :=
  match l with
  | '.' :: rest =>
    match rest.takeWhile isDigit with
    | [] => .error "Unterminated fractional number in JSON".data
    | ds => .ok ('.' :: ds, rest.dropWhile isDigit)
  | _ => .ok ([], l)

/-- Optional exponent part of a JSON number. -/
def parseExpPart (l : List Char) : Except (List Char) (List Char × List Char) :=
  match l with
  | c :: rest =>
    if c = 'e' || c = 'E' then
      let (sgn, r2) :=
        match rest with
        | s :: r => if s = '+' || s = '-' then ([s], r) else (([] : List Char), rest)
        | [] => ([], ([] : List Char))
      match r2.takeWhile isDigit with
      | [] => .error "Exponent part is missing a number in JSON".data
      | ds => .ok (c :: (sgn ++ ds), r2.dropWhile isDigit)
    else .ok ([], l)
  | [] => .ok ([], [])

/-- JSON number literal (kept verbatim): sign, integer part, optional
fraction, optional exponent. -/
def parseNumber (l : List Char) : Except (List Char) (List Char × List Char) :=
  let (neg, r0) :=
    match l with
    | '-' :: r => (['-'], r)
    | _ => (([] : List Char), l)
  match parseIntPart r0 with
  | .error e => .error e
  | .ok (ip, r1) =>
    match parseFracPart r1 with
    | .error e => .error e
    | .ok (fp, r2) =>
      match parseExpPart r2 with
      | .error e => .error e
      | .ok (ep, r3) => .ok (neg ++ ip ++ fp ++ ep, r3)

mutual

/-- JSON value parser (recursive descent; the fuel only bounds nesting and
is in surplus at every call site). -/
def parseValue : Nat → List Char → Except (List Char) (Json × List Char)
  | 0, _ => .error "parser fuel exhausted".data
  | fuel + 1, l =>
    match l.dropWhile jsonWs with
    | [] => .error "Unexpected end of JSON input".data
    | c :: rest =>
      if c = '{' then
        match (rest.dropWhile jsonWs) with
        | '}' :: r => .ok (.obj .nil, r)
        | _ =>
          match parseObjItems fuel rest with
          | .ok (o, r) => .ok (.obj o, r)
          | .error e => .error e
      else if c = '[' then
        match (rest.dropWhile jsonWs) with
        | ']' :: r => .ok (.arr .nil, r)
        | _ =>
          match parseArrItems fuel rest with
          | .ok (a, r) => .ok (.arr a, r)
          | .error e => .error e
      else if c = '"' then
        match parseStringRest (rest.length + 1) rest with
        | .ok (s, r) => .ok (.str s, r)
        | .error e => .error e
      else if c = 't' then
        match stripLit "rue".data rest with
        | some r => .ok (.bool true, r)
        | none => .error "Unexpected token in JSON".data
      else if c = 'f' then
        match stripLit "alse".data rest with
        | some r => .ok (.bool false, r)
        | none => .error "Unexpected token in JSON".data
      else if c = 'n' then
        match stripLit "ull".data rest with
        | some r => .ok (.null, r)
        | none => .error "Unexpected token in JSON".data
      else if c = '-' || isDigit c then
        match parseNumber (c :: rest) with
        | .ok (lit, r) => .ok (.num lit, r)
        | .error e => .error e
      else .error "Unexpected token in JSON".data

/-- Array elements after `[` (at least one element). -/
def parseArrItems : Nat → List Char → Except (List Char) (JsonArr × List Char)
  | 0, _ => .error "parser fuel exhausted".data
  | fuel + 1, l =>
    match parseValue fuel l with
    | .error e => .error e
    | .ok (v, r1) =>
      match r1.dropWhile jsonWs with
      | ',' :: r2 =>
        match parseArrItems fuel r2 with
        | .ok (a, r3) => .ok (.cons v a, r3)
        | .error e => .error e
      | ']' :: r2 => .ok (.cons v .nil, r2)
      | _ => .error "Expected , or ] after JSON array element".data

/-- Object members after `{` (at least one member). -/
def parseObjItems : Nat → List Char → Except (List Char) (JsonObj × List Char)
  | 0, _ => .error "parser fuel exhausted".data
  | fuel + 1, l =>
    match l.dropWhile jsonWs with
    | '"' :: r0 =>
      match parseStringRest (r0.length + 1) r0 with
      | .error e => .error e
      | .ok (key, r1) =>
        match r1.dropWhile jsonWs with
        | ':' :: r2 =>
          match parseValue fuel r2 with
          | .error e => .error e
          | .ok (v, r3) =>
            match r3.dropWhile jsonWs with
            | ',' :: r4 =>
              match parseObjItems fuel r4 with
              | .ok (o, r5) => .ok (.cons key v o, r5)
              | .error e => .error e
            | '}' :: r4 => .ok (.cons key v .nil, r4)
            | _ => .error "Expected , or \x7d after JSON property value".data
        | _ => .error "Expected : after JSON property name".data
    | _ => .error "Expected JSON property name".data

end

/-- The built-in `JSON.parse`: a value, then only trailing whitespace. -/
def jsonParse (l : List Char) : Except (List Char) Json :=
  match parseValue (l.length + 1) l with
  | .error e => .error e
  | .ok (j, r) =>
    match r.dropWhile jsonWs with
    | [] => .ok j
    | _ => .error "Unexpected non-whitespace character after JSON".data

/-- Hexadecimal digit character (lowercase). -/
def hexCh (n : Nat) : Char :=
  if n < 10 then Char.ofNat ('0'.toNat + n) else Char.ofNat ('a'.toNat + n - 10)

/-- Escaping of one character by `JSON.stringify`. -/
def escapeChar (c : Char) : List Char :=
  if c = '"' then ['\\', '"']
  else if c = '\\' then ['\\', '\\']
  else if c = '\n' then ['\\', 'n']
  else if c = '\r' then ['\\', 'r']
  else if c = '\t' then ['\\', 't']
  else if c.val = 8 then ['\\', 'b']
  else if c.val = 12 then ['\\', 'f']
  else if c.val < 0x20 then
    ['\\', 'u', '0', '0', hexCh (c.toNat / 16), hexCh (c.toNat % 16)]
  else [c]

/-- String-body escaping by `JSON.stringify`. -/
def escapeString (s : List Char) : List Char :=
  (s.map escapeChar).flatten

/-- Indentation produced by `JSON.stringify(value, null, 2)` at a nesting
depth. -/
def indent2 (depth : Nat) : List Char :=
  List.replicate (2 * depth) ' '

mutual

/-- The built-in `JSON.stringify(value, null, 2)` at a nesting depth. -/
def jsonStringify : Nat → Json → List Char
  | _, .null => "null".data
  | _, .bool true => "true".data
  | _, .bool false => "false".data
  | _, .num lit => lit
  | _, .str s => '"' :: (escapeString s ++ ['"'])
  | _, .arr .nil => "[]".data
  | depth, .arr (.cons h t) =>
    '[' :: '\n' :: (jsonStringifyArr (depth + 1) (.cons h t) ++
      '\n' :: (indent2 depth ++ [']']))
  | _, .obj .nil => "{}".data
  | depth, .obj (.cons k v t) =>
    '{' :: '\n' :: (jsonStringifyObj (depth + 1) (.cons k v t) ++
      '\n' :: (indent2 depth ++ ['}']))

/-- Array elements, one per line. -/
def jsonStringifyArr : Nat → JsonArr → List Char
  | _, .nil => []
  | depth, .cons h .nil => indent2 depth ++ jsonStringify depth h
  | depth, .cons h (.cons h' t) =>
    indent2 depth ++ (jsonStringify depth h ++
      ',' :: '\n' :: jsonStringifyArr depth (.cons h' t))

/-- Object members, one per line, `": "` separated. -/
def jsonStringifyObj : Nat → JsonObj → List Char
  | _, .nil => []
  | depth, .cons k v .nil =>
    indent2 depth ++ ('"' :: (escapeString k ++ ['"'])) ++ (':' :: ' ' :: jsonStringify depth v)
  | depth, .cons k v (.cons k' v' t) =>
    indent2 depth ++ ('"' :: (escapeString k ++ ['"'])) ++ (':' :: ' ' :: jsonStringify depth v) ++
      ',' :: '\n' :: jsonStringifyObj depth (.cons k' v' t)

end

/-- JavaScript `packageJson.name = projectName` on the value `JSON.parse`
returned: property update on an object; a `TypeError` on `null`; a silent
no-op (as far as `JSON.stringify` output is concerned) on other values. -/
def setName (j : Json) (projectName : List Char) : Except (List Char) Json :=
  match j with
  | .obj fields => .ok (.obj (setKey fields "name".data (.str projectName)))
  | .null => .error "TypeError: Cannot set properties of null".data
  | j => .ok j

/-- Source `renamePackageJsonName` (part_012 lines 109–120), with the
filesystem read made explicit: the argument is the content of
`package.json` (`none` when `fs.existsSync` is false, in which case the
function warns and returns without writing).  A parse failure propagates
(there is no `try`/`catch` in the function).  On success the returned
content is written back. -/
def renamePackageJsonName (file : Option (List Char)) (projectName : List Char) :
    Except (List Char) (Option (List Char)) :=
  match file with
  | none => .ok none
  | some content =>
    match jsonParse content with
    | .error e => .error e
    | .ok j =>
      match setName j projectName with
      | .error e => .error e
      | .ok j' => .ok (some (jsonStringify 0 j'))

/-! ## Orchestrator (`main`, part_010) -/

/-- Overwrite (or create) the named file in a directory: the effect of
`fs.writeFileSync`. -/
def setEntry : FsEntries → String → Fs → FsEntries
  | .nil, name, e => .cons name e .nil
  | .cons n x rest, name, e =>
    if n = name then .cons n e rest else .cons n x (setEntry rest name e)

/-- The `renamePackageJsonName` call of `main`, acting on the target
directory's entries: read `package.json` if present, rewrite it through
`renamePackageJsonName`.  Reading a non-file entry named `package.json`
makes `readFileSync` throw. -/
def renameStep (es : FsEntries) (projectName : List Char) :
    Except (List Char) FsEntries :=
  match lookupEntry es "package.json" with
  | none => .ok es
  | some (.file content) =>
    match renamePackageJsonName (some content) projectName with
    | .error e => .error e
    | .ok (some newContent) => .ok (setEntry es "package.json" (.file newContent))
    | .ok none => .ok es
  | some _ => .error "EISDIR: illegal operation on a directory, read".data

/-- The `updateAnchorToml` call of `main`, acting on the target directory's
entries. -/
def tomlStep (es : FsEntries) (packageManager : PackageManagerInfo) :
    Except (List Char) FsEntries :=
  match lookupEntry es "Anchor.toml" with
  | none => .ok es
  | some (.file content) =>
    .ok (setEntry es "Anchor.toml"
      (.file (updateAnchorTomlContent packageManager content)))
  | some _ => .error "EISDIR: illegal operation on a directory, read".data

/-- Inputs of one run of `main`: the environment user agent, the outcome of
the four version-check commands, the prompt answers (`none` models
cancellation; the name is the formatted submitted value), the state of the
`templates/<value>` path, the state of the target path, and the outcomes of
the two external process invocations (`initGitRepo`, `installDependencies`;
their sources are not in the repository — modelled from the spec as thin
wrappers whose failure surfaces as a top-level error). -/
structure World where
  userAgent : Option String
  deps : DepTool → Bool
  prompt : Option (String × List Char)
  templateFs : String → Option Fs
  target : Option Fs
  gitResult : Except (List Char) Unit
  installResult : Except (List Char) Unit

/-- Observable outcome of a run of `main`. -/
inductive MainOutcome where
  | missingDeps (reported : List (DepTool × String))
  | cancelled
  | templateMissing
  | targetConflict
  | runtimeError (msg : List Char)
  | success

/-- Process exit code of each outcome (`process.exit` calls and the
top-level `catch`). -/
def exitCode : MainOutcome → Nat
  | .cancelled => 0
  | .success => 0
  | _ => 1

/-- The scaffold pipeline of `main` after the target-directory guard
(part_010 lines 82–100): `mkdirSync`, copy the template, patch
`package.json`, patch `Anchor.toml`, prune lockfiles, init git, install.  A
thrown error is caught by the top-level handler (exit 1), leaving the
partially scaffolded target on disk. -/
def scaffold (w : World) (packageManager : PackageManagerInfo)
    (projectName : List Char) (tmpl : Fs) : MainOutcome × Option Fs :=
  match copyFilesAndDirectories (some tmpl) with
  | .error e => (.runtimeError e.data, some (.dir .nil))
  | .ok (.dir ces) =>
    match renameStep ces projectName with
    | .error e => (.runtimeError e, some (.dir ces))
    | .ok ces1 =>
      match tomlStep ces1 packageManager with
      | .error e => (.runtimeError e, some (.dir ces1))
      | .ok ces2 =>
        match w.gitResult with
        | .error e => (.runtimeError e, some (.dir (cleanupLockFiles ces2 packageManager)))
        | .ok _ =>
          match w.installResult with
          | .error e =>
            (.runtimeError e, some (.dir (cleanupLockFiles ces2 packageManager)))
          | .ok _ => (.success, some (.dir (cleanupLockFiles ces2 packageManager)))
  | .ok _ => (.runtimeError "ENOTDIR: not a directory".data, some (.dir .nil))

/-- Source `main` (part_010 lines 19–115): detect the package manager, run
the dependency preflight (exit 1 when a tool is missing), prompt
(cancellation and falsy answers exit 0), require the template directory to
exist, refuse an existing non-empty target (readdir of an existing
non-directory target throws into the top-level catch), reuse an existing
empty target, and scaffold.  Returns the outcome together with the final
state of the target path. -/
def mainModel (w : World) : MainOutcome × Option Fs :=
  let packageManager := detectPackageManager w.userAgent
  let check := checkDependencies w.deps
  if check.2 then (.missingDeps check.1, w.target)
  else
    match w.prompt with
    | none => (.cancelled, w.target)
    | some (template, projectName) =>
      if projectName = [] ∨ template = "" then (.cancelled, w.target)
      else
        match w.templateFs template with
        | none => (.templateMissing, w.target)
        | some tmpl =>
          match w.target with
          | some (.dir (.cons _ _ _)) => (.targetConflict, w.target)
          | some (.file _) =>
            (.runtimeError "ENOTDIR: not a directory, scandir".data, w.target)
          | some .other =>
            (.runtimeError "ENOTDIR: not a directory, scandir".data, w.target)
          | some (.dir .nil) => scaffold w packageManager projectName tmpl
          | none => scaffold w packageManager projectName tmpl

/-- Helper: lookup after a property update. -/
theorem lookupKey_setKey : ∀ (fields : JsonObj) (key : List Char) (v : Json) (k : List Char),
    lookupKey (setKey fields key v) k = if k = key then some v else lookupKey fields k
  | .nil, key, v, k => by
    by_cases h : k = key
    · simp [setKey, lookupKey, h]
    · have h' : ¬ key = k := fun hx => h hx.symm
      simp [setKey, lookupKey, h, h']
  | .cons k' v' rest, key, v, k => by
    by_cases h1 : k' = key
    · subst h1
      by_cases h2 : k' = k
      · simp [setKey, lookupKey, h2]
      · have h2' : ¬ k = k' := fun hx => h2 hx.symm
        simp [setKey, lookupKey, h2, h2']
    · by_cases h2 : k' = k
      · subst h2
        have hk : ¬ k' = key := h1
        simp [setKey, lookupKey, h1, hk]
      · simp [setKey, lookupKey, h1, h2, lookupKey_setKey rest key v k]

/-- C4: on a `package.json` that parses as a JSON object, the rewrite
serializes (with 2-space indentation) the same object with its `name`
property set to the project name: looking up `name` in the written object
yields exactly the project name, and every other key is bound exactly as
before.  On a missing `package.json` the function warns and returns
without writing. -/
theorem renamePackageJsonName_spec :
    (∀ (content : List Char) (fields : JsonObj) (n : List Char),
        jsonParse content = .ok (.obj fields) →
        renamePackageJsonName (some content) n =
          .ok (some (jsonStringify 0 (.obj (setKey fields "name".data (.str n))))) ∧
        lookupKey (setKey fields "name".data (.str n)) "name".data = some (.str n) ∧
        (∀ k, k ≠ "name".data →
          lookupKey (setKey fields "name".data (.str n)) k = lookupKey fields k)) ∧
    (∀ n, renamePackageJsonName none n = .ok none) := by
  refine ⟨fun content fields n hparse => ⟨?_, ?_, fun k hk => ?_⟩, fun _ => rfl⟩
  · simp [renamePackageJsonName, hparse, setName]
  · simp [lookupKey_setKey]
  · simp [lookupKey_setKey, hk]

/-- Witness for C4 on a two-field `package.json`. -/
theorem renamePackageJsonName_spec_witness :
    renamePackageJsonName (some "\x7b\n  \"name\": \"old\",\n  \"version\": \"1.0.0\"\n\x7d".data)
        "my-app".data =
      .ok (some (jsonStringify 0 (.obj (setKey
        (.cons "name".data (.str "old".data)
          (.cons "version".data (.str "1.0.0".data) .nil))
        "name".data (.str "my-app".data))))) ∧
    lookupKey (setKey
        (.cons "name".data (.str "old".data)
          (.cons "version".data (.str "1.0.0".data) .nil))
        "name".data (.str "my-app".data)) "name".data = some (.str "my-app".data) ∧
    (∀ k, k ≠ "name".data →
      lookupKey (setKey
        (.cons "name".data (.str "old".data)
          (.cons "version".data (.str "1.0.0".data) .nil))
        "name".data (.str "my-app".data)) k =
      lookupKey (.cons "name".data (.str "old".data)
        (.cons "version".data (.str "1.0.0".data) .nil)) k) :=
  renamePackageJsonName_spec.1 _ _ _ rfl

/-- Helper: a file found by `lookupEntry` is the file `fileAt` reads. -/
theorem fileAtEntries_lookup : ∀ (es : FsEntries) (nm : String) (c : List Char),
    lookupEntry es nm = some (.file c) → fileAtEntries es nm [] = some c
  | .nil, nm, c => by simp [lookupEntry, fileAtEntries]
  | .cons n e rest, nm, c => by
    by_cases h : n = nm
    · subst h
      intro hl
      simp only [lookupEntry, if_pos rfl] at hl
      injection hl with hl
      subst hl
      simp [fileAtEntries, fileAt]
    · intro hl
      simp only [lookupEntry, if_neg h] at hl
      simp [fileAtEntries, h, fileAtEntries_lookup rest nm c hl]

/-- C10: when `package.json` exists but does not parse, the parse error
propagates out of `renamePackageJsonName` (warn-and-continue covers only the
file-absent case); in the orchestrator the error reaches the top-level
handler, which exits non-zero, and the copied `package.json` content is
still intact and unmodified in the target. -/
theorem renamePackageJsonName_parse_error :
    ∀ (content err projectName : List Char),
      jsonParse content = .error err →
      renamePackageJsonName (some content) projectName = .error err ∧
      ∀ (w : World) (t : String) (tmplEs : FsEntries),
        (checkDependencies w.deps).2 = false →
        w.prompt = some (t, projectName) → projectName ≠ [] → t ≠ "" →
        w.templateFs t = some (.dir tmplEs) →
        w.target = none →
        lookupEntry (copyEntries tmplEs) "package.json" = some (.file content) →
        mainModel w = (.runtimeError err, some (.dir (copyEntries tmplEs))) ∧
        exitCode (mainModel w).1 = 1 ∧
        fileAt (.dir (copyEntries tmplEs)) ["package.json"] = some content := by
  intro content err projectName hparse
  have hrn : renamePackageJsonName (some content) projectName = .error err := by
    simp [renamePackageJsonName, hparse]
  refine ⟨hrn, fun w t tmplEs hdeps hprompt hname ht htmpl htarget hlook => ?_⟩
  have hmain : mainModel w = (.runtimeError err, some (.dir (copyEntries tmplEs))) := by
    have hnf : ¬ (projectName = [] ∨ t = "") := by
      rintro (h | h)
      · exact hname h
      · exact ht h
    simp only [mainModel, hdeps, hprompt, htmpl, htarget, Bool.false_eq_true, if_false,
      if_neg hnf]
    simp only [scaffold, copyFilesAndDirectories, renameStep, hlook, hrn]
  exact ⟨hmain, by rw [hmain]; rfl, fileAtEntries_lookup _ _ _ hlook⟩

/-- Witness for C10: the unparsable content `"\x7b"` in an otherwise healthy
world. -/
theorem renamePackageJsonName_parse_error_witness :
    renamePackageJsonName (some "\x7b".data) "my-app".data =
        .error "Expected JSON property name".data ∧
    mainModel
        ⟨none, fun _ => true, some ("mb-er-counter", "my-app".data),
          fun t => if t = "mb-er-counter" then
            some (.dir (.cons "package.json" (.file "\x7b".data) .nil)) else none,
          none, .ok (), .ok ()⟩ =
      (.runtimeError "Expected JSON property name".data,
        some (.dir (.cons "package.json" (.file "\x7b".data) .nil))) := by
  have h := renamePackageJsonName_parse_error "\x7b".data
    "Expected JSON property name".data "my-app".data rfl
  refine ⟨h.1, ?_⟩
  have h2 := (h.2 ⟨none, fun _ => true, some ("mb-er-counter", "my-app".data),
      fun t => if t = "mb-er-counter" then
        some (.dir (.cons "package.json" (.file "\x7b".data) .nil)) else none,
      none, .ok (), .ok ()⟩
    "mb-er-counter" (.cons "package.json" (.file "\x7b".data) .nil)
    rfl rfl (by decide) (by decide) rfl rfl rfl)
  exact h2.1

/-- Helper: the scaffold pipeline reads only the external-process outcomes
from the world, so worlds agreeing on those scaffold identically. -/
theorem scaffold_ext (w w' : World) (pm : PackageManagerInfo) (pn : List Char)
    (tmpl : Fs) (hg : w.gitResult = w'.gitResult)
    (hi : w.installResult = w'.installResult) :
    scaffold w pm pn tmpl = scaffold w' pm pn tmpl := by
  unfold scaffold
  rw [hg, hi]

/-- C7: with the preflight passing and valid prompt answers, a target path
that exists with at least one entry makes the run abort with the conflict
outcome and exit code 1, the target left exactly as it was (nothing is
created or written anywhere); a target path that exists but is empty is
reused: the run proceeds exactly as if the directory had not existed. -/
theorem mainTargetGuard_spec (w : World) (t : String) (name : List Char) (tmpl : Fs)
    (hdeps : (checkDependencies w.deps).2 = false)
    (hprompt : w.prompt = some (t, name)) (hname : name ≠ []) (ht : t ≠ "")
    (htmpl : w.templateFs t = some tmpl) :
    (∀ n e rest, w.target = some (.dir (.cons n e rest)) →
        mainModel w = (.targetConflict, w.target) ∧
        exitCode (mainModel w).1 = 1) ∧
    (w.target = some (.dir .nil) →
        mainModel w = mainModel {w with target := none}) := by
  have hnf : ¬ (name = [] ∨ t = "") := by
    rintro (h | h)
    · exact hname h
    · exact ht h
  constructor
  · intro n e rest htarget
    have : mainModel w = (.targetConflict, w.target) := by
      simp only [mainModel, hdeps, hprompt, htmpl, htarget, Bool.false_eq_true, if_false,
        if_neg hnf]
    exact ⟨this, by rw [this]; rfl⟩
  · intro htarget
    simp only [mainModel, hdeps, hprompt, htmpl, htarget, Bool.false_eq_true, if_false,
      if_neg hnf]
    exact scaffold_ext _ _ _ _ _ rfl rfl

/-- Witness for C7: a non-empty target directory aborts with the conflict
outcome; an empty one scaffolds like a fresh one. -/
theorem mainTargetGuard_spec_witness :
    (mainModel
        ⟨none, fun _ => true, some ("mb-er-counter", "my-app".data),
          fun t => if t = "mb-er-counter" then some (.dir .nil) else none,
          some (.dir (.cons "stale.txt" (.file []) .nil)), .ok (), .ok ()⟩ =
      (.targetConflict, some (.dir (.cons "stale.txt" (.file []) .nil))) ∧
      exitCode (mainModel
        ⟨none, fun _ => true, some ("mb-er-counter", "my-app".data),
          fun t => if t = "mb-er-counter" then some (.dir .nil) else none,
          some (.dir (.cons "stale.txt" (.file []) .nil)), .ok (), .ok ()⟩).1 = 1) ∧
    mainModel
        ⟨none, fun _ => true, some ("mb-er-counter", "my-app".data),
          fun t => if t = "mb-er-counter" then some (.dir .nil) else none,
          some (.dir .nil), .ok (), .ok ()⟩ =
      mainModel
        ⟨none, fun _ => true, some ("mb-er-counter", "my-app".data),
          fun t => if t = "mb-er-counter" then some (.dir .nil) else none,
          none, .ok (), .ok ()⟩ := by
  have h1 := mainTargetGuard_spec
    ⟨none, fun _ => true, some ("mb-er-counter", "my-app".data),
      fun t => if t = "mb-er-counter" then some (.dir .nil) else none,
      some (.dir (.cons "stale.txt" (.file []) .nil)), .ok (), .ok ()⟩
    "mb-er-counter" "my-app".data (.dir .nil) rfl rfl (by decide) (by decide) rfl
  have h2 := mainTargetGuard_spec
    ⟨none, fun _ => true, some ("mb-er-counter", "my-app".data),
      fun t => if t = "mb-er-counter" then some (.dir .nil) else none,
      some (.dir .nil), .ok (), .ok ()⟩
    "mb-er-counter" "my-app".data (.dir .nil) rfl rfl (by decide) (by decide) rfl
  exact ⟨h1.1 "stale.txt" (.file []) .nil rfl, h2.2 rfl⟩

/-- Helper: the abort flag of the preflight is set iff some tool's
version-check command fails. -/
theorem checkDependencies_flag (avail : DepTool → Bool) :
    (checkDependencies avail).2 = true ↔ ∃ t, avail t = false := by
  constructor
  · intro h
    by_contra hno
    push_neg at hno
    have hall : ∀ t, avail t = true := by
      intro t
      cases hav : avail t with
      | false => exact absurd hav (hno t)
      | true => rfl
    simp [checkDependencies, checkLoop, depOrder, hall] at h
  · rintro ⟨t, ht⟩
    cases hr : avail .rustc <;> cases hc : avail .cargo <;>
      cases hs : avail .solana <;> cases ha : avail .anchor <;>
      simp [checkDependencies, checkLoop, depOrder, hr, hc, hs, ha]
    all_goals (cases t <;> simp_all)

/-- Helper: the scaffold pipeline never reports missing dependencies. -/
theorem scaffold_not_missingDeps (w : World) (pm : PackageManagerInfo)
    (pn : List Char) (tmpl : Fs) (rep : List (DepTool × String)) :
    (scaffold w pm pn tmpl).1 ≠ .missingDeps rep := by
  unfold scaffold
  repeat' split
  all_goals simp

/-- C8: the preflight runs all four version-check commands and reports every
failing tool with its install link (all of them, not only the first); the run
exits with code 1 iff at least one of the four fails; when all four succeed
the run continues past the preflight. -/
theorem checkDependencies_spec :
    (∀ avail : DepTool → Bool,
        (checkDependencies avail).1 =
          (depOrder.filter (fun t => !avail t)).map (fun t => (t, depLink t)) ∧
        ((checkDependencies avail).2 = true ↔ ∃ t, avail t = false)) ∧
    (∀ w : World, (∃ t, w.deps t = false) →
        mainModel w = (.missingDeps (checkDependencies w.deps).1, w.target) ∧
        exitCode (mainModel w).1 = 1) ∧
    (∀ w : World, (∀ t, w.deps t = true) →
        ∀ rep, (mainModel w).1 ≠ .missingDeps rep) := by
  refine ⟨fun avail => ⟨?_, checkDependencies_flag avail⟩, fun w hw => ?_, fun w hall rep => ?_⟩
  · cases hr : avail .rustc <;> cases hc : avail .cargo <;>
      cases hs : avail .solana <;> cases ha : avail .anchor <;>
      simp [checkDependencies, checkLoop, depOrder, depLink, hr, hc, hs, ha]
  · have hflag : (checkDependencies w.deps).2 = true :=
      (checkDependencies_flag w.deps).2 hw
    have hm : mainModel w = (.missingDeps (checkDependencies w.deps).1, w.target) := by
      simp [mainModel, hflag]
    exact ⟨hm, by rw [hm]; rfl⟩
  · have hflag : (checkDependencies w.deps).2 = false := by
      cases hh : (checkDependencies w.deps).2 with
      | false => rfl
      | true =>
        obtain ⟨t0, ht0⟩ := (checkDependencies_flag w.deps).1 hh
        rw [hall t0] at ht0
        exact absurd ht0 (by simp)
    simp only [mainModel, hflag, Bool.false_eq_true, if_false]
    split
    · simp
    · split
      · simp
      · split
        · simp
        · split
          · simp
          · simp
          · simp
          · exact scaffold_not_missingDeps _ _ _ _ _
          · exact scaffold_not_missingDeps _ _ _ _ _

/-- Witness for C8: with solana and anchor missing, both are reported (not
only the first) and the run aborts with exit 1. -/
theorem checkDependencies_spec_witness :
    mainModel
        ⟨none, fun t => t = .rustc || t = .cargo,
          some ("mb-er-counter", "my-app".data), fun _ => some (.dir .nil),
          none, .ok (), .ok ()⟩ =
      (.missingDeps [(.solana, depLink .solana), (.anchor, depLink .anchor)], none) := by
  have h := checkDependencies_spec.2.1
    ⟨none, fun t => t = .rustc || t = .cargo,
      some ("mb-er-counter", "my-app".data), fun _ => some (.dir .nil),
      none, .ok (), .ok ()⟩ ⟨.solana, by decide⟩
  rw [h.1]
  rfl

/-! ## Idempotence of the Anchor.toml patcher

The second application of either substitution must find the replaced text
again (and replace it by itself) or find nothing.  The proofs analyse the
matchers as deterministic pattern programs executed character by character,
which makes "how does a scan behave across a replaced region" a finite case
analysis over the program states. -/

/-- One item of a deterministic pattern program: a literal, `\s*`, `\s+`
(whose following item must start with a non-whitespace character), `[^x]*`
(whose following item must start with `x`), or a first-character-dispatched
alternation of literals with pairwise distinct first characters. -/
inductive PatItem where
  | lit (s : List Char)
  | wsSkip
  | wsPlus
  | scanTo (stop : Char)
  | alts (as : List (List Char))
deriving DecidableEq, Repr

/-- Drop leading exhausted literals of a program state. -/
def normP : List PatItem → List PatItem
  | .lit [] :: ps => normP ps
  | P => P

/-- The alternative whose first character is the given one, committed
left-to-right (the alternatives in use have distinct first characters). -/
def findAlt : List (List Char) → Char → Option (List Char)
  | [], _ => none
  | [] :: rest, c => findAlt rest c
  | (x :: xs) :: rest, c => if c = x then some xs else findAlt rest c

/-- One character step of a pattern program; `none` is a mismatch. -/
def patStep : List PatItem → Char → Option (List PatItem)
  | [], _ => none
  | .lit [] :: ps, c => patStep ps c
  | .lit (x :: xs) :: ps, c => if c = x then some (.lit xs :: ps) else none
  | .wsSkip :: ps, c => if jsWs c then some (.wsSkip :: ps) else patStep ps c
  | .wsPlus :: ps, c => if jsWs c then some (.wsSkip :: ps) else none
  | .scanTo stop :: ps, c =>
    if c = stop then patStep ps c else some (.scanTo stop :: ps)
  | .alts as :: ps, c =>
    match findAlt as c with
    | some rest => some (.lit rest :: ps)
    | none => none

/-- Result of running a pattern program over an input. -/
inductive RunOut where
  | fail
  | cont (state : List PatItem)
  | done (rest : List Char)
deriving DecidableEq, Repr

/-- Run a pattern program: completion happens as soon as the program is
exhausted, and the unconsumed input is returned. -/
def runPat : List PatItem → List Char → RunOut
  | P, [] => if normP P = [] then .done [] else .cont (normP P)
  | P, c :: rest =>
    if normP P = [] then .done (c :: rest)
    else
      match patStep P c with
      | none => .fail
      | some P' => runPat P' rest

/-- Helper: stepping ignores leading exhausted literals. -/
theorem patStep_normP : ∀ (P : List PatItem) (c : Char), patStep (normP P) c = patStep P c
  | [], _ => rfl
  | .lit [] :: ps, c => by rw [normP, patStep, patStep_normP ps c]
  | .lit (_ :: _) :: _, _ => rfl
  | .wsSkip :: _, _ => rfl
  | .wsPlus :: _, _ => rfl
  | .scanTo _ :: _, _ => rfl
  | .alts _ :: _, _ => rfl

/-- Helper: `normP` is idempotent. -/
theorem normP_idem : ∀ P : List PatItem, normP (normP P) = normP P
  | [] => rfl
  | .lit [] :: ps => by rw [normP, normP_idem ps]
  | .lit (_ :: _) :: _ => rfl
  | .wsSkip :: _ => rfl
  | .wsPlus :: _ => rfl
  | .scanTo _ :: _ => rfl
  | .alts _ :: _ => rfl

/-- Helper: an exhausted program completes at once. -/
theorem runPat_done_of (P : List PatItem) (l : List Char) (hn : normP P = []) :
    runPat P l = .done l := by
  cases l <;> simp [runPat, hn]

/-- Helper: an unexhausted program suspends on empty input. -/
theorem runPat_nil_of (P : List PatItem) (q : PatItem) (qs : List PatItem)
    (hn : normP P = q :: qs) : runPat P [] = .cont (q :: qs) := by
  simp [runPat, hn]

/-- Helper: a mismatching head character fails the run. -/
theorem runPat_cons_fail (P : List PatItem) (q : PatItem) (qs : List PatItem)
    (c : Char) (rest : List Char) (hn : normP P = q :: qs)
    (hs : patStep P c = none) : runPat P (c :: rest) = .fail := by
  simp [runPat, hn, hs]

/-- Helper: a matching head character advances the run. -/
theorem runPat_cons_step (P P' : List PatItem) (q : PatItem) (qs : List PatItem)
    (c : Char) (rest : List Char) (hn : normP P = q :: qs)
    (hs : patStep P c = some P') : runPat P (c :: rest) = runPat P' rest := by
  simp [runPat, hn, hs]

/-- Helper: running is invariant under normalization of the start state. -/
theorem runPat_normP (P : List PatItem) (l : List Char) :
    runPat (normP P) l = runPat P l := by
  cases l with
  | nil => simp [runPat, normP_idem]
  | cons c rest => simp [runPat, normP_idem, patStep_normP]

/-- Helper: a run over an append decomposes into a run over the left part
continued over the right part. -/
theorem runPat_append : ∀ (a : List Char) (P : List PatItem) (b : List Char),
    runPat P (a ++ b) =
      match runPat P a with
      | .fail => .fail
      | .cont P' => runPat P' b
      | .done r => .done (r ++ b)
  | [], P, b => by
    rw [List.nil_append]
    cases hn : normP P with
    | nil =>
      rw [runPat_done_of P b hn, runPat_done_of P [] hn]
      rfl
    | cons q qs =>
      rw [runPat_nil_of P q qs hn]
      show runPat P b = runPat (q :: qs) b
      rw [← hn]
      exact (runPat_normP P b).symm
  | c :: t, P, b => by
    rw [List.cons_append]
    cases hn : normP P with
    | nil =>
      rw [runPat_done_of P _ hn, runPat_done_of P (c :: t) hn]
      rfl
    | cons q qs =>
      cases hs : patStep P c with
      | none =>
        rw [runPat_cons_fail P q qs c _ hn hs, runPat_cons_fail P q qs c t hn hs]
      | some P' =>
        rw [runPat_cons_step P P' q qs c _ hn hs, runPat_cons_step P P' q qs c t hn hs]
        exact runPat_append t P' b

/-- Helper: a successful `stripLit` means the input is the literal followed
by the remainder. -/
theorem stripLit_eq_append (lit : List Char) :
    ∀ l r, stripLit lit l = some r ↔ l = lit ++ r := by
  induction lit with
  | nil =>
    intro l r
    simp only [stripLit, List.nil_append, Option.some.injEq]
  | cons p ps ih =>
    intro l r
    cases l with
    | nil =>
      simp [stripLit]
    | cons c cs =>
      by_cases hpc : p = c
      · subst hpc
        simp [stripLit, ih]
      · have hcp : ¬ c = p := fun h => hpc h.symm
        simp [stripLit, hpc, hcp]

/-- Helper: consuming a literal item over exactly its text. -/
theorem runPat_lit : ∀ (s : List Char) (ps : List PatItem) (l : List Char),
    runPat (.lit s :: ps) (s ++ l) = runPat ps l
  | [], ps, l => by
    rw [show (PatItem.lit [] :: ps) = (PatItem.lit [] :: ps) from rfl, List.nil_append]
    rw [← runPat_normP (.lit [] :: ps), show normP (.lit [] :: ps) = normP ps from rfl,
      runPat_normP]
  | x :: xs, ps, l => by
    rw [List.cons_append]
    rw [runPat_cons_step (.lit (x :: xs) :: ps) (.lit xs :: ps) _ _ x (xs ++ l) rfl
      (by simp [patStep])]
    exact runPat_lit xs ps l

/-- Helper: a completed run through a literal item decomposes the input. -/
theorem runPat_lit_done : ∀ (s : List Char) (ps : List PatItem) (l r : List Char),
    runPat (.lit s :: ps) l = .done r → ∃ l1, l = s ++ l1 ∧ runPat ps l1 = .done r
  | [], ps, l, r => by
    intro h
    rw [← List.nil_append l, runPat_lit [] ps l] at h
    exact ⟨l, rfl, h⟩
  | x :: xs, ps, l, r => by
    intro h
    cases l with
    | nil =>
      rw [runPat_nil_of (.lit (x :: xs) :: ps) (.lit (x :: xs)) ps rfl] at h
      exact absurd h (by simp)
    | cons c t =>
      by_cases hc : c = x
      · subst hc
        rw [runPat_cons_step (.lit (c :: xs) :: ps) (.lit xs :: ps) _ _ c t rfl
          (by simp [patStep])] at h
        obtain ⟨l1, ht, h2⟩ := runPat_lit_done xs ps t r h
        exact ⟨l1, by rw [ht]; rfl, h2⟩
      · rw [runPat_cons_fail (.lit (x :: xs) :: ps) (.lit (x :: xs)) ps c t rfl
          (by simp [patStep, hc])] at h
        exact absurd h (by simp)

/-- Helper: a `\s*` item skips exactly the maximal whitespace run (as far as
run completion goes). -/
theorem runPat_wsSkip (ps : List PatItem) (hps : normP ps ≠ []) :
    ∀ (l r : List Char),
      runPat (.wsSkip :: ps) l = .done r ↔ runPat ps (l.dropWhile jsWs) = .done r := by
  intro l
  induction l with
  | nil =>
    intro r
    obtain ⟨q, qs, hq⟩ := List.exists_cons_of_ne_nil hps
    rw [runPat_nil_of (.wsSkip :: ps) .wsSkip ps rfl, List.dropWhile_nil,
      runPat_nil_of ps q qs hq]
    simp
  | cons c t ih =>
    intro r
    by_cases hw : jsWs c
    · rw [runPat_cons_step (.wsSkip :: ps) (.wsSkip :: ps) .wsSkip ps c t rfl
        (by simp [patStep, hw])]
      rw [List.dropWhile_cons_of_pos hw]
      exact ih r
    · have hd : (c :: t).dropWhile jsWs = c :: t :=
        List.dropWhile_cons_of_neg (by simpa using hw)
      rw [hd]
      obtain ⟨q, qs, hq⟩ := List.exists_cons_of_ne_nil hps
      cases hstep : patStep ps c with
      | none =>
        rw [runPat_cons_fail (.wsSkip :: ps) .wsSkip ps c t rfl
          (by simp [patStep, hw, hstep]),
          runPat_cons_fail ps q qs c t hq hstep]
      | some P' =>
        rw [runPat_cons_step (.wsSkip :: ps) P' .wsSkip ps c t rfl
          (by simp [patStep, hw, hstep]),
          runPat_cons_step ps P' q qs c t hq hstep]

/-- Helper: a `\s+` item requires a leading whitespace character and then
behaves like `\s*`. -/
theorem runPat_wsPlus (ps : List PatItem) (hps : normP ps ≠ []) (l r : List Char) :
    runPat (.wsPlus :: ps) l = .done r ↔
      ∃ c t, l = c :: t ∧ jsWs c = true ∧ runPat ps (l.dropWhile jsWs) = .done r := by
  cases l with
  | nil =>
    rw [runPat_nil_of (.wsPlus :: ps) .wsPlus ps rfl]
    simp
  | cons c t =>
    by_cases hw : jsWs c
    · rw [runPat_cons_step (.wsPlus :: ps) (.wsSkip :: ps) .wsPlus ps c t rfl
        (by simp [patStep, hw]),
        List.dropWhile_cons_of_pos hw]
      rw [runPat_wsSkip ps hps t r]
      constructor
      · intro h; exact ⟨c, t, rfl, hw, h⟩
      · rintro ⟨c', t', he, _, h⟩
        exact h
    · rw [runPat_cons_fail (.wsPlus :: ps) .wsPlus ps c t rfl (by simp [patStep, hw])]
      constructor
      · intro h; exact absurd h (by simp)
      · rintro ⟨c', t', he, hw', _⟩
        injection he with h1 _
        subst h1
        exact absurd hw' (by simpa using hw)

/-- Helper: a `[^stop]*` item skips exactly the maximal stop-free run (as
far as run completion goes). -/
theorem runPat_scanTo (stop : Char) (ps : List PatItem) (hps : normP ps ≠ []) :
    ∀ (l r : List Char),
      runPat (.scanTo stop :: ps) l = .done r ↔
        runPat ps (l.dropWhile (fun c => !(c = stop))) = .done r := by
  intro l
  induction l with
  | nil =>
    intro r
    obtain ⟨q, qs, hq⟩ := List.exists_cons_of_ne_nil hps
    rw [runPat_nil_of (.scanTo stop :: ps) (.scanTo stop) ps rfl, List.dropWhile_nil,
      runPat_nil_of ps q qs hq]
    simp
  | cons c t ih =>
    intro r
    by_cases hc : c = stop
    · subst hc
      have hd : (c :: t).dropWhile (fun x => !(x = c)) = c :: t :=
        List.dropWhile_cons_of_neg (by simp)
      rw [hd]
      obtain ⟨q, qs, hq⟩ := List.exists_cons_of_ne_nil hps
      cases hstep : patStep ps c with
      | none =>
        rw [runPat_cons_fail (.scanTo c :: ps) (.scanTo c) ps c t rfl
          (by simp [patStep, hstep]),
          runPat_cons_fail ps q qs c t hq hstep]
      | some P' =>
        rw [runPat_cons_step (.scanTo c :: ps) P' (.scanTo c) ps c t rfl
          (by simp [patStep, hstep]),
          runPat_cons_step ps P' q qs c t hq hstep]
    · rw [runPat_cons_step (.scanTo stop :: ps) (.scanTo stop :: ps) (.scanTo stop) ps c t
        rfl (by simp [patStep, hc]),
        List.dropWhile_cons_of_pos (by simpa using hc)]
      exact ih r

/-- The `package_manager` regex as a pattern program. -/
def pmPat : List PatItem :=
  [.lit "package_manager".data, .wsSkip, .lit ['='], .wsSkip, .lit ['"'],
   .scanTo '"', .lit ['"']]

/-- The four run-command alternatives of the `test` regex. -/
def testAlts : List (List Char) :=
  ["npm run".data, "yarn".data, "pnpm".data, "bun run".data]

/-- The `test` regex as a pattern program. -/
def testPat : List PatItem :=
  [.lit "test".data, .wsSkip, .lit ['='], .wsSkip, .lit ['"'],
   .alts testAlts, .wsPlus, .lit "ts-mocha".data]

/-- Helper: single-character literal step. -/
theorem runPat_lit1 (x : Char) (ps : List PatItem) (l : List Char) :
    runPat (.lit [x] :: ps) (x :: l) = runPat ps l := by
  have h := runPat_lit [x] ps l
  simpa using h

/-- Helper: a one-literal program completes exactly on the literal plus the
returned rest. -/
theorem runPat_single_lit (s l r : List Char) :
    runPat [.lit s] l = .done r ↔ l = s ++ r := by
  constructor
  · intro h
    obtain ⟨l1, hl, h2⟩ := runPat_lit_done s [] l r h
    rw [runPat_done_of [] l1 rfl] at h2
    injection h2 with h2
    rw [hl, h2]
  · intro h
    rw [h, runPat_lit s [] r, runPat_done_of [] r rfl]

/-- Helper: `dropWhile` over an append whose left part wholly satisfies the
predicate and whose right part starts with a failing character (or is
empty). -/
theorem dropWhile_append_all {p : Char → Bool} (a b : List Char)
    (ha : ∀ c ∈ a, p c = true) (hb : ∀ c ∈ b.take 1, p c = false) :
    (a ++ b).dropWhile p = b := by
  induction a with
  | nil =>
    cases b with
    | nil => rfl
    | cons c t =>
      have : p c = false := hb c (by simp)
      simp [List.dropWhile, this]
  | cons c t ih =>
    have hc : p c = true := ha c (by simp)
    have ih' := ih (fun x hx => ha x (by simp [hx]))
    simp only [List.cons_append, List.dropWhile, hc]
    exact ih'

/-- What it means for `L` to begin with a `package_manager` match whose
remainder is `X`. -/
def PMShape (L X : List Char) : Prop :=
  ∃ w1 w2 v, L = "package_manager".data ++ (w1 ++ '=' :: (w2 ++ '"' :: (v ++ '"' :: X))) ∧
    (∀ c ∈ w1, jsWs c = true) ∧ (∀ c ∈ w2, jsWs c = true) ∧ (∀ c ∈ v, c ≠ '"')

/-- Helper: the matcher recognizes exactly the `package_manager` shapes. -/
theorem charPM_match (L X : List Char) : matchPMAt L = some X ↔ PMShape L X := by
  constructor
  · intro h
    unfold matchPMAt at h
    split at h
    · exact absurd h (by simp)
    · rename_i l1 heq1
      split at h
      · rename_i l3 heq2
        split at h
        · rename_i l5 heq3
          split at h
          · rename_i l7 heq4
            injection h with h
            subst h
            obtain ⟨w1, e1, hww1⟩ : ∃ w, l1 = w ++ '=' :: l3 ∧ ∀ c ∈ w, jsWs c = true :=
              ⟨l1.takeWhile jsWs,
                by rw [← heq2]; exact (List.takeWhile_append_dropWhile _ _).symm,
                fun c hc => List.mem_takeWhile_imp hc⟩
            obtain ⟨w2, e3, hww2⟩ : ∃ w, l3 = w ++ '"' :: l5 ∧ ∀ c ∈ w, jsWs c = true :=
              ⟨l3.takeWhile jsWs,
                by rw [← heq3]; exact (List.takeWhile_append_dropWhile _ _).symm,
                fun c hc => List.mem_takeWhile_imp hc⟩
            obtain ⟨v, e5, hvv⟩ : ∃ w, l5 = w ++ '"' :: l7 ∧ ∀ c ∈ w, c ≠ '"' :=
              ⟨l5.takeWhile (fun c => !(c = '"')),
                by rw [← heq4]; exact (List.takeWhile_append_dropWhile _ _).symm,
                fun c hc => by simpa using List.mem_takeWhile_imp hc⟩
            exact ⟨w1, w2, v,
              by rw [(stripLit_eq_append _ _ _).1 heq1, e1, e3, e5],
              hww1, hww2, hvv⟩
          · exact absurd h (by simp)
        · exact absurd h (by simp)
      · exact absurd h (by simp)
  · rintro ⟨w1, w2, v, hL, hw1, hw2, hv⟩
    have hs : stripLit "package_manager".data L =
        some (w1 ++ '=' :: (w2 ++ '"' :: (v ++ '"' :: X))) :=
      (stripLit_eq_append _ _ _).2 hL
    have hd1 : (w1 ++ '=' :: (w2 ++ '"' :: (v ++ '"' :: X))).dropWhile jsWs =
        '=' :: (w2 ++ '"' :: (v ++ '"' :: X)) :=
      dropWhile_append_all w1 _ hw1 (by intro c hc; simp at hc; rw [hc]; decide)
    have hd2 : (w2 ++ '"' :: (v ++ '"' :: X)).dropWhile jsWs =
        '"' :: (v ++ '"' :: X) :=
      dropWhile_append_all w2 _ hw2 (by intro c hc; simp at hc; rw [hc]; decide)
    have hd3 : (v ++ '"' :: X).dropWhile (fun c => !(c = '"')) = '"' :: X :=
      dropWhile_append_all v _ (fun c hc => by simpa using hv c hc)
        (by intro c hc; simp at hc; rw [hc]; simp)
    simp only [matchPMAt, hs, hd1, hd2, hd3]

/-- Helper: the `pmPat` program accepts exactly the `package_manager`
shapes. -/
theorem charPM_run (L X : List Char) : runPat pmPat L = .done X ↔ PMShape L X := by
  constructor
  · intro h
    obtain ⟨l1, hL, h⟩ := runPat_lit_done _ _ _ _ h
    rw [runPat_wsSkip _ (by decide) l1 X] at h
    obtain ⟨l3, hd1, h⟩ := runPat_lit_done _ _ _ _ h
    rw [runPat_wsSkip _ (by decide) l3 X] at h
    obtain ⟨l5, hd2, h⟩ := runPat_lit_done _ _ _ _ h
    rw [runPat_scanTo _ _ (by decide) l5 X] at h
    obtain ⟨l7, hd3, h⟩ := runPat_lit_done _ _ _ _ h
    rw [runPat_done_of [] l7 rfl] at h
    injection h with h
    subst h
    obtain ⟨w1, e1, hww1⟩ : ∃ w, l1 = w ++ (['='] ++ l3) ∧ ∀ c ∈ w, jsWs c = true :=
      ⟨l1.takeWhile jsWs,
        by rw [← hd1]; exact (List.takeWhile_append_dropWhile _ _).symm,
        fun c hc => List.mem_takeWhile_imp hc⟩
    obtain ⟨w2, e3, hww2⟩ : ∃ w, l3 = w ++ (['"'] ++ l5) ∧ ∀ c ∈ w, jsWs c = true :=
      ⟨l3.takeWhile jsWs,
        by rw [← hd2]; exact (List.takeWhile_append_dropWhile _ _).symm,
        fun c hc => List.mem_takeWhile_imp hc⟩
    obtain ⟨v, e5, hvv⟩ : ∃ w, l5 = w ++ (['"'] ++ l7) ∧ ∀ c ∈ w, c ≠ '"' :=
      ⟨l5.takeWhile (fun c => !(c = '"')),
        by rw [← hd3]; exact (List.takeWhile_append_dropWhile _ _).symm,
        fun c hc => by simpa using List.mem_takeWhile_imp hc⟩
    refine ⟨w1, w2, v, ?_, hww1, hww2, hvv⟩
    rw [hL, e1, e3, e5]
    simp
  · rintro ⟨w1, w2, v, hL, hw1, hw2, hv⟩
    rw [hL]
    rw [show pmPat = .lit "package_manager".data ::
      [.wsSkip, .lit ['='], .wsSkip, .lit ['"'], .scanTo '"', .lit ['"']] from rfl,
      runPat_lit]
    rw [runPat_wsSkip _ (by decide) _ X]
    rw [dropWhile_append_all w1 _ hw1 (by intro c hc; simp at hc; rw [hc]; decide)]
    rw [runPat_lit1 '=' [.wsSkip, .lit ['"'], .scanTo '"', .lit ['"']]]
    rw [runPat_wsSkip _ (by decide) _ X]
    rw [dropWhile_append_all w2 _ hw2 (by intro c hc; simp at hc; rw [hc]; decide)]
    rw [runPat_lit1 '"' [.scanTo '"', .lit ['"']]]
    rw [runPat_scanTo _ _ (by decide) _ X]
    rw [dropWhile_append_all v _ (fun c hc => by simpa using hv c hc)
      (by intro c hc; simp at hc; rw [hc]; simp)]
    rw [runPat_lit1 '"' [], runPat_done_of [] X rfl]

/-- Helper: the `matchPMAt` matcher agrees with the `pmPat` program. -/
theorem matchPM_iff (l r : List Char) :
    matchPMAt l = some r ↔ runPat pmPat l = .done r :=
  (charPM_match l r).trans (charPM_run l r).symm

/-- What it means for `L` to begin with a `test`-command match whose
remainder is `X`. -/
def TestShape (L X : List Char) : Prop :=
  ∃ w1 w2 alt w3, alt ∈ testAlts ∧ w3 ≠ [] ∧
    L = "test".data ++ (w1 ++ '=' :: (w2 ++ '"' :: (alt ++ (w3 ++ ("ts-mocha".data ++ X))))) ∧
    (∀ c ∈ w1, jsWs c = true) ∧ (∀ c ∈ w2, jsWs c = true) ∧ (∀ c ∈ w3, jsWs c = true)

/-- Helper: characterization of one alternative's matcher. -/
theorem oneAlt_char (alt l X : List Char) :
    matchOneAlt alt l = some X ↔
      ∃ w3, w3 ≠ [] ∧ (∀ c ∈ w3, jsWs c = true) ∧
        l = alt ++ (w3 ++ ("ts-mocha".data ++ X)) := by
  constructor
  · intro h
    unfold matchOneAlt at h
    split at h
    · exact absurd h (by simp)
    · exact absurd h (by simp)
    · rename_i c l1 heqA
      split at h
      · rename_i hw
        obtain ⟨w3, e1, hw3, hne⟩ : ∃ w, (c :: l1) = w ++ ("ts-mocha".data ++ X) ∧
            (∀ x ∈ w, jsWs x = true) ∧ w ≠ [] := by
          refine ⟨(c :: l1).takeWhile jsWs, ?_, fun x hx => List.mem_takeWhile_imp hx, ?_⟩
          · conv_lhs => rw [← List.takeWhile_append_dropWhile jsWs (c :: l1)]
            rw [(stripLit_eq_append _ _ _).1 h]
          · rw [List.takeWhile_cons_of_pos hw]
            simp
        exact ⟨w3, hne, hw3, by rw [(stripLit_eq_append _ _ _).1 heqA, e1]⟩
      · exact absurd h (by simp)
  · rintro ⟨w3, hne, hw3, hL⟩
    obtain ⟨cw, w3t, rfl⟩ := List.exists_cons_of_ne_nil hne
    have hcw : jsWs cw = true := hw3 cw (by simp)
    have hstrip : stripLit alt l = some (cw :: (w3t ++ ("ts-mocha".data ++ X))) :=
      (stripLit_eq_append _ _ _).2 (by rw [hL]; simp)
    have hd : (cw :: (w3t ++ ("ts-mocha".data ++ X))).dropWhile jsWs =
        "ts-mocha".data ++ X := by
      rw [show (cw :: (w3t ++ ("ts-mocha".data ++ X))) =
        (cw :: w3t) ++ ("ts-mocha".data ++ X) from rfl]
      exact dropWhile_append_all (cw :: w3t) _
        (fun c hc => hw3 c (by simpa using hc))
        (by intro c hc; simp at hc; rw [hc]; decide)
    unfold matchOneAlt
    rw [hstrip]
    simp only [hcw, if_true, hd, stripLit_append]

/-- Helper: a found alternative is one of the offered ones. -/
theorem findAlt_mem : ∀ (as : List (List Char)) (c : Char) (rest : List Char),
    findAlt as c = some rest → (c :: rest) ∈ as
  | [], c, rest => by intro h; exact absurd h (by simp [findAlt])
  | [] :: as', c, rest => by
    intro h
    rw [findAlt] at h
    exact List.mem_cons_of_mem _ (findAlt_mem as' c rest h)
  | (x :: xs) :: as', c, rest => by
    intro h
    rw [findAlt] at h
    by_cases hc : c = x
    · rw [if_pos hc] at h
      injection h with h
      subst hc
      rw [h]
      exact List.mem_cons_self _ _
    · rw [if_neg hc] at h
      exact List.mem_cons_of_mem _ (findAlt_mem as' c rest h)

/-- Helper: characterization of the alternative-block matcher. -/
theorem altTail_char (l X : List Char) :
    matchAltTail l = some X ↔
      ∃ alt w3, alt ∈ testAlts ∧ w3 ≠ [] ∧ (∀ c ∈ w3, jsWs c = true) ∧
        l = alt ++ (w3 ++ ("ts-mocha".data ++ X)) := by
  constructor
  · intro h
    unfold matchAltTail at h
    rcases (Option.orElse_eq_some _ _ _).1 h with h1 | ⟨_, h1⟩
    · obtain ⟨w3, hne, hw3, hL⟩ := (oneAlt_char _ _ _).1 h1
      exact ⟨"npm run".data, w3, by simp [testAlts], hne, hw3, hL⟩
    rcases (Option.orElse_eq_some _ _ _).1 h1 with h2 | ⟨_, h2⟩
    · obtain ⟨w3, hne, hw3, hL⟩ := (oneAlt_char _ _ _).1 h2
      exact ⟨"yarn".data, w3, by simp [testAlts], hne, hw3, hL⟩
    rcases (Option.orElse_eq_some _ _ _).1 h2 with h3 | ⟨_, h3⟩
    · obtain ⟨w3, hne, hw3, hL⟩ := (oneAlt_char _ _ _).1 h3
      exact ⟨"pnpm".data, w3, by simp [testAlts], hne, hw3, hL⟩
    · obtain ⟨w3, hne, hw3, hL⟩ := (oneAlt_char _ _ _).1 h3
      exact ⟨"bun run".data, w3, by simp [testAlts], hne, hw3, hL⟩
  · rintro ⟨alt, w3, halt, hne, hw3, hL⟩
    have hone : matchOneAlt alt l = some X :=
      (oneAlt_char _ _ _).2 ⟨w3, hne, hw3, hL⟩
    simp only [testAlts, List.mem_cons, List.not_mem_nil, or_false] at halt
    rcases halt with rfl | rfl | rfl | rfl
    · unfold matchAltTail
      rw [hone]
      rfl
    · have h1 : matchOneAlt "npm run".data l = none := by
        rw [hL]
        simp [matchOneAlt, stripLit]
      unfold matchAltTail
      rw [h1, hone]
      rfl
    · have h1 : matchOneAlt "npm run".data l = none := by
        rw [hL]; simp [matchOneAlt, stripLit]
      have h2 : matchOneAlt "yarn".data l = none := by
        rw [hL]; simp [matchOneAlt, stripLit]
      unfold matchAltTail
      rw [h1, h2, hone]
      rfl
    · have h1 : matchOneAlt "npm run".data l = none := by
        rw [hL]; simp [matchOneAlt, stripLit]
      have h2 : matchOneAlt "yarn".data l = none := by
        rw [hL]; simp [matchOneAlt, stripLit]
      have h3 : matchOneAlt "pnpm".data l = none := by
        rw [hL]; simp [matchOneAlt, stripLit]
      unfold matchAltTail
      rw [h1, h2, h3, hone]
      rfl

/-- Helper: the matcher recognizes exactly the `test`-command shapes. -/
theorem charTest_match (L X : List Char) : matchTestAt L = some X ↔ TestShape L X := by
  constructor
  · intro h
    unfold matchTestAt at h
    split at h
    · exact absurd h (by simp)
    · rename_i l1 heq1
      split at h
      · rename_i l3 heq2
        split at h
        · rename_i l5 heq3
          obtain ⟨alt, w3, halt, hne, hw3, hl5⟩ := (altTail_char _ _).1 h
          obtain ⟨w1, e1, hww1⟩ : ∃ w, l1 = w ++ '=' :: l3 ∧ ∀ c ∈ w, jsWs c = true :=
            ⟨l1.takeWhile jsWs,
              by rw [← heq2]; exact (List.takeWhile_append_dropWhile _ _).symm,
              fun c hc => List.mem_takeWhile_imp hc⟩
          obtain ⟨w2, e3, hww2⟩ : ∃ w, l3 = w ++ '"' :: l5 ∧ ∀ c ∈ w, jsWs c = true :=
            ⟨l3.takeWhile jsWs,
              by rw [← heq3]; exact (List.takeWhile_append_dropWhile _ _).symm,
              fun c hc => List.mem_takeWhile_imp hc⟩
          exact ⟨w1, w2, alt, w3, halt, hne,
            by rw [(stripLit_eq_append _ _ _).1 heq1, e1, e3, hl5],
            hww1, hww2, hw3⟩
        · exact absurd h (by simp)
      · exact absurd h (by simp)
  · rintro ⟨w1, w2, alt, w3, halt, hne, hL, hw1, hw2, hw3⟩
    have hs : stripLit "test".data L =
        some (w1 ++ '=' :: (w2 ++ '"' :: (alt ++ (w3 ++ ("ts-mocha".data ++ X))))) :=
      (stripLit_eq_append _ _ _).2 hL
    have hd1 : (w1 ++ '=' :: (w2 ++ '"' :: (alt ++ (w3 ++ ("ts-mocha".data ++ X))))).dropWhile jsWs =
        '=' :: (w2 ++ '"' :: (alt ++ (w3 ++ ("ts-mocha".data ++ X)))) :=
      dropWhile_append_all w1 _ hw1 (by intro c hc; simp at hc; rw [hc]; decide)
    have hd2 : (w2 ++ '"' :: (alt ++ (w3 ++ ("ts-mocha".data ++ X)))).dropWhile jsWs =
        '"' :: (alt ++ (w3 ++ ("ts-mocha".data ++ X))) :=
      dropWhile_append_all w2 _ hw2 (by intro c hc; simp at hc; rw [hc]; decide)
    have htail : matchAltTail (alt ++ (w3 ++ ("ts-mocha".data ++ X))) = some X :=
      (altTail_char _ _).2 ⟨alt, w3, halt, hne, hw3, rfl⟩
    simp only [matchTestAt, hs, hd1, hd2, htail]

/-- Helper: entering an alternation via its first character and consuming the
chosen alternative. -/
theorem runPat_alt_lit (as : List (List Char)) (ps : List PatItem)
    (c0 : Char) (altT r : List Char) (hf : findAlt as c0 = some altT) :
    runPat (.alts as :: ps) ((c0 :: altT) ++ r) = runPat ps r := by
  rw [List.cons_append,
    runPat_cons_step (.alts as :: ps) (.lit altT :: ps) (.alts as) ps c0 _ rfl
      (by simp [patStep, hf]),
    runPat_lit]

/-- Helper: each offered alternative is entered by its first character. -/
theorem testAlts_entry (alt : List Char) (halt : alt ∈ testAlts) :
    ∃ c0 altT, alt = c0 :: altT ∧ findAlt testAlts c0 = some altT := by
  simp only [testAlts, List.mem_cons, List.not_mem_nil, or_false] at halt
  rcases halt with rfl | rfl | rfl | rfl
  · exact ⟨'n', "pm run".data, rfl, by decide⟩
  · exact ⟨'y', "arn".data, rfl, by decide⟩
  · exact ⟨'p', "npm".data, rfl, by decide⟩
  · exact ⟨'b', "un run".data, rfl, by decide⟩

/-- Helper: the `testPat` program accepts exactly the `test`-command
shapes. -/
theorem charTest_run (L X : List Char) : runPat testPat L = .done X ↔ TestShape L X := by
  constructor
  · intro h
    obtain ⟨l1, hL, h⟩ := runPat_lit_done _ _ _ _ h
    rw [runPat_wsSkip _ (by decide) l1 X] at h
    obtain ⟨l3, hd1, h⟩ := runPat_lit_done _ _ _ _ h
    rw [runPat_wsSkip _ (by decide) l3 X] at h
    obtain ⟨l5, hd2, h⟩ := runPat_lit_done _ _ _ _ h
    cases l5 with
    | nil =>
      rw [runPat_nil_of (.alts testAlts :: [.wsPlus, .lit "ts-mocha".data])
        (.alts testAlts) [.wsPlus, .lit "ts-mocha".data] rfl] at h
      exact absurd h (by simp)
    | cons c t =>
      cases hf : findAlt testAlts c with
      | none =>
        rw [runPat_cons_fail (.alts testAlts :: [.wsPlus, .lit "ts-mocha".data])
          (.alts testAlts) [.wsPlus, .lit "ts-mocha".data] c t rfl
          (by simp [patStep, hf])] at h
        exact absurd h (by simp)
      | some altT =>
        rw [runPat_cons_step (.alts testAlts :: [.wsPlus, .lit "ts-mocha".data])
          (.lit altT :: [.wsPlus, .lit "ts-mocha".data])
          (.alts testAlts) [.wsPlus, .lit "ts-mocha".data] c t rfl
          (by simp [patStep, hf])] at h
        obtain ⟨t1, ht, h⟩ := runPat_lit_done _ _ _ _ h
        rw [runPat_wsPlus [.lit "ts-mocha".data] (by decide) t1 X] at h
        obtain ⟨cw, tw, ht1, hcw, h⟩ := h
        rw [runPat_single_lit _ _ _] at h
        obtain ⟨w3, e7, hww3⟩ : ∃ w, t1 = w ++ ("ts-mocha".data ++ X) ∧
            ∀ x ∈ w, jsWs x = true :=
          ⟨t1.takeWhile jsWs,
            by rw [← h]; exact (List.takeWhile_append_dropWhile _ _).symm,
            fun x hx => List.mem_takeWhile_imp hx⟩
        have hne : w3 ≠ [] := by
          intro hw0
          rw [hw0, List.nil_append, ht1] at e7
          have e7' : cw :: tw = 't' :: ("s-mocha".data ++ X) := e7
          injection e7' with h1 _
          rw [h1] at hcw
          exact absurd hcw (by decide)
        obtain ⟨w1, e1, hww1⟩ : ∃ w, l1 = w ++ (['='] ++ l3) ∧ ∀ x ∈ w, jsWs x = true :=
          ⟨l1.takeWhile jsWs,
            by rw [← hd1]; exact (List.takeWhile_append_dropWhile _ _).symm,
            fun x hx => List.mem_takeWhile_imp hx⟩
        obtain ⟨w2, e3, hww2⟩ : ∃ w, l3 = w ++ (['"'] ++ (c :: t)) ∧
            ∀ x ∈ w, jsWs x = true :=
          ⟨l3.takeWhile jsWs,
            by rw [← hd2]; exact (List.takeWhile_append_dropWhile _ _).symm,
            fun x hx => List.mem_takeWhile_imp hx⟩
        refine ⟨w1, w2, c :: altT, w3, findAlt_mem testAlts c altT hf, hne, ?_,
          hww1, hww2, hww3⟩
        rw [hL, e1, e3, ht, e7]
        simp
  · rintro ⟨w1, w2, alt, w3, halt, hne, hL, hw1, hw2, hw3⟩
    obtain ⟨c0, altT, rfl, hf⟩ := testAlts_entry alt halt
    obtain ⟨cw, w3t, rfl⟩ := List.exists_cons_of_ne_nil hne
    have hcw : jsWs cw = true := hw3 cw (by simp)
    rw [hL]
    rw [show testPat = .lit "test".data :: [.wsSkip, .lit ['='], .wsSkip, .lit ['"'],
      .alts testAlts, .wsPlus, .lit "ts-mocha".data] from rfl, runPat_lit]
    rw [runPat_wsSkip _ (by decide) _ X]
    rw [dropWhile_append_all w1 _ hw1 (by intro c hc; simp at hc; rw [hc]; decide)]
    rw [runPat_lit1 '=' [.wsSkip, .lit ['"'], .alts testAlts, .wsPlus,
      .lit "ts-mocha".data]]
    rw [runPat_wsSkip _ (by decide) _ X]
    rw [dropWhile_append_all w2 _ hw2 (by intro c hc; simp at hc; rw [hc]; decide)]
    rw [runPat_lit1 '"' [.alts testAlts, .wsPlus, .lit "ts-mocha".data]]
    rw [runPat_alt_lit testAlts [.wsPlus, .lit "ts-mocha".data] c0 altT _ hf]
    rw [runPat_wsPlus [.lit "ts-mocha".data] (by decide) _ X]
    refine ⟨cw, w3t ++ ("ts-mocha".data ++ X), by simp, hcw, ?_⟩
    rw [dropWhile_append_all (cw :: w3t) _ (fun c hc => hw3 c hc)
      (by intro c hc; simp at hc; rw [hc]; decide)]
    exact (runPat_single_lit _ _ _).2 rfl

/-- Helper: the `matchTestAt` matcher agrees with the `testPat` program. -/
theorem matchTest_iff (l r : List Char) :
    matchTestAt l = some r ↔ runPat testPat l = .done r :=
  (charTest_match l r).trans (charTest_run l r).symm

/-- Helper: `matchPMAt` returning `none` means the `pmPat` program never
completes on the input. -/
theorem matchPM_none (l : List Char) :
    matchPMAt l = none ↔ ∀ w, runPat pmPat l ≠ .done w := by
  constructor
  · intro h w hd
    have := (matchPM_iff l w).2 hd
    rw [h] at this
    exact absurd this (by simp)
  · intro h
    cases hm : matchPMAt l with
    | none => rfl
    | some r => exact absurd ((matchPM_iff l r).1 hm) (h r)

/-- Helper: `matchTestAt` returning `none` means the `testPat` program never
completes on the input. -/
theorem matchTest_none (l : List Char) :
    matchTestAt l = none ↔ ∀ w, runPat testPat l ≠ .done w := by
  constructor
  · intro h w hd
    have := (matchTest_iff l w).2 hd
    rw [h] at this
    exact absurd this (by simp)
  · intro h
    cases hm : matchTestAt l with
    | none => rfl
    | some r => exact absurd ((matchTest_iff l r).1 hm) (h r)

/-- Helper: a position right after a nonempty block is a line-start position
exactly when the block ends in a line terminator. -/
theorem lineStartAt_concat (u : List Char) (d : Char) (f : Bool) :
    lineStartAt (u ++ [d]) f ↔ isLineTerm d = true := by
  constructor
  · rintro (⟨habs, _⟩ | ⟨pre', c, he, hc⟩)
    · exact absurd habs (by simp)
    · have := congrArg List.reverse he
      simp at this
      rw [this.1]
      exact hc
  · intro h
    exact Or.inr ⟨u, d, rfl, h⟩

/-- Helper: every nonempty list splits off its last element. -/
theorem exists_concat (w : List Char) (hw : w ≠ []) : ∃ w' d, w = w' ++ [d] := by
  rcases List.eq_nil_or_concat w with h | ⟨L, b, h⟩
  · exact absurd h hw
  · exact ⟨L, b, by simpa using h⟩

/-- Helper: being a line-start position only depends on the characters just
before the position. -/
theorem lineStartAt_transfer (X Y w : List Char) (f f' : Bool) (hw : w ≠ [])
    (h : lineStartAt (X ++ w) f) : lineStartAt (Y ++ w) f' := by
  obtain ⟨w', d, rfl⟩ := exists_concat w hw
  rw [← List.append_assoc] at h
  rw [← List.append_assoc]
  exact (lineStartAt_concat _ _ _).2 ((lineStartAt_concat _ _ _).1 h)

/-- Helper: strengthened single-character extension for the scan
characterization below. -/
theorem scanStep_cons (M : List Char → Option (List Char)) (repl : List Char)
    (c : Char) (rest out : List Char) (flag : Bool)
    (hm : flag = true → M (c :: rest) = none)
    (prev :
      (∃ pre mat suf, rest = pre ++ mat ++ suf ∧ out = pre ++ repl ++ suf ∧
        M (mat ++ suf) = some suf ∧ lineStartAt pre (isLineTerm c) ∧
        (∀ u v, pre = u ++ v → v ≠ [] → lineStartAt u (isLineTerm c) →
          M (v ++ (mat ++ suf)) = none)) ∨
      ((∀ u v, rest = u ++ v → v ≠ [] → lineStartAt u (isLineTerm c) → M v = none) ∧
        out = rest)) :
    (∃ pre mat suf, c :: rest = pre ++ mat ++ suf ∧ c :: out = pre ++ repl ++ suf ∧
      M (mat ++ suf) = some suf ∧ lineStartAt pre flag ∧
      (∀ u v, pre = u ++ v → v ≠ [] → lineStartAt u flag →
        M (v ++ (mat ++ suf)) = none)) ∨
    ((∀ u v, c :: rest = u ++ v → v ≠ [] → lineStartAt u flag → M v = none) ∧
      c :: out = c :: rest) := by
  rcases prev with ⟨pre, mat, suf, h1, h2, h3, h4, h5⟩ | ⟨hno, hout⟩
  · refine Or.inl ⟨c :: pre, mat, suf, by simp [h1], by simp [h2], h3, ?_, ?_⟩
    · rcases h4 with ⟨hpre, hflag⟩ | ⟨pre', d, hpre, hd⟩
      · subst hpre
        exact Or.inr ⟨[], c, rfl, hflag⟩
      · exact Or.inr ⟨c :: pre', d, by simp [hpre], hd⟩
    · intro u v huv hv hu
      cases u with
      | nil =>
        simp only [List.nil_append] at huv
        subst huv
        rcases hu with ⟨_, hflag⟩ | ⟨pre', d, habs, _⟩
        · have hmc := hm hflag
          have harr : (c :: pre) ++ (mat ++ suf) = c :: rest := by simp [h1]
          rw [harr]
          exact hmc
        · exact absurd habs (by simp)
      | cons e u' =>
        rw [List.cons_append] at huv
        injection huv with hce hpre
        apply h5 u' v hpre hv
        rcases hu with ⟨habs, _⟩ | ⟨w, d, hw, hd⟩
        · exact absurd habs (by simp)
        · cases w with
          | nil =>
            rw [List.nil_append] at hw
            injection hw with hed hu'
            refine Or.inl ⟨hu'.symm ▸ rfl, ?_⟩
            rw [hce, hed]
            exact hd
          | cons f w' =>
            rw [List.cons_append] at hw
            injection hw with hef hw'
            exact Or.inr ⟨w', d, hw', hd⟩
  · refine Or.inr ⟨?_, by rw [hout]⟩
    intro u v huv hv hu
    cases u with
    | nil =>
      simp only [List.nil_append] at huv
      subst huv
      rcases hu with ⟨_, hflag⟩ | ⟨pre', d, habs, _⟩
      · exact hm hflag
      · exact absurd habs (by simp)
    | cons e u' =>
      rw [List.cons_append] at huv
      injection huv with hce hrest
      apply hno u' v hrest hv
      rcases hu with ⟨habs, _⟩ | ⟨w, d, hw, hd⟩
      · exact absurd habs (by simp)
      · cases w with
        | nil =>
          rw [List.nil_append] at hw
          injection hw with hed hu'
          refine Or.inl ⟨hu'.symm ▸ rfl, ?_⟩
          rw [hce, hed]
          exact hd
        | cons f w' =>
          rw [List.cons_append] at hw
          injection hw with hef hw'
          exact Or.inr ⟨w', d, hw', hd⟩

/-- Helper: full case analysis of the scan — either a first line-start match
is found and replaced, or no line-start position matches and the input is
returned unchanged. -/
theorem scanCases (M : List Char → Option (List Char)) (repl : List Char)
    (hM : ∀ l after, M l = some after → after <:+ l) :
    ∀ (l : List Char) (flag : Bool),
      (∃ pre mat suf, l = pre ++ mat ++ suf ∧
        replaceFirstAux M repl flag l = pre ++ repl ++ suf ∧
        M (mat ++ suf) = some suf ∧ lineStartAt pre flag ∧
        (∀ u v, pre = u ++ v → v ≠ [] → lineStartAt u flag →
          M (v ++ (mat ++ suf)) = none)) ∨
      ((∀ u v, l = u ++ v → v ≠ [] → lineStartAt u flag → M v = none) ∧
        replaceFirstAux M repl flag l = l) := by
  intro l
  induction l with
  | nil =>
    intro flag
    refine Or.inr ⟨?_, rfl⟩
    intro u v huv hv _
    exact absurd (List.append_eq_nil.1 huv.symm).2 hv
  | cons c rest ih =>
    intro flag
    cases hf : flag with
    | false =>
      have hstep : replaceFirstAux M repl false (c :: rest) =
          c :: replaceFirstAux M repl (isLineTerm c) rest := by
        simp [replaceFirstAux]
      rw [hstep]
      exact scanStep_cons M repl c rest _ false (by simp) (ih (isLineTerm c))
    | true =>
      cases hm : M (c :: rest) with
      | none =>
        have hstep : replaceFirstAux M repl true (c :: rest) =
            c :: replaceFirstAux M repl (isLineTerm c) rest := by
          simp [replaceFirstAux, hm]
        rw [hstep]
        exact scanStep_cons M repl c rest _ true (fun _ => hm) (ih (isLineTerm c))
      | some after =>
        have hstep : replaceFirstAux M repl true (c :: rest) = repl ++ after := by
          simp [replaceFirstAux, hm]
        obtain ⟨mat, hmat⟩ := hM _ _ hm
        refine Or.inl ⟨[], mat, after, by simp [hmat.symm], by simp [hstep], ?_,
          Or.inl ⟨rfl, rfl⟩, ?_⟩
        · rw [hmat]; exact hm
        · intro u v huv hv _
          exact absurd (List.append_eq_nil.1 huv.symm).2 hv

/-- Helper: when no line-start position matches, the scan is the identity. -/
theorem scanNone (M : List Char → Option (List Char)) (repl : List Char)
    (hM : ∀ l after, M l = some after → after <:+ l) (hM0 : M [] = none)
    (l : List Char) (flag : Bool)
    (hno : ∀ u v, l = u ++ v → v ≠ [] → lineStartAt u flag → M v = none) :
    replaceFirstAux M repl flag l = l := by
  rcases scanCases M repl hM l flag with ⟨pre, mat, suf, h1, h2, h3, h4, h5⟩ | ⟨_, h⟩
  · have hne : mat ++ suf ≠ [] := by
      intro h0
      rw [h0] at h3
      rw [hM0] at h3
      exact absurd h3 (by simp)
    have := hno pre (mat ++ suf) (by rw [h1, List.append_assoc]) hne h4
    rw [this] at h3
    exact absurd h3 (by simp)
  · exact h

/-- Helper: the scan output is determined by a first line-start match. -/
theorem scanDet (M : List Char → Option (List Char)) (repl : List Char) :
    ∀ (pre : List Char) (flag : Bool) (mat suf : List Char),
      lineStartAt pre flag →
      (∀ u v, pre = u ++ v → v ≠ [] → lineStartAt u flag →
        M (v ++ (mat ++ suf)) = none) →
      M (mat ++ suf) = some suf → mat ++ suf ≠ [] →
      replaceFirstAux M repl flag (pre ++ (mat ++ suf)) = pre ++ repl ++ suf := by
  intro pre
  induction pre with
  | nil =>
    intro flag mat suf hls _ hm hne
    have hflag : flag = true := by
      rcases hls with ⟨_, hf⟩ | ⟨pre', c, habs, _⟩
      · exact hf
      · exact absurd habs (by simp)
    subst hflag
    obtain ⟨c, t, hct⟩ := List.exists_cons_of_ne_nil hne
    rw [List.nil_append, hct]
    rw [← hct]
    simp only [List.nil_append]
    rw [hct]
    show replaceFirstAux M repl true (c :: t) = repl ++ suf
    rw [replaceFirstAux]
    simp only [if_true]
    rw [← hct, hm]
  | cons c pre' ihp =>
    intro flag mat suf hls hno hm hne
    have hstep : replaceFirstAux M repl flag ((c :: pre') ++ (mat ++ suf)) =
        c :: replaceFirstAux M repl (isLineTerm c) (pre' ++ (mat ++ suf)) := by
      cases flag with
      | false => simp [replaceFirstAux]
      | true =>
        have hm0 : M ((c :: pre') ++ (mat ++ suf)) = none :=
          hno [] (c :: pre') rfl (by simp) (Or.inl ⟨rfl, rfl⟩)
        rw [List.cons_append] at hm0 ⊢
        rw [replaceFirstAux]
        simp only [if_true, hm0]
    rw [hstep]
    have hls' : lineStartAt pre' (isLineTerm c) := by
      rcases hls with ⟨habs, _⟩ | ⟨w, d, hw, hd⟩
      · exact absurd habs (by simp)
      · cases w with
        | nil =>
          rw [List.nil_append] at hw
          injection hw with hcd hpre'
          exact Or.inl ⟨hpre'.symm ▸ rfl, hcd ▸ hd⟩
        | cons f w' =>
          rw [List.cons_append] at hw
          injection hw with hcf hw'
          exact Or.inr ⟨w', d, hw', hd⟩
    have hno' : ∀ u v, pre' = u ++ v → v ≠ [] → lineStartAt u (isLineTerm c) →
        M (v ++ (mat ++ suf)) = none := by
      intro u v huv hv hu
      apply hno (c :: u) v (by rw [huv]; rfl) hv
      rcases hu with ⟨hu0, hf⟩ | ⟨w, d, hw, hd⟩
      · subst hu0
        exact Or.inr ⟨[], c, rfl, hf⟩
      · exact Or.inr ⟨c :: w, d, by simp [hw], hd⟩
    rw [ihp (isLineTerm c) mat suf hls' hno' hm hne]
    rfl

/-- The tail of `pmPat` after its leading literal. -/
def pmTail1 : List PatItem :=
  [.wsSkip, .lit ['='], .wsSkip, .lit ['"'], .scanTo '"', .lit ['"']]

/-- The states the `pmPat` automaton can be suspended in. -/
def ReachPMP (Q : List PatItem) : Prop :=
  (∃ s, s ≠ [] ∧ s <:+ "package_manager".data ∧ Q = .lit s :: pmTail1) ∨
  Q = pmTail1 ∨
  Q = [.wsSkip, .lit ['"'], .scanTo '"', .lit ['"']] ∨
  Q = [.scanTo '"', .lit ['"']]

/-- The tail of `testPat` after its leading literal. -/
def testTail1 : List PatItem :=
  [.wsSkip, .lit ['='], .wsSkip, .lit ['"'], .alts testAlts, .wsPlus,
   .lit "ts-mocha".data]

/-- The states the `testPat` automaton can be suspended in. -/
def ReachTestP (Q : List PatItem) : Prop :=
  (∃ s, s ≠ [] ∧ s <:+ "test".data ∧ Q = .lit s :: testTail1) ∨
  Q = testTail1 ∨
  Q = [.wsSkip, .lit ['"'], .alts testAlts, .wsPlus, .lit "ts-mocha".data] ∨
  Q = [.alts testAlts, .wsPlus, .lit "ts-mocha".data] ∨
  (∃ s, s ≠ [] ∧
    (s <:+ "pm run".data ∨ s <:+ "arn".data ∨ s <:+ "npm".data ∨ s <:+ "un run".data) ∧
    Q = [.lit s, .wsPlus, .lit "ts-mocha".data]) ∨
  Q = [.wsPlus, .lit "ts-mocha".data] ∨
  Q = [.wsSkip, .lit "ts-mocha".data] ∨
  (∃ s, s ≠ [] ∧ s <:+ "ts-mocha".data ∧ Q = [.lit s])

/-- Helper: every reach state of `pmPat` is normalized. -/
theorem reachPM_norm (Q : List PatItem) (h : ReachPMP Q) : normP Q = Q := by
  rcases h with ⟨s, hne, _, rfl⟩ | rfl | rfl | rfl
  · obtain ⟨c, t, rfl⟩ := List.exists_cons_of_ne_nil hne
    rfl
  · rfl
  · rfl
  · rfl

/-- Helper: every reach state of `testPat` is normalized. -/
theorem reachTest_norm (Q : List PatItem) (h : ReachTestP Q) : normP Q = Q := by
  rcases h with ⟨s, hne, _, rfl⟩ | rfl | rfl | rfl | ⟨s, hne, _, rfl⟩ | rfl | rfl |
    ⟨s, hne, _, rfl⟩
  · obtain ⟨c, t, rfl⟩ := List.exists_cons_of_ne_nil hne
    rfl
  · rfl
  · rfl
  · rfl
  · obtain ⟨c, t, rfl⟩ := List.exists_cons_of_ne_nil hne
    rfl
  · rfl
  · rfl
  · obtain ⟨c, t, rfl⟩ := List.exists_cons_of_ne_nil hne
    rfl

/-- Helper: the `pmPat` reach set is closed under one automaton step. -/
theorem reachPM_step (Q : List PatItem) (h : ReachPMP Q) (c : Char)
    (P' : List PatItem) (hs : patStep Q c = some P') :
    normP P' = [] ∨ ReachPMP (normP P') := by
  rcases h with ⟨s, hne, hsuf, rfl⟩ | rfl | rfl | rfl
  · obtain ⟨x, xs, rfl⟩ := List.exists_cons_of_ne_nil hne
    rw [patStep] at hs
    by_cases hcx : c = x
    · rw [if_pos hcx] at hs
      injection hs with hs
      subst hs
      cases xs with
      | nil => exact Or.inr (Or.inr (Or.inl rfl))
      | cons y ys =>
        refine Or.inr (Or.inl ⟨y :: ys, by simp, ?_, rfl⟩)
        exact (List.suffix_cons x (y :: ys)).trans hsuf
    · rw [if_neg hcx] at hs
      exact absurd hs (by simp)
  · rw [show pmTail1 = .wsSkip :: [.lit ['='], .wsSkip, .lit ['"'], .scanTo '"',
      .lit ['"']] from rfl, patStep] at hs
    by_cases hw : jsWs c
    · rw [if_pos hw] at hs
      injection hs with hs
      subst hs
      exact Or.inr (Or.inr (Or.inl rfl))
    · rw [if_neg hw, patStep] at hs
      by_cases hc : c = '='
      · rw [if_pos hc] at hs
        injection hs with hs
        subst hs
        exact Or.inr (Or.inr (Or.inr (Or.inl rfl)))
      · rw [if_neg hc] at hs
        exact absurd hs (by simp)
  · rw [patStep] at hs
    by_cases hw : jsWs c
    · rw [if_pos hw] at hs
      injection hs with hs
      subst hs
      exact Or.inr (Or.inr (Or.inr (Or.inl rfl)))
    · rw [if_neg hw, patStep] at hs
      by_cases hc : c = '"'
      · rw [if_pos hc] at hs
        injection hs with hs
        subst hs
        exact Or.inr (Or.inr (Or.inr (Or.inr rfl)))
      · rw [if_neg hc] at hs
        exact absurd hs (by simp)
  · rw [patStep] at hs
    by_cases hc : c = '"'
    · rw [if_pos hc, patStep, if_pos hc] at hs
      injection hs with hs
      subst hs
      exact Or.inl rfl
    · rw [if_neg hc] at hs
      injection hs with hs
      subst hs
      exact Or.inr (Or.inr (Or.inr (Or.inr rfl)))

/-- Helper: a found alternative tail is one of the four literal tails. -/
theorem findAlt_testAlts (c : Char) (altT : List Char)
    (h : findAlt testAlts c = some altT) :
    altT = "pm run".data ∨ altT = "arn".data ∨ altT = "npm".data ∨
      altT = "un run".data := by
  have hmem := findAlt_mem testAlts c altT h
  simp only [testAlts, List.mem_cons, List.not_mem_nil, or_false] at hmem
  rcases hmem with he | he | he | he
  · exact Or.inl (by injection he)
  · exact Or.inr (Or.inl (by injection he))
  · exact Or.inr (Or.inr (Or.inl (by injection he)))
  · exact Or.inr (Or.inr (Or.inr (by injection he)))

/-- Helper: the `testPat` reach set is closed under one automaton step. -/
theorem reachTest_step (Q : List PatItem) (h : ReachTestP Q) (c : Char)
    (P' : List PatItem) (hs : patStep Q c = some P') :
    normP P' = [] ∨ ReachTestP (normP P') := by
  rcases h with ⟨s, hne, hsuf, rfl⟩ | rfl | rfl | rfl | ⟨s, hne, hsuf, rfl⟩ | rfl | rfl |
    ⟨s, hne, hsuf, rfl⟩
  · obtain ⟨x, xs, rfl⟩ := List.exists_cons_of_ne_nil hne
    rw [patStep] at hs
    by_cases hcx : c = x
    · rw [if_pos hcx] at hs
      injection hs with hs
      subst hs
      cases xs with
      | nil => exact Or.inr (Or.inr (Or.inl rfl))
      | cons y ys =>
        refine Or.inr (Or.inl ⟨y :: ys, by simp, ?_, rfl⟩)
        exact (List.suffix_cons x (y :: ys)).trans hsuf
    · rw [if_neg hcx] at hs
      exact absurd hs (by simp)
  · rw [show testTail1 = .wsSkip :: [.lit ['='], .wsSkip, .lit ['"'], .alts testAlts,
      .wsPlus, .lit "ts-mocha".data] from rfl, patStep] at hs
    by_cases hw : jsWs c
    · rw [if_pos hw] at hs
      injection hs with hs
      subst hs
      exact Or.inr (Or.inr (Or.inl rfl))
    · rw [if_neg hw, patStep] at hs
      by_cases hc : c = '='
      · rw [if_pos hc] at hs
        injection hs with hs
        subst hs
        exact Or.inr (Or.inr (Or.inr (Or.inl rfl)))
      · rw [if_neg hc] at hs
        exact absurd hs (by simp)
  · rw [patStep] at hs
    by_cases hw : jsWs c
    · rw [if_pos hw] at hs
      injection hs with hs
      subst hs
      exact Or.inr (Or.inr (Or.inr (Or.inl rfl)))
    · rw [if_neg hw, patStep] at hs
      by_cases hc : c = '"'
      · rw [if_pos hc] at hs
        injection hs with hs
        subst hs
        exact Or.inr (Or.inr (Or.inr (Or.inr (Or.inl rfl))))
      · rw [if_neg hc] at hs
        exact absurd hs (by simp)
  · rw [patStep] at hs
    cases hf : findAlt testAlts c with
    | none => rw [hf] at hs; exact absurd hs (by simp)
    | some altT =>
      rw [hf] at hs
      injection hs with hs
      subst hs
      have halt := findAlt_testAlts c altT hf
      have hne : altT ≠ [] := by
        rcases halt with rfl | rfl | rfl | rfl <;> simp
      rw [show normP (.lit altT :: [.wsPlus, .lit "ts-mocha".data]) =
        .lit altT :: [.wsPlus, .lit "ts-mocha".data] from by
          obtain ⟨x, xs, rfl⟩ := List.exists_cons_of_ne_nil hne
          rfl]
      refine Or.inr (Or.inr (Or.inr (Or.inr (Or.inr (Or.inl ⟨altT, hne, ?_, rfl⟩)))))
      rcases halt with rfl | rfl | rfl | rfl
      · exact Or.inl (List.suffix_refl _)
      · exact Or.inr (Or.inl (List.suffix_refl _))
      · exact Or.inr (Or.inr (Or.inl (List.suffix_refl _)))
      · exact Or.inr (Or.inr (Or.inr (List.suffix_refl _)))
  · obtain ⟨x, xs, rfl⟩ := List.exists_cons_of_ne_nil hne
    rw [patStep] at hs
    by_cases hcx : c = x
    · rw [if_pos hcx] at hs
      injection hs with hs
      subst hs
      cases xs with
      | nil => exact Or.inr (Or.inr (Or.inr (Or.inr (Or.inr (Or.inr (Or.inl rfl))))))
      | cons y ys =>
        refine Or.inr (Or.inr (Or.inr (Or.inr (Or.inr
          (Or.inl ⟨y :: ys, by simp, ?_, rfl⟩)))))
        rcases hsuf with hsuf | hsuf | hsuf | hsuf
        · exact Or.inl ((List.suffix_cons x (y :: ys)).trans hsuf)
        · exact Or.inr (Or.inl ((List.suffix_cons x (y :: ys)).trans hsuf))
        · exact Or.inr (Or.inr (Or.inl ((List.suffix_cons x (y :: ys)).trans hsuf)))
        · exact Or.inr (Or.inr (Or.inr ((List.suffix_cons x (y :: ys)).trans hsuf)))
    · rw [if_neg hcx] at hs
      exact absurd hs (by simp)
  · rw [patStep] at hs
    by_cases hw : jsWs c
    · rw [if_pos hw] at hs
      injection hs with hs
      subst hs
      exact Or.inr (Or.inr (Or.inr (Or.inr (Or.inr (Or.inr (Or.inr (Or.inl rfl)))))))
    · rw [if_neg hw] at hs
      exact absurd hs (by simp)
  · rw [patStep] at hs
    by_cases hw : jsWs c
    · rw [if_pos hw] at hs
      injection hs with hs
      subst hs
      exact Or.inr (Or.inr (Or.inr (Or.inr (Or.inr (Or.inr (Or.inr (Or.inl rfl)))))))
    · rw [if_neg hw, patStep] at hs
      by_cases hc : c = 't'
      · rw [if_pos hc] at hs
        injection hs with hs
        subst hs
        refine Or.inr (Or.inr (Or.inr (Or.inr (Or.inr (Or.inr (Or.inr (Or.inr
          ⟨"s-mocha".data, by simp, ?_, rfl⟩)))))))
        exact List.suffix_cons 't' "s-mocha".data
      · rw [if_neg hc] at hs
        exact absurd hs (by simp)
  · obtain ⟨x, xs, rfl⟩ := List.exists_cons_of_ne_nil hne
    rw [patStep] at hs
    by_cases hcx : c = x
    · rw [if_pos hcx] at hs
      injection hs with hs
      subst hs
      cases xs with
      | nil => exact Or.inl rfl
      | cons y ys =>
        refine Or.inr (Or.inr (Or.inr (Or.inr (Or.inr (Or.inr (Or.inr (Or.inr
          ⟨y :: ys, by simp, ?_, rfl⟩)))))))
        exact (List.suffix_cons x (y :: ys)).trans hsuf
    · rw [if_neg hcx] at hs
      exact absurd hs (by simp)

/-- Helper: a suspended run starting in a closed reach set ends in it. -/
theorem reach_cont (R : List PatItem → Prop)
    (hnorm : ∀ Q, R Q → normP Q = Q)
    (hstep : ∀ Q, R Q → ∀ c P', patStep Q c = some P' → normP P' = [] ∨ R (normP P')) :
    ∀ (v : List Char) (Q₀ Q : List PatItem), R Q₀ → runPat Q₀ v = .cont Q → R Q
  | [], Q₀, Q => by
    intro h0 hr
    rw [runPat] at hr
    by_cases hn : normP Q₀ = []
    · rw [if_pos hn] at hr
      exact absurd hr (by simp)
    · rw [if_neg hn] at hr
      injection hr with hr
      rw [← hr, hnorm Q₀ h0]
      exact h0
  | c :: rest, Q₀, Q => by
    intro h0 hr
    rw [runPat] at hr
    by_cases hn : normP Q₀ = []
    · rw [if_pos hn] at hr
      exact absurd hr (by simp)
    · rw [if_neg hn] at hr
      cases hs : patStep Q₀ c with
      | none => rw [hs] at hr; exact absurd hr (by simp)
      | some P' =>
        rw [hs] at hr
        have hr' : runPat P' rest = .cont Q := hr
        rw [← runPat_normP] at hr'
        rcases hstep Q₀ h0 c P' hs with h1 | h1
        · rw [h1, runPat_done_of [] rest rfl] at hr'
          exact absurd hr' (by simp)
        · exact reach_cont R hnorm hstep rest (normP P') Q h1 hr'

/-- Helper: a run of `pmPat` suspends only in its reach set. -/
theorem reachPM_of_cont (v : List Char) (Q : List PatItem)
    (h : runPat pmPat v = .cont Q) : ReachPMP Q :=
  reach_cont ReachPMP reachPM_norm reachPM_step v pmPat Q
    (Or.inl ⟨"package_manager".data, by simp, List.suffix_refl _, rfl⟩) h

/-- Helper: a run of `testPat` suspends only in its reach set. -/
theorem reachTest_of_cont (v : List Char) (Q : List PatItem)
    (h : runPat testPat v = .cont Q) : ReachTestP Q :=
  reach_cont ReachTestP reachTest_norm reachTest_step v testPat Q
    (Or.inl ⟨"test".data, by simp, List.suffix_refl _, rfl⟩) h

/-- The exact text a `package_manager` match consumes. -/
def pmMat (w1 w2 v1 : List Char) : List Char :=
  "package_manager".data ++ (w1 ++ '=' :: (w2 ++ '"' :: (v1 ++ ['"'])))

/-- The exact text a `test` match consumes. -/
def testMat (w1 w2 alt w3 : List Char) : List Char :=
  "test".data ++ (w1 ++ '=' :: (w2 ++ '"' :: (alt ++ (w3 ++ "ts-mocha".data))))

/-- Helper: a match decomposes its input into the consumed text and the
remainder. -/
theorem matchPM_mat (mat suf : List Char) (h : matchPMAt (mat ++ suf) = some suf) :
    ∃ w1 w2 v1, mat = pmMat w1 w2 v1 ∧ (∀ c ∈ w1, jsWs c = true) ∧
      (∀ c ∈ w2, jsWs c = true) ∧ (∀ c ∈ v1, c ≠ '"') := by
  obtain ⟨w1, w2, v1, hL, h1, h2, h3⟩ := (charPM_match _ _).1 h
  refine ⟨w1, w2, v1, ?_, h1, h2, h3⟩
  have hps : mat ++ suf = pmMat w1 w2 v1 ++ suf := by
    rw [hL]
    simp [pmMat]
  exact List.append_cancel_right hps

/-- Helper: a `test` match decomposes its input likewise. -/
theorem matchTest_mat (mat suf : List Char) (h : matchTestAt (mat ++ suf) = some suf) :
    ∃ w1 w2 alt w3, mat = testMat w1 w2 alt w3 ∧ alt ∈ testAlts ∧ w3 ≠ [] ∧
      (∀ c ∈ w1, jsWs c = true) ∧ (∀ c ∈ w2, jsWs c = true) ∧
      (∀ c ∈ w3, jsWs c = true) := by
  obtain ⟨w1, w2, alt, w3, halt, hne, hL, h1, h2, h3⟩ := (charTest_match _ _).1 h
  refine ⟨w1, w2, alt, w3, ?_, halt, hne, h1, h2, h3⟩
  have hps : mat ++ suf = testMat w1 w2 alt w3 ++ suf := by
    rw [hL]
    simp [testMat]
  exact List.append_cancel_right hps

/-- Helper: the `pmPat` program consumes exactly a `package_manager` match. -/
theorem runPM_mat (w1 w2 v1 : List Char) (hw1 : ∀ c ∈ w1, jsWs c = true)
    (hw2 : ∀ c ∈ w2, jsWs c = true) (hv1 : ∀ c ∈ v1, c ≠ '"') :
    runPat pmPat (pmMat w1 w2 v1) = .done [] :=
  (charPM_run _ _).2 ⟨w1, w2, v1, by simp [pmMat], hw1, hw2, hv1⟩

/-- Helper: the `testPat` program consumes exactly a `test` match. -/
theorem runTest_mat (w1 w2 alt w3 : List Char) (halt : alt ∈ testAlts)
    (hne : w3 ≠ []) (hw1 : ∀ c ∈ w1, jsWs c = true) (hw2 : ∀ c ∈ w2, jsWs c = true)
    (hw3 : ∀ c ∈ w3, jsWs c = true) :
    runPat testPat (testMat w1 w2 alt w3) = .done [] :=
  (charTest_run _ _).2 ⟨w1, w2, alt, w3, halt, hne, by simp [testMat], hw1, hw2, hw3⟩

/-- Helper: the quote scanner over a `package_manager` match stops at its
opening quote. -/
theorem runScan_pmMat (w1 w2 v1 : List Char) (hw1 : ∀ c ∈ w1, jsWs c = true)
    (hw2 : ∀ c ∈ w2, jsWs c = true) :
    runPat [.scanTo '"', .lit ['"']] (pmMat w1 w2 v1) = .done (v1 ++ ['"']) := by
  rw [runPat_scanTo '"' [.lit ['"']] (by decide) _ _]
  have heq : pmMat w1 w2 v1 =
      ((("package_manager".data ++ w1) ++ ['=']) ++ w2) ++ ('"' :: (v1 ++ ['"'])) := by
    simp [pmMat]
  rw [heq, dropWhile_append_all _ _ ?_ (by intro c hc; simp at hc; rw [hc]; simp)]
  · rw [runPat_lit1 '"' [], runPat_done_of [] _ rfl]
  · intro c hc
    simp only [List.mem_append] at hc
    rcases hc with ((hc | hc) | hc) | hc
    · revert c
      decide
    · have := hw1 c hc
      simp only [Bool.not_eq_true']
      by_contra habs
      simp only [Bool.not_eq_false, decide_eq_true_eq] at habs
      rw [habs] at this
      exact absurd this (by decide)
    · simp at hc
      rw [hc]
      decide
    · have := hw2 c hc
      simp only [Bool.not_eq_true']
      by_contra habs
      simp only [Bool.not_eq_false, decide_eq_true_eq] at habs
      rw [habs] at this
      exact absurd this (by decide)

/-- Helper: the quote scanner over a `test` match stops at its opening
quote. -/
theorem runScan_testMat (w1 w2 alt w3 : List Char) (hw1 : ∀ c ∈ w1, jsWs c = true)
    (hw2 : ∀ c ∈ w2, jsWs c = true) :
    runPat [.scanTo '"', .lit ['"']] (testMat w1 w2 alt w3) =
      .done (alt ++ (w3 ++ "ts-mocha".data)) := by
  rw [runPat_scanTo '"' [.lit ['"']] (by decide) _ _]
  have heq : testMat w1 w2 alt w3 =
      ((("test".data ++ w1) ++ ['=']) ++ w2) ++ ('"' :: (alt ++ (w3 ++ "ts-mocha".data))) := by
    simp [testMat]
  rw [heq, dropWhile_append_all _ _ ?_ (by intro c hc; simp at hc; rw [hc]; simp)]
  · rw [runPat_lit1 '"' [], runPat_done_of [] _ rfl]
  · intro c hc
    simp only [List.mem_append] at hc
    rcases hc with ((hc | hc) | hc) | hc
    · revert c
      decide
    · have := hw1 c hc
      simp only [Bool.not_eq_true']
      by_contra habs
      simp only [Bool.not_eq_false, decide_eq_true_eq] at habs
      rw [habs] at this
      exact absurd this (by decide)
    · simp at hc
      rw [hc]
      decide
    · have := hw2 c hc
      simp only [Bool.not_eq_true']
      by_contra habs
      simp only [Bool.not_eq_false, decide_eq_true_eq] at habs
      rw [habs] at this
      exact absurd this (by decide)

/-- Helper: the `package_manager` replacement text matches its own pattern,
whatever follows it. -/
theorem pmRepl_selfmatch (k : PackageManager) (ver : String) (s : List Char) :
    matchPMAt (pmReplacement (withVersion (PACKAGE_MANAGER_CONFIG k) ver) ++ s) =
      some s := by
  cases k
  · exact (charPM_match _ _).2 ⟨[' '], [' '], "npm".data, rfl, by decide, by decide,
      by decide⟩
  · exact (charPM_match _ _).2 ⟨[' '], [' '], "yarn".data, rfl, by decide, by decide,
      by decide⟩
  · exact (charPM_match _ _).2 ⟨[' '], [' '], "pnpm".data, rfl, by decide, by decide,
      by decide⟩
  · exact (charPM_match _ _).2 ⟨[' '], [' '], "bun".data, rfl, by decide, by decide,
      by decide⟩

/-- Helper: the `test` replacement text matches its own pattern, whatever
follows it. -/
theorem testRepl_selfmatch (k : PackageManager) (ver : String) (s : List Char) :
    matchTestAt (testReplacement (withVersion (PACKAGE_MANAGER_CONFIG k) ver) ++ s) =
      some s := by
  cases k
  · exact (charTest_match _ _).2 ⟨[' '], [' '], "npm run".data, [' '],
      by simp [testAlts], by simp, rfl, by decide, by decide, by decide⟩
  · exact (charTest_match _ _).2 ⟨[' '], [' '], "yarn".data, [' '],
      by simp [testAlts], by simp, rfl, by decide, by decide, by decide⟩
  · exact (charTest_match _ _).2 ⟨[' '], [' '], "pnpm".data, [' '],
      by simp [testAlts], by simp, rfl, by decide, by decide, by decide⟩
  · exact (charTest_match _ _).2 ⟨[' '], [' '], "bun run".data, [' '],
      by simp [testAlts], by simp, rfl, by decide, by decide, by decide⟩

/-- Helper: the `package_manager` pattern never matches at the start of the
`test` replacement text. -/
theorem pmMatch_testRepl (k : PackageManager) (ver : String) (s : List Char) :
    matchPMAt (testReplacement (withVersion (PACKAGE_MANAGER_CONFIG k) ver) ++ s) =
      none := by
  cases k <;> rfl

/-- Helper: the concrete text of the `package_manager` replacement. -/
theorem pmRepl_eq (k : PackageManager) (ver : String) :
    pmReplacement (withVersion (PACKAGE_MANAGER_CONFIG k) ver) =
      ("package_manager = \"" ++ pmKey k ++ "\"").data := by
  cases k <;> rfl

/-- Helper: the concrete text of the `test` replacement. -/
theorem testRepl_eq (k : PackageManager) (ver : String) :
    testReplacement (withVersion (PACKAGE_MANAGER_CONFIG k) ver) =
      ("test = \"" ++ (PACKAGE_MANAGER_CONFIG k).runCommand ++ " ts-mocha").data := by
  cases k <;> rfl

/-- Helper: the `package_manager` replacement text contains no letter `t`. -/
theorem pmRepl_no_t (k : PackageManager) (ver : String) :
    ∀ c ∈ pmReplacement (withVersion (PACKAGE_MANAGER_CONFIG k) ver), c ≠ 't' := by
  rw [pmRepl_eq k ver]
  cases k <;> decide

/-- Helper: the `test` replacement text contains no line terminator. -/
theorem testRepl_noLT (k : PackageManager) (ver : String) :
    ∀ c ∈ testReplacement (withVersion (PACKAGE_MANAGER_CONFIG k) ver),
      isLineTerm c = false := by
  rw [testRepl_eq k ver]
  cases k <;> decide

/-- Helper: the replacement texts are nonempty. -/
theorem pmRepl_ne (k : PackageManager) (ver : String) :
    pmReplacement (withVersion (PACKAGE_MANAGER_CONFIG k) ver) ≠ [] := by
  rw [pmRepl_eq k ver]
  cases k <;> decide

/-- Helper: the `test` replacement text is nonempty. -/
theorem testRepl_ne (k : PackageManager) (ver : String) :
    testReplacement (withVersion (PACKAGE_MANAGER_CONFIG k) ver) ≠ [] := by
  rw [testRepl_eq k ver]
  cases k <;> decide

/-- Helper: no position right after a consumed `test` match is a line
start (the match ends in the letter `a`). -/
theorem no_lineStart_after_testMat (X : List Char) (w1 w2 alt w3 : List Char)
    (f : Bool) : ¬ lineStartAt (X ++ testMat w1 w2 alt w3) f := by
  intro h
  have heq : X ++ testMat w1 w2 alt w3 =
      (X ++ ("test".data ++ (w1 ++ '=' :: (w2 ++ '"' :: (alt ++ (w3 ++ "ts-moch".data)))))) ++
        ['a'] := by
    simp [testMat]
  rw [heq, lineStartAt_concat] at h
  exact absurd h (by decide)

/-- Helper: no position right after the `test` replacement text is a line
start (it ends in the letter `a`). -/
theorem no_lineStart_after_testRepl (k : PackageManager) (ver : String)
    (X : List Char) (f : Bool) :
    ¬ lineStartAt (X ++ testReplacement (withVersion (PACKAGE_MANAGER_CONFIG k) ver)) f := by
  intro h
  have heq : ∃ Y, testReplacement (withVersion (PACKAGE_MANAGER_CONFIG k) ver) =
      Y ++ ['a'] := by
    rw [testRepl_eq k ver]
    cases k
    · exact ⟨"test = \"npm run ts-moch".data, by decide⟩
    · exact ⟨"test = \"yarn ts-moch".data, by decide⟩
    · exact ⟨"test = \"pnpm ts-moch".data, by decide⟩
    · exact ⟨"test = \"bun run ts-moch".data, by decide⟩
  obtain ⟨Y, hY⟩ := heq
  rw [hY, ← List.append_assoc, lineStartAt_concat] at h
  exact absurd h (by decide)

/-- Helper: the first two characters of the `package_manager` replacement. -/
theorem pmRepl_cons (k : PackageManager) (ver : String) :
    ∃ r', pmReplacement (withVersion (PACKAGE_MANAGER_CONFIG k) ver) =
      'p' :: 'a' :: r' := by
  rw [pmRepl_eq k ver]
  cases k
  · exact ⟨"ckage_manager = \"npm\"".data, by decide⟩
  · exact ⟨"ckage_manager = \"yarn\"".data, by decide⟩
  · exact ⟨"ckage_manager = \"pnpm\"".data, by decide⟩
  · exact ⟨"ckage_manager = \"bun\"".data, by decide⟩

/-- Helper: the first two characters of the `test` replacement. -/
theorem testRepl_cons (k : PackageManager) (ver : String) :
    ∃ r', testReplacement (withVersion (PACKAGE_MANAGER_CONFIG k) ver) =
      't' :: 'e' :: r' := by
  rw [testRepl_eq k ver]
  cases k
  · exact ⟨"st = \"npm run ts-mocha".data, by decide⟩
  · exact ⟨"st = \"yarn ts-mocha".data, by decide⟩
  · exact ⟨"st = \"pnpm ts-mocha".data, by decide⟩
  · exact ⟨"st = \"bun run ts-mocha".data, by decide⟩

/-- Helper: crossing behavior of the `pmPat` automaton over the
`package_manager` replacement versus a `package_manager` match: from any
suspended state the replaced text either fails the run or both texts
complete it. -/
theorem crossPM_pm (k : PackageManager) (ver : String) (w1 w2 v1 : List Char)
    (hw1 : ∀ c ∈ w1, jsWs c = true) (hw2 : ∀ c ∈ w2, jsWs c = true)
    (hv1 : ∀ c ∈ v1, c ≠ '"') (Q : List PatItem) (hQ : ReachPMP Q) :
    runPat Q (pmReplacement (withVersion (PACKAGE_MANAGER_CONFIG k) ver)) = .fail ∨
    ∃ t t', runPat Q (pmReplacement (withVersion (PACKAGE_MANAGER_CONFIG k) ver)) =
        .done t ∧
      runPat Q (pmMat w1 w2 v1) = .done t' := by
  obtain ⟨r', hr⟩ := pmRepl_cons k ver
  rcases hQ with ⟨s, hne, hsuf, rfl⟩ | rfl | rfl | rfl
  · by_cases hfull : s = "package_manager".data
    · subst hfull
      refine Or.inr ⟨[], [], ?_, runPM_mat w1 w2 v1 hw1 hw2 hv1⟩
      have h0 := (matchPM_iff _ _).1 (pmRepl_selfmatch k ver [])
      rwa [List.append_nil] at h0
    · left
      obtain ⟨c, cs, rfl⟩ := List.exists_cons_of_ne_nil hne
      have hcp : c ≠ 'p' := by
        obtain ⟨u, hu⟩ := hsuf
        cases u with
        | nil => exact absurd (by simpa using hu) hfull
        | cons x u' =>
          have hx : c ∈ "ackage_manager".data := by
            have h1 : x :: (u' ++ c :: cs) = "package_manager".data := by simpa using hu
            have h2 : u' ++ c :: cs = "ackage_manager".data := by
              have := congrArg List.tail h1
              simpa using this
            rw [← h2]
            exact List.mem_append_right u' (List.mem_cons_self c cs)
          exact (by decide : ∀ d ∈ "ackage_manager".data, d ≠ 'p') c hx
      rw [hr]
      exact runPat_cons_fail _ (.lit (c :: cs)) pmTail1 'p' ('a' :: r') rfl
        (by rw [patStep, if_neg (fun h => hcp h.symm)])
  · left
    rw [hr]
    exact runPat_cons_fail pmTail1 .wsSkip _ 'p' ('a' :: r') rfl (by decide)
  · left
    rw [hr]
    exact runPat_cons_fail _ .wsSkip _ 'p' ('a' :: r') rfl (by decide)
  · refine Or.inr ⟨(pmKey k).data ++ ['"'], v1 ++ ['"'], ?_,
      runScan_pmMat w1 w2 v1 hw1 hw2⟩
    rw [pmRepl_eq k ver]
    cases k <;> decide

/-- Helper: crossing behavior of the `pmPat` automaton over the `test`
replacement versus a `test` match. -/
theorem crossPM_test (k : PackageManager) (ver : String) (w1 w2 alt w3 : List Char)
    (hw1 : ∀ c ∈ w1, jsWs c = true) (hw2 : ∀ c ∈ w2, jsWs c = true)
    (Q : List PatItem) (hQ : ReachPMP Q) :
    runPat Q (testReplacement (withVersion (PACKAGE_MANAGER_CONFIG k) ver)) = .fail ∨
    ∃ t t', runPat Q (testReplacement (withVersion (PACKAGE_MANAGER_CONFIG k) ver)) =
        .done t ∧
      runPat Q (testMat w1 w2 alt w3) = .done t' := by
  obtain ⟨r', hr⟩ := testRepl_cons k ver
  rcases hQ with ⟨s, hne, hsuf, rfl⟩ | rfl | rfl | rfl
  · left
    obtain ⟨c, cs, rfl⟩ := List.exists_cons_of_ne_nil hne
    have hct : c ≠ 't' :=
      (by decide : ∀ d ∈ "package_manager".data, d ≠ 't') c
        (hsuf.subset (List.mem_cons_self c cs))
    rw [hr]
    exact runPat_cons_fail _ (.lit (c :: cs)) pmTail1 't' ('e' :: r') rfl
      (by rw [patStep, if_neg (fun h => hct h.symm)])
  · left
    rw [hr]
    exact runPat_cons_fail pmTail1 .wsSkip _ 't' ('e' :: r') rfl (by decide)
  · left
    rw [hr]
    exact runPat_cons_fail _ .wsSkip _ 't' ('e' :: r') rfl (by decide)
  · refine Or.inr ⟨((PACKAGE_MANAGER_CONFIG k).runCommand ++ " ts-mocha").data,
      alt ++ (w3 ++ "ts-mocha".data), ?_, runScan_testMat w1 w2 alt w3 hw1 hw2⟩
    rw [testRepl_eq k ver]
    cases k <;> decide

/-- Helper: from any suspended state of the `testPat` automaton the
`package_manager` replacement fails the run. -/
theorem crossTest_pm (k : PackageManager) (ver : String) (Q : List PatItem)
    (hQ : ReachTestP Q) :
    runPat Q (pmReplacement (withVersion (PACKAGE_MANAGER_CONFIG k) ver)) = .fail := by
  obtain ⟨r', hr⟩ := pmRepl_cons k ver
  rw [hr]
  rcases hQ with ⟨s, hne, hsuf, rfl⟩ | rfl | rfl | rfl | ⟨s, hne, hsufs, rfl⟩ | rfl | rfl |
    ⟨s, hne, hsuf, rfl⟩
  · obtain ⟨c, cs, rfl⟩ := List.exists_cons_of_ne_nil hne
    have hcp : c ≠ 'p' :=
      (by decide : ∀ d ∈ "test".data, d ≠ 'p') c (hsuf.subset (List.mem_cons_self c cs))
    exact runPat_cons_fail _ (.lit (c :: cs)) testTail1 'p' ('a' :: r') rfl
      (by rw [patStep, if_neg (fun h => hcp h.symm)])
  · exact runPat_cons_fail testTail1 .wsSkip _ 'p' ('a' :: r') rfl (by decide)
  · exact runPat_cons_fail _ .wsSkip _ 'p' ('a' :: r') rfl (by decide)
  · rw [runPat_cons_step (.alts testAlts :: [.wsPlus, .lit "ts-mocha".data])
      (.lit "npm".data :: [.wsPlus, .lit "ts-mocha".data]) (.alts testAlts) _
      'p' ('a' :: r') rfl (by decide)]
    exact runPat_cons_fail _ (.lit "npm".data) _ 'a' r' rfl (by decide)
  · obtain ⟨c, cs, rfl⟩ := List.exists_cons_of_ne_nil hne
    by_cases hcp : c = 'p'
    · subst hcp
      have hmem : 'p' :: cs ∈ ("pm run".data).tails ++ ("arn".data).tails ++
          ("npm".data).tails ++ ("un run".data).tails := by
        rcases hsufs with h | h | h | h
        · exact List.mem_append_left _ (List.mem_append_left _
            (List.mem_append_left _ ((List.mem_tails _ _).2 h)))
        · exact List.mem_append_left _ (List.mem_append_left _
            (List.mem_append_right _ ((List.mem_tails _ _).2 h)))
        · exact List.mem_append_left _ (List.mem_append_right _
            ((List.mem_tails _ _).2 h))
        · exact List.mem_append_right _ ((List.mem_tails _ _).2 h)
      have hdisc : 'p' :: cs = "pm run".data ∨ 'p' :: cs = "pm".data :=
        (by decide : ∀ l ∈ ("pm run".data).tails ++ ("arn".data).tails ++
            ("npm".data).tails ++ ("un run".data).tails,
          l.head? = some 'p' → l = "pm run".data ∨ l = "pm".data)
          ('p' :: cs) hmem rfl
      rcases hdisc with he | he
      · have he' : cs = "m run".data := by injection he
        subst he'
        rw [runPat_cons_step (.lit ('p' :: "m run".data) :: [.wsPlus, .lit "ts-mocha".data])
          (.lit "m run".data :: [.wsPlus, .lit "ts-mocha".data]) _ _ 'p' ('a' :: r') rfl
          (by decide)]
        exact runPat_cons_fail _ (.lit "m run".data) _ 'a' r' rfl (by decide)
      · have he' : cs = "m".data := by injection he
        subst he'
        rw [runPat_cons_step (.lit ('p' :: "m".data) :: [.wsPlus, .lit "ts-mocha".data])
          (.lit "m".data :: [.wsPlus, .lit "ts-mocha".data]) _ _ 'p' ('a' :: r') rfl
          (by decide)]
        exact runPat_cons_fail _ (.lit "m".data) _ 'a' r' rfl (by decide)
    · exact runPat_cons_fail _ (.lit (c :: cs)) _ 'p' ('a' :: r') rfl
        (by rw [patStep, if_neg (fun h => hcp h.symm)])
  · exact runPat_cons_fail _ .wsPlus _ 'p' ('a' :: r') rfl (by decide)
  · exact runPat_cons_fail _ .wsSkip _ 'p' ('a' :: r') rfl (by decide)
  · obtain ⟨c, cs, rfl⟩ := List.exists_cons_of_ne_nil hne
    have hcp : c ≠ 'p' :=
      (by decide : ∀ d ∈ "ts-mocha".data, d ≠ 'p') c
        (hsuf.subset (List.mem_cons_self c cs))
    exact runPat_cons_fail _ (.lit (c :: cs)) _ 'p' ('a' :: r') rfl
      (by rw [patStep, if_neg (fun h => hcp h.symm)])

/-- Helper: crossing behavior of the `testPat` automaton over the `test`
replacement versus a `test` match. -/
theorem crossTest_test (k : PackageManager) (ver : String) (w1 w2 alt w3 : List Char)
    (halt : alt ∈ testAlts) (hne3 : w3 ≠ []) (hw1 : ∀ c ∈ w1, jsWs c = true)
    (hw2 : ∀ c ∈ w2, jsWs c = true) (hw3 : ∀ c ∈ w3, jsWs c = true)
    (Q : List PatItem) (hQ : ReachTestP Q) :
    runPat Q (testReplacement (withVersion (PACKAGE_MANAGER_CONFIG k) ver)) = .fail ∨
    ∃ t t', runPat Q (testReplacement (withVersion (PACKAGE_MANAGER_CONFIG k) ver)) =
        .done t ∧
      runPat Q (testMat w1 w2 alt w3) = .done t' := by
  obtain ⟨r', hr⟩ := testRepl_cons k ver
  rcases hQ with ⟨s, hne, hsuf, rfl⟩ | rfl | rfl | rfl | ⟨s, hne, hsufs, rfl⟩ | rfl | rfl |
    ⟨s, hne, hsuf, rfl⟩
  · have hmem := (List.mem_tails _ _).2 hsuf
    rw [show ("test".data).tails =
      ["test".data, "est".data, "st".data, "t".data, []] from rfl] at hmem
    simp only [List.mem_cons, List.not_mem_nil, or_false] at hmem
    rcases hmem with rfl | rfl | rfl | rfl | rfl
    · refine Or.inr ⟨[], [], ?_, runTest_mat w1 w2 alt w3 halt hne3 hw1 hw2 hw3⟩
      have h0 := (matchTest_iff _ _).1 (testRepl_selfmatch k ver [])
      rwa [List.append_nil] at h0
    · left
      rw [hr]
      exact runPat_cons_fail _ (.lit "est".data) testTail1 't' ('e' :: r') rfl (by decide)
    · left
      rw [hr]
      exact runPat_cons_fail _ (.lit "st".data) testTail1 't' ('e' :: r') rfl (by decide)
    · left
      rw [hr]
      rw [runPat_cons_step (.lit "t".data :: testTail1) (.lit [] :: testTail1)
        (.lit "t".data) testTail1 't' ('e' :: r') rfl (by decide)]
      exact runPat_cons_fail (.lit [] :: testTail1) .wsSkip _ 'e' r' rfl (by decide)
    · exact absurd rfl hne
  · left
    rw [hr]
    exact runPat_cons_fail testTail1 .wsSkip _ 't' ('e' :: r') rfl (by decide)
  · left
    rw [hr]
    exact runPat_cons_fail _ .wsSkip _ 't' ('e' :: r') rfl (by decide)
  · left
    rw [hr]
    exact runPat_cons_fail _ (.alts testAlts) _ 't' ('e' :: r') rfl (by decide)
  · left
    obtain ⟨c, cs, rfl⟩ := List.exists_cons_of_ne_nil hne
    have hct : c ≠ 't' := by
      rcases hsufs with h | h | h | h
      · exact (by decide : ∀ d ∈ "pm run".data, d ≠ 't') c
          (h.subset (List.mem_cons_self c cs))
      · exact (by decide : ∀ d ∈ "arn".data, d ≠ 't') c
          (h.subset (List.mem_cons_self c cs))
      · exact (by decide : ∀ d ∈ "npm".data, d ≠ 't') c
          (h.subset (List.mem_cons_self c cs))
      · exact (by decide : ∀ d ∈ "un run".data, d ≠ 't') c
          (h.subset (List.mem_cons_self c cs))
    rw [hr]
    exact runPat_cons_fail _ (.lit (c :: cs)) _ 't' ('e' :: r') rfl
      (by rw [patStep, if_neg (fun h => hct h.symm)])
  · left
    rw [hr]
    exact runPat_cons_fail _ .wsPlus _ 't' ('e' :: r') rfl (by decide)
  · left
    rw [hr]
    rw [runPat_cons_step [.wsSkip, .lit "ts-mocha".data]
      (.lit "s-mocha".data :: []) .wsSkip _ 't' ('e' :: r') rfl (by decide)]
    exact runPat_cons_fail _ (.lit "s-mocha".data) _ 'e' r' rfl (by decide)
  · left
    by_cases hfull : s = "ts-mocha".data
    · subst hfull
      rw [hr]
      rw [runPat_cons_step [.lit "ts-mocha".data] (.lit "s-mocha".data :: [])
        (.lit "ts-mocha".data) [] 't' ('e' :: r') rfl (by decide)]
      exact runPat_cons_fail _ (.lit "s-mocha".data) _ 'e' r' rfl (by decide)
    · obtain ⟨c, cs, rfl⟩ := List.exists_cons_of_ne_nil hne
      have hct : c ≠ 't' := by
        obtain ⟨u, hu⟩ := hsuf
        cases u with
        | nil => exact absurd (by simpa using hu) hfull
        | cons x u' =>
          have hx : c ∈ "s-mocha".data := by
            have h1 : x :: (u' ++ c :: cs) = "ts-mocha".data := by simpa using hu
            have h2 : u' ++ c :: cs = "s-mocha".data := by
              have := congrArg List.tail h1
              simpa using this
            rw [← h2]
            exact List.mem_append_right u' (List.mem_cons_self c cs)
          exact (by decide : ∀ d ∈ "s-mocha".data, d ≠ 't') c hx
      rw [hr]
      exact runPat_cons_fail _ (.lit (c :: cs)) _ 't' ('e' :: r') rfl
        (by rw [patStep, if_neg (fun h => hct h.symm)])

/-- Helper: a failure to complete is preserved when a region the automaton
would have to cross is replaced, provided the crossing table holds. -/
theorem cross_none_general (P₀ : List PatItem) (Reach : List PatItem → Prop)
    (hmem : ∀ v Q, runPat P₀ v = .cont Q → Reach Q)
    (m r oldrest newrest v : List Char)
    (hcross : ∀ Q, Reach Q → runPat Q r = .fail ∨
      ∃ t t', runPat Q r = .done t ∧ runPat Q m = .done t')
    (hold : ∀ w, runPat P₀ (v ++ (m ++ oldrest)) ≠ .done w) :
    ∀ w, runPat P₀ (v ++ (r ++ newrest)) ≠ .done w := by
  intro w hnew
  rw [runPat_append] at hnew
  cases hv : runPat P₀ v with
  | fail =>
    rw [hv] at hnew
    exact absurd hnew (by simp)
  | done t =>
    refine hold (t ++ (m ++ oldrest)) ?_
    rw [runPat_append, hv]
  | cont Q =>
    rw [hv] at hnew
    have hnew' : runPat Q (r ++ newrest) = .done w := hnew
    rw [runPat_append] at hnew'
    rcases hcross Q (hmem v Q hv) with hf | ⟨t, t', hrd, hmd⟩
    · rw [hf] at hnew'
      exact absurd hnew' (by simp)
    · refine hold (t' ++ oldrest) ?_
      rw [runPat_append, hv]
      show runPat Q (m ++ oldrest) = .done (t' ++ oldrest)
      rw [runPat_append, hmd]

/-- Helper: classification of a scan position against a replaced region:
before it, at its start, strictly inside it, or after it. -/
theorem pos_split (p r w u v : List Char) (h : p ++ (r ++ w) = u ++ v) :
    (∃ x, p = u ++ x ∧ x ≠ [] ∧ v = x ++ (r ++ w)) ∨
    (u = p ∧ v = r ++ w) ∨
    (∃ y z, u = p ++ y ∧ y ≠ [] ∧ r = y ++ z ∧ v = z ++ w) ∨
    (∃ z, u = p ++ (r ++ z) ∧ w = z ++ v) := by
  rcases List.append_eq_append_iff.1 h with ⟨x, hx1, hx2⟩ | ⟨y, hy1, hy2⟩
  · rcases List.append_eq_append_iff.1 hx2 with ⟨z, hz1, hz2⟩ | ⟨z, hz1, hz2⟩
    · refine Or.inr (Or.inr (Or.inr ⟨z, ?_, hz2⟩))
      rw [hx1, hz1]
    · cases hx : x with
      | nil =>
        subst hx
        refine Or.inr (Or.inl ⟨by simpa using hx1, ?_⟩)
        rw [hz2, show z = r by simpa using hz1.symm]
      | cons x0 xs =>
        subst hx
        exact Or.inr (Or.inr (Or.inl ⟨x0 :: xs, z, hx1, by simp, hz1, hz2⟩))
  · cases hy : y with
    | nil =>
      subst hy
      exact Or.inr (Or.inl ⟨by simpa using hy1.symm, by simpa using hy2⟩)
    | cons y0 ys =>
      subst hy
      exact Or.inl ⟨y0 :: ys, hy1, by simp, hy2⟩

/-- Helper: a `package_manager` match text is nonempty. -/
theorem pmMat_ne (w1 w2 v1 : List Char) : pmMat w1 w2 v1 ≠ [] := by
  simp [pmMat]

/-- Helper: a `test` match text is nonempty. -/
theorem testMat_ne (w1 w2 alt w3 : List Char) : testMat w1 w2 alt w3 ≠ [] := by
  simp [testMat]

/-- Helper: replacing a `test` region cannot create a `package_manager` match
at a position before the region. -/
theorem nomatchPM_cross_test (k : PackageManager) (ver : String)
    (w1 w2 alt w3 : List Char) (hw1 : ∀ c ∈ w1, jsWs c = true)
    (hw2 : ∀ c ∈ w2, jsWs c = true) (x oldrest newrest : List Char)
    (hold : matchPMAt (x ++ (testMat w1 w2 alt w3 ++ oldrest)) = none) :
    matchPMAt (x ++ (testReplacement (withVersion (PACKAGE_MANAGER_CONFIG k) ver) ++
      newrest)) = none :=
  (matchPM_none _).2
    (cross_none_general pmPat ReachPMP reachPM_of_cont (testMat w1 w2 alt w3)
      (testReplacement (withVersion (PACKAGE_MANAGER_CONFIG k) ver)) oldrest newrest x
      (fun Q hQ => crossPM_test k ver w1 w2 alt w3 hw1 hw2 Q hQ)
      ((matchPM_none _).1 hold))

/-- Helper: replacing a `package_manager` region cannot create a
`package_manager` match at a position before the region. -/
theorem nomatchPM_cross_pm (k : PackageManager) (ver : String)
    (w1 w2 v1 : List Char) (hw1 : ∀ c ∈ w1, jsWs c = true)
    (hw2 : ∀ c ∈ w2, jsWs c = true) (hv1 : ∀ c ∈ v1, c ≠ '"')
    (x oldrest newrest : List Char)
    (hold : matchPMAt (x ++ (pmMat w1 w2 v1 ++ oldrest)) = none) :
    matchPMAt (x ++ (pmReplacement (withVersion (PACKAGE_MANAGER_CONFIG k) ver) ++
      newrest)) = none :=
  (matchPM_none _).2
    (cross_none_general pmPat ReachPMP reachPM_of_cont (pmMat w1 w2 v1)
      (pmReplacement (withVersion (PACKAGE_MANAGER_CONFIG k) ver)) oldrest newrest x
      (fun Q hQ => crossPM_pm k ver w1 w2 v1 hw1 hw2 hv1 Q hQ)
      ((matchPM_none _).1 hold))

/-- Helper: replacing a `test` region cannot create a `test` match at a
position before the region. -/
theorem nomatchTest_cross_test (k : PackageManager) (ver : String)
    (w1 w2 alt w3 : List Char) (halt : alt ∈ testAlts) (hne3 : w3 ≠ [])
    (hw1 : ∀ c ∈ w1, jsWs c = true) (hw2 : ∀ c ∈ w2, jsWs c = true)
    (hw3 : ∀ c ∈ w3, jsWs c = true) (x oldrest newrest : List Char)
    (hold : matchTestAt (x ++ (testMat w1 w2 alt w3 ++ oldrest)) = none) :
    matchTestAt (x ++ (testReplacement (withVersion (PACKAGE_MANAGER_CONFIG k) ver) ++
      newrest)) = none :=
  (matchTest_none _).2
    (cross_none_general testPat ReachTestP reachTest_of_cont (testMat w1 w2 alt w3)
      (testReplacement (withVersion (PACKAGE_MANAGER_CONFIG k) ver)) oldrest newrest x
      (fun Q hQ => crossTest_test k ver w1 w2 alt w3 halt hne3 hw1 hw2 hw3 Q hQ)
      ((matchTest_none _).1 hold))

/-- Helper: the `test` substitution is idempotent for a detected package
manager — its replacement text matches its own pattern, so the second pass
replaces it by itself. -/
theorem testReplace_idem (k : PackageManager) (ver : String) (x : List Char) :
    replaceFirst matchTestAt (testReplacement (withVersion (PACKAGE_MANAGER_CONFIG k) ver))
        (replaceFirst matchTestAt
          (testReplacement (withVersion (PACKAGE_MANAGER_CONFIG k) ver)) x) =
      replaceFirst matchTestAt
        (testReplacement (withVersion (PACKAGE_MANAGER_CONFIG k) ver)) x := by
  rcases scanCases matchTestAt
      (testReplacement (withVersion (PACKAGE_MANAGER_CONFIG k) ver))
      matchTestAt_suffix x true with ⟨p, mat, suf, h1, h2, h3, h4, h5⟩ | ⟨hno, h2⟩
  · obtain ⟨w1, w2, alt, w3, hmm, halt, hne3, hw1, hw2, hw3⟩ := matchTest_mat mat suf h3
    subst hmm
    have hx : replaceFirst matchTestAt
        (testReplacement (withVersion (PACKAGE_MANAGER_CONFIG k) ver)) x =
        p ++ testReplacement (withVersion (PACKAGE_MANAGER_CONFIG k) ver) ++ suf := h2
    rw [hx]
    have hself : matchTestAt
        (testReplacement (withVersion (PACKAGE_MANAGER_CONFIG k) ver) ++ suf) =
        some suf := testRepl_selfmatch k ver suf
    have hneR : testReplacement (withVersion (PACKAGE_MANAGER_CONFIG k) ver) ++ suf ≠
        [] := by
      intro h0
      exact testRepl_ne k ver (List.append_eq_nil.1 h0).1
    have hnoe : ∀ u v, p = u ++ v → v ≠ [] → lineStartAt u true →
        matchTestAt (v ++ (testReplacement (withVersion (PACKAGE_MANAGER_CONFIG k) ver) ++
          suf)) = none := by
      intro u v huv hv hu
      exact nomatchTest_cross_test k ver w1 w2 alt w3 halt hne3 hw1 hw2 hw3 v suf suf
        (h5 u v huv hv hu)
    have hdet := scanDet matchTestAt
      (testReplacement (withVersion (PACKAGE_MANAGER_CONFIG k) ver)) p true
      (testReplacement (withVersion (PACKAGE_MANAGER_CONFIG k) ver)) suf h4 hnoe hself hneR
    show replaceFirstAux matchTestAt
        (testReplacement (withVersion (PACKAGE_MANAGER_CONFIG k) ver)) true
        (p ++ testReplacement (withVersion (PACKAGE_MANAGER_CONFIG k) ver) ++ suf) =
      p ++ testReplacement (withVersion (PACKAGE_MANAGER_CONFIG k) ver) ++ suf
    rw [List.append_assoc] at hdet ⊢
    exact hdet
  · have hx : replaceFirst matchTestAt
        (testReplacement (withVersion (PACKAGE_MANAGER_CONFIG k) ver)) x = x := h2
    rw [hx]
    exact hx

/-- Helper: if no line-start position of `p ++ testMat ++ suf` has a
`package_manager` match, neither has any line-start position of the string
with the `test` region replaced. -/
theorem noPM_after_testReplace (k : PackageManager) (ver : String)
    (w1 w2 alt w3 : List Char) (hw1 : ∀ c ∈ w1, jsWs c = true)
    (hw2 : ∀ c ∈ w2, jsWs c = true) (p suf : List Char)
    (hnoPM : ∀ u v, p ++ (testMat w1 w2 alt w3 ++ suf) = u ++ v → v ≠ [] →
      lineStartAt u true → matchPMAt v = none) :
    ∀ u v, p ++ (testReplacement (withVersion (PACKAGE_MANAGER_CONFIG k) ver) ++ suf) =
        u ++ v → v ≠ [] → lineStartAt u true → matchPMAt v = none := by
  intro u v huv hv hu
  rcases pos_split p (testReplacement (withVersion (PACKAGE_MANAGER_CONFIG k) ver))
      suf u v huv with
    ⟨x, hpu, hxne, hveq⟩ | ⟨hup, hveq⟩ | ⟨y, z, hu', hyne, hrz, hveq⟩ | ⟨z, hu', hsz⟩
  · have hold : matchPMAt (x ++ (testMat w1 w2 alt w3 ++ suf)) = none := by
      apply hnoPM u (x ++ (testMat w1 w2 alt w3 ++ suf))
        (by rw [hpu]; simp [List.append_assoc]) ?_ hu
      intro h0
      rcases List.append_eq_nil.1 h0 with ⟨_, h1⟩
      exact testMat_ne w1 w2 alt w3 (List.append_eq_nil.1 h1).1
    rw [hveq]
    exact nomatchPM_cross_test k ver w1 w2 alt w3 hw1 hw2 x suf suf hold
  · rw [hveq]
    exact pmMatch_testRepl k ver suf
  · exfalso
    obtain ⟨y', d, rfl⟩ := exists_concat y hyne
    rw [hu', ← List.append_assoc, lineStartAt_concat] at hu
    have hd : d ∈ testReplacement (withVersion (PACKAGE_MANAGER_CONFIG k) ver) := by
      rw [hrz]
      exact List.mem_append_left z (List.mem_append_right y' (List.mem_cons_self d []))
    have := testRepl_noLT k ver d hd
    rw [hu] at this
    exact absurd this (by simp)
  · by_cases hz : z = []
    · subst hz
      rw [hu', List.append_nil] at hu
      exact absurd hu (no_lineStart_after_testRepl k ver p true)
    · apply hnoPM ((p ++ testMat w1 w2 alt w3) ++ z) v ?_ hv ?_
      · rw [hsz]
        simp [List.append_assoc]
      · refine lineStartAt_transfer
          (p ++ testReplacement (withVersion (PACKAGE_MANAGER_CONFIG k) ver))
          (p ++ testMat w1 w2 alt w3) z true true hz ?_
        rw [hu', ← List.append_assoc] at hu
        exact hu

/-- Helper: applying the `package_manager` substitution to the combined
output of the two substitutions leaves it unchanged — the substituted
`package_manager` text still matches at the same line start, no earlier
line start matches, and the match is replaced by itself. -/
theorem pmReplace_fixes (k : PackageManager) (ver : String) (c : List Char) :
    replaceFirst matchPMAt (pmReplacement (withVersion (PACKAGE_MANAGER_CONFIG k) ver))
        (replaceFirst matchTestAt
          (testReplacement (withVersion (PACKAGE_MANAGER_CONFIG k) ver))
          (replaceFirst matchPMAt
            (pmReplacement (withVersion (PACKAGE_MANAGER_CONFIG k) ver)) c)) =
      replaceFirst matchTestAt
        (testReplacement (withVersion (PACKAGE_MANAGER_CONFIG k) ver))
        (replaceFirst matchPMAt
          (pmReplacement (withVersion (PACKAGE_MANAGER_CONFIG k) ver)) c) := by
  rcases scanCases matchPMAt (pmReplacement (withVersion (PACKAGE_MANAGER_CONFIG k) ver))
      matchPMAt_suffix c true with ⟨p1, mat1, suf1, a1, a2, a3, a4, a5⟩ | ⟨hnoPM, a2⟩
  · obtain ⟨w1, w2, v1, hm1, hw1, hw2, hv1⟩ := matchPM_mat mat1 suf1 a3
    subst hm1
    have hA : replaceFirst matchPMAt
        (pmReplacement (withVersion (PACKAGE_MANAGER_CONFIG k) ver)) c =
        p1 ++ pmReplacement (withVersion (PACKAGE_MANAGER_CONFIG k) ver) ++ suf1 := a2
    rw [hA]
    rcases scanCases matchTestAt
        (testReplacement (withVersion (PACKAGE_MANAGER_CONFIG k) ver))
        matchTestAt_suffix
        (p1 ++ pmReplacement (withVersion (PACKAGE_MANAGER_CONFIG k) ver) ++ suf1) true with
      ⟨p2, mat2, suf2, b1, b2, b3, b4, b5⟩ | ⟨hnoT, b2⟩
    · obtain ⟨q1, q2, qa, q3, hm2, halt, hq3, hqw1, hqw2, hqw3⟩ := matchTest_mat mat2 suf2 b3
      subst hm2
      have hB : replaceFirst matchTestAt
          (testReplacement (withVersion (PACKAGE_MANAGER_CONFIG k) ver))
          (p1 ++ pmReplacement (withVersion (PACKAGE_MANAGER_CONFIG k) ver) ++ suf1) =
          p2 ++ testReplacement (withVersion (PACKAGE_MANAGER_CONFIG k) ver) ++ suf2 := b2
      rw [hB]
      have halign : (∃ t, p1 = p2 ++ (testMat q1 q2 qa q3 ++ t) ∧
            suf2 = t ++ (pmReplacement (withVersion (PACKAGE_MANAGER_CONFIG k) ver) ++
              suf1)) ∨
          (∃ b, p2 = p1 ++ (pmReplacement (withVersion (PACKAGE_MANAGER_CONFIG k) ver) ++
              b) ∧
            suf1 = b ++ (testMat q1 q2 qa q3 ++ suf2)) := by
        have hb1' : p1 ++ (pmReplacement (withVersion (PACKAGE_MANAGER_CONFIG k) ver) ++
            suf1) = p2 ++ (testMat q1 q2 qa q3 ++ suf2) := by
          simpa [List.append_assoc] using b1
        rcases List.append_eq_append_iff.1 hb1' with ⟨a, ha1, ha2⟩ | ⟨a, ha1, ha2⟩
        · right
          rcases List.append_eq_append_iff.1 ha2 with ⟨b, hb1, hb2⟩ | ⟨b, hb1, hb2⟩
          · exact ⟨b, by rw [ha1, hb1], hb2⟩
          · cases hbe : b with
            | nil =>
              subst hbe
              refine ⟨[], ?_, ?_⟩
              · rw [ha1, show a = pmReplacement (withVersion (PACKAGE_MANAGER_CONFIG k) ver)
                  from by simpa using hb1.symm]
                simp
              · rw [List.nil_append]
                exact (by simpa using hb2.symm)
            | cons b0 bs =>
              subst hbe
              exfalso
              have htm : testMat q1 q2 qa q3 =
                  't' :: ("est".data ++ (q1 ++ '=' :: (q2 ++ '"' ::
                    (qa ++ (q3 ++ "ts-mocha".data))))) := rfl
              rw [htm, List.cons_append, List.cons_append] at hb2
              injection hb2 with hb0 _
              have hmem : 't' ∈ pmReplacement (withVersion (PACKAGE_MANAGER_CONFIG k) ver) := by
                rw [hb1]
                refine List.mem_append_right a ?_
                rw [← hb0]
                exact List.mem_cons_self 't' bs
              exact pmRepl_no_t k ver 't' hmem rfl
        · left
          have hrun := (matchTest_iff _ _).1 b3
          rw [show testMat q1 q2 qa q3 ++ suf2 =
            a ++ (pmReplacement (withVersion (PACKAGE_MANAGER_CONFIG k) ver) ++ suf1)
            from ha2, runPat_append] at hrun
          cases hra : runPat testPat a with
          | fail =>
            rw [hra] at hrun
            exact absurd hrun (by simp)
          | done t =>
            rw [hra] at hrun
            have hrun' : RunOut.done (t ++
                (pmReplacement (withVersion (PACKAGE_MANAGER_CONFIG k) ver) ++ suf1)) =
                RunOut.done suf2 := hrun
            have hsuf2 : suf2 = t ++
                (pmReplacement (withVersion (PACKAGE_MANAGER_CONFIG k) ver) ++ suf1) := by
              injection hrun' with h'
              exact h'.symm
            have ha' : testMat q1 q2 qa q3 ++ t = a := by
              have hps : (testMat q1 q2 qa q3 ++ t) ++
                  (pmReplacement (withVersion (PACKAGE_MANAGER_CONFIG k) ver) ++ suf1) =
                  a ++ (pmReplacement (withVersion (PACKAGE_MANAGER_CONFIG k) ver) ++
                    suf1) := by
                rw [List.append_assoc, ← hsuf2]
                exact ha2
              exact List.append_cancel_right hps
            exact ⟨t, by rw [ha1, ← ha'], hsuf2⟩
          | cont Q =>
            rw [hra] at hrun
            have hrun' : runPat Q
                (pmReplacement (withVersion (PACKAGE_MANAGER_CONFIG k) ver) ++ suf1) =
                .done suf2 := hrun
            have hfail := crossTest_pm k ver Q (reachTest_of_cont a Q hra)
            rw [runPat_append, hfail] at hrun'
            exact absurd hrun' (by simp)
      rcases halign with ⟨t, hp1, hsuf2⟩ | ⟨b, hp2, hsuf1⟩
      · subst hsuf2
        have htne : t ≠ [] := by
          intro h0
          subst h0
          rw [List.append_nil] at hp1
          rw [hp1] at a4
          exact no_lineStart_after_testMat p2 q1 q2 qa q3 true a4
        have hls : lineStartAt
            ((p2 ++ testReplacement (withVersion (PACKAGE_MANAGER_CONFIG k) ver)) ++ t)
            true := by
          refine lineStartAt_transfer (p2 ++ testMat q1 q2 qa q3)
            (p2 ++ testReplacement (withVersion (PACKAGE_MANAGER_CONFIG k) ver))
            t true true htne ?_
          rw [List.append_assoc, ← hp1]
          exact a4
        have hnoe : ∀ u v,
            (p2 ++ testReplacement (withVersion (PACKAGE_MANAGER_CONFIG k) ver)) ++ t =
              u ++ v →
            v ≠ [] → lineStartAt u true →
            matchPMAt (v ++
              (pmReplacement (withVersion (PACKAGE_MANAGER_CONFIG k) ver) ++ suf1)) =
              none := by
          intro u v huv hv hu
          rcases pos_split p2 (testReplacement (withVersion (PACKAGE_MANAGER_CONFIG k) ver))
              t u v (by simpa [List.append_assoc] using huv) with
            ⟨x, hpu, hxne, hveq⟩ | ⟨hup, hveq⟩ | ⟨y, z, hu', hyne, hrz, hveq⟩ |
            ⟨z, hu', htz⟩
          · have hold := a5 u (x ++ (testMat q1 q2 qa q3 ++ t))
              (by rw [hp1, hpu]; simp [List.append_assoc])
              (by
                intro h0
                rcases List.append_eq_nil.1 h0 with ⟨_, h1⟩
                exact testMat_ne q1 q2 qa q3 (List.append_eq_nil.1 h1).1)
              hu
            simp only [List.append_assoc] at hold
            have hnew := nomatchPM_cross_test k ver q1 q2 qa q3 hqw1 hqw2 x
              (t ++ (pmMat w1 w2 v1 ++ suf1))
              (t ++ (pmReplacement (withVersion (PACKAGE_MANAGER_CONFIG k) ver) ++ suf1))
              (by simpa [List.append_assoc] using hold)
            rw [hveq]
            simpa [List.append_assoc] using hnew
          · rw [hveq]
            have := pmMatch_testRepl k ver
              (t ++ (pmReplacement (withVersion (PACKAGE_MANAGER_CONFIG k) ver) ++ suf1))
            simpa [List.append_assoc] using this
          · exfalso
            obtain ⟨y', d, rfl⟩ := exists_concat y hyne
            rw [hu', ← List.append_assoc, lineStartAt_concat] at hu
            have hd : d ∈ testReplacement (withVersion (PACKAGE_MANAGER_CONFIG k) ver) := by
              rw [hrz]
              exact List.mem_append_left z
                (List.mem_append_right y' (List.mem_cons_self d []))
            have := testRepl_noLT k ver d hd
            rw [hu] at this
            exact absurd this (by simp)
          · by_cases hz : z = []
            · subst hz
              rw [hu', List.append_nil] at hu
              exact absurd hu (no_lineStart_after_testRepl k ver p2 true)
            · have hold := a5 ((p2 ++ testMat q1 q2 qa q3) ++ z) v
                (by rw [hp1, htz]; simp [List.append_assoc]) hv
                (by
                  refine lineStartAt_transfer
                    (p2 ++ testReplacement (withVersion (PACKAGE_MANAGER_CONFIG k) ver))
                    (p2 ++ testMat q1 q2 qa q3) z true true hz ?_
                  rw [hu', ← List.append_assoc] at hu
                  exact hu)
              exact nomatchPM_cross_pm k ver w1 w2 v1 hw1 hw2 hv1 v suf1 suf1 hold
        have hkey := scanDet matchPMAt
          (pmReplacement (withVersion (PACKAGE_MANAGER_CONFIG k) ver))
          ((p2 ++ testReplacement (withVersion (PACKAGE_MANAGER_CONFIG k) ver)) ++ t) true
          (pmReplacement (withVersion (PACKAGE_MANAGER_CONFIG k) ver)) suf1
          hls hnoe (pmRepl_selfmatch k ver suf1)
          (by
            intro h0
            exact pmRepl_ne k ver (List.append_eq_nil.1 h0).1)
        show replaceFirstAux matchPMAt
            (pmReplacement (withVersion (PACKAGE_MANAGER_CONFIG k) ver)) true
            (p2 ++ testReplacement (withVersion (PACKAGE_MANAGER_CONFIG k) ver) ++
              (t ++ (pmReplacement (withVersion (PACKAGE_MANAGER_CONFIG k) ver) ++ suf1))) =
          p2 ++ testReplacement (withVersion (PACKAGE_MANAGER_CONFIG k) ver) ++
            (t ++ (pmReplacement (withVersion (PACKAGE_MANAGER_CONFIG k) ver) ++ suf1))
        simp only [List.append_assoc] at hkey ⊢
        exact hkey
      · subst hsuf1
        subst hp2
        have hnoe : ∀ u v, p1 = u ++ v → v ≠ [] → lineStartAt u true →
            matchPMAt (v ++ (pmReplacement (withVersion (PACKAGE_MANAGER_CONFIG k) ver) ++
              (b ++ (testReplacement (withVersion (PACKAGE_MANAGER_CONFIG k) ver) ++
                suf2)))) = none := by
          intro u v huv hv hu
          have hold := a5 u v huv hv hu
          exact nomatchPM_cross_pm k ver w1 w2 v1 hw1 hw2 hv1 v
            (b ++ (testMat q1 q2 qa q3 ++ suf2))
            (b ++ (testReplacement (withVersion (PACKAGE_MANAGER_CONFIG k) ver) ++ suf2))
            hold
        have hkey := scanDet matchPMAt
          (pmReplacement (withVersion (PACKAGE_MANAGER_CONFIG k) ver)) p1 true
          (pmReplacement (withVersion (PACKAGE_MANAGER_CONFIG k) ver))
          (b ++ (testReplacement (withVersion (PACKAGE_MANAGER_CONFIG k) ver) ++ suf2))
          a4 hnoe (pmRepl_selfmatch k ver _)
          (by
            intro h0
            exact pmRepl_ne k ver (List.append_eq_nil.1 h0).1)
        show replaceFirstAux matchPMAt
            (pmReplacement (withVersion (PACKAGE_MANAGER_CONFIG k) ver)) true
            (p1 ++ (pmReplacement (withVersion (PACKAGE_MANAGER_CONFIG k) ver) ++ b) ++
              testReplacement (withVersion (PACKAGE_MANAGER_CONFIG k) ver) ++ suf2) =
          p1 ++ (pmReplacement (withVersion (PACKAGE_MANAGER_CONFIG k) ver) ++ b) ++
            testReplacement (withVersion (PACKAGE_MANAGER_CONFIG k) ver) ++ suf2
        simp only [List.append_assoc] at hkey ⊢
        exact hkey
    · have hB : replaceFirst matchTestAt
          (testReplacement (withVersion (PACKAGE_MANAGER_CONFIG k) ver))
          (p1 ++ pmReplacement (withVersion (PACKAGE_MANAGER_CONFIG k) ver) ++ suf1) =
          p1 ++ pmReplacement (withVersion (PACKAGE_MANAGER_CONFIG k) ver) ++ suf1 := b2
      rw [hB]
      have hnoe : ∀ u v, p1 = u ++ v → v ≠ [] → lineStartAt u true →
          matchPMAt (v ++ (pmReplacement (withVersion (PACKAGE_MANAGER_CONFIG k) ver) ++
            suf1)) = none := by
        intro u v huv hv hu
        exact nomatchPM_cross_pm k ver w1 w2 v1 hw1 hw2 hv1 v suf1 suf1
          (a5 u v huv hv hu)
      have hkey := scanDet matchPMAt
        (pmReplacement (withVersion (PACKAGE_MANAGER_CONFIG k) ver)) p1 true
        (pmReplacement (withVersion (PACKAGE_MANAGER_CONFIG k) ver)) suf1
        a4 hnoe (pmRepl_selfmatch k ver suf1)
        (by
          intro h0
          exact pmRepl_ne k ver (List.append_eq_nil.1 h0).1)
      show replaceFirstAux matchPMAt
          (pmReplacement (withVersion (PACKAGE_MANAGER_CONFIG k) ver)) true
          (p1 ++ pmReplacement (withVersion (PACKAGE_MANAGER_CONFIG k) ver) ++ suf1) =
        p1 ++ pmReplacement (withVersion (PACKAGE_MANAGER_CONFIG k) ver) ++ suf1
      simp only [List.append_assoc] at hkey ⊢
      exact hkey
  · have hA : replaceFirst matchPMAt
        (pmReplacement (withVersion (PACKAGE_MANAGER_CONFIG k) ver)) c = c := a2
    rw [hA]
    rcases scanCases matchTestAt
        (testReplacement (withVersion (PACKAGE_MANAGER_CONFIG k) ver))
        matchTestAt_suffix c true with ⟨p, mat, suf, b1, b2, b3, b4, b5⟩ | ⟨hnoT, b2⟩
    · obtain ⟨q1, q2, qa, q3, hm2, halt, hq3, hqw1, hqw2, hqw3⟩ := matchTest_mat mat suf b3
      subst hm2
      have hB : replaceFirst matchTestAt
          (testReplacement (withVersion (PACKAGE_MANAGER_CONFIG k) ver)) c =
          p ++ testReplacement (withVersion (PACKAGE_MANAGER_CONFIG k) ver) ++ suf := b2
      rw [hB]
      have hnoPM' : ∀ u v, p ++ (testMat q1 q2 qa q3 ++ suf) = u ++ v → v ≠ [] →
          lineStartAt u true → matchPMAt v = none := by
        intro u v h hv hu
        exact hnoPM u v (by rw [b1]; simpa [List.append_assoc] using h) hv hu
      have hno' := noPM_after_testReplace k ver q1 q2 qa q3 hqw1 hqw2 p suf hnoPM'
      have hkey := scanNone matchPMAt
        (pmReplacement (withVersion (PACKAGE_MANAGER_CONFIG k) ver)) matchPMAt_suffix rfl
        (p ++ (testReplacement (withVersion (PACKAGE_MANAGER_CONFIG k) ver) ++ suf))
        true hno'
      show replaceFirstAux matchPMAt
          (pmReplacement (withVersion (PACKAGE_MANAGER_CONFIG k) ver)) true
          (p ++ testReplacement (withVersion (PACKAGE_MANAGER_CONFIG k) ver) ++ suf) =
        p ++ testReplacement (withVersion (PACKAGE_MANAGER_CONFIG k) ver) ++ suf
      simp only [List.append_assoc] at hkey ⊢
      exact hkey
    · have hB : replaceFirst matchTestAt
          (testReplacement (withVersion (PACKAGE_MANAGER_CONFIG k) ver)) c = c := b2
      rw [hB]
      exact hA

/-- Helper: idempotence of the combined substitution body for a package
manager taken from the fixed table. -/
theorem updateAnchorTomlContent_idem (k : PackageManager) (ver : String)
    (c : List Char) :
    updateAnchorTomlContent (withVersion (PACKAGE_MANAGER_CONFIG k) ver)
        (updateAnchorTomlContent (withVersion (PACKAGE_MANAGER_CONFIG k) ver) c) =
      updateAnchorTomlContent (withVersion (PACKAGE_MANAGER_CONFIG k) ver) c := by
  unfold updateAnchorTomlContent
  rw [pmReplace_fixes k ver c]
  exact testReplace_idem k ver
    (replaceFirst matchPMAt (pmReplacement (withVersion (PACKAGE_MANAGER_CONFIG k) ver)) c)

/-- Helper: every detector output is a versioned entry of the fixed table. -/
theorem detect_withVersion (ua : Option String) :
    ∃ k ver, detectPackageManager ua = withVersion (PACKAGE_MANAGER_CONFIG k) ver := by
  cases ua with
  | none => exact ⟨.npm, "unknown", rfl⟩
  | some s =>
    cases h : matchUserAgent s.data with
    | none => exact ⟨.npm, "unknown", by simp [detectPackageManager, h]⟩
    | some pv => exact ⟨pv.1, String.mk pv.2, by simp [detectPackageManager, h]⟩

/-- C9: `updateAnchorToml` is idempotent — for every file state (absent or
any content) and every detected `PackageManagerInfo`, applying the operation
twice yields the same `Anchor.toml` content as applying it once: the
substituted `package_manager = "<name>"` and `test = "<runCommand> ts-mocha`
texts again match their patterns at the same line-start positions on the
second application, no earlier line-start position matches, and each is
replaced by itself. -/
theorem updateAnchorToml_idem (pm : PackageManagerInfo)
    (hpm : ∃ ua, pm = detectPackageManager ua) (f : Option (List Char)) :
    updateAnchorToml pm (updateAnchorToml pm f) = updateAnchorToml pm f := by
  obtain ⟨ua, rfl⟩ := hpm
  obtain ⟨k, ver, hk⟩ := detect_withVersion ua
  rw [hk]
  cases f with
  | none => rfl
  | some content =>
    simp only [updateAnchorToml]
    rw [updateAnchorTomlContent_idem k ver content]

/-- C9 witness: a concrete detected package manager (pnpm) and a concrete
`Anchor.toml` content on which the double application is checked against the
single one. -/
theorem updateAnchorToml_idem_witness :
    (∃ ua, detectPackageManager (some "pnpm/8.0.0") = detectPackageManager ua) ∧
    updateAnchorToml (detectPackageManager (some "pnpm/8.0.0"))
        (updateAnchorToml (detectPackageManager (some "pnpm/8.0.0"))
          (some "package_manager = \"yarn\"\ntest = \"npm run ts-mocha -t 100\"".data)) =
      updateAnchorToml (detectPackageManager (some "pnpm/8.0.0"))
        (some "package_manager = \"yarn\"\ntest = \"npm run ts-mocha -t 100\"".data) :=
  ⟨⟨some "pnpm/8.0.0", rfl⟩,
   updateAnchorToml_idem (detectPackageManager (some "pnpm/8.0.0"))
     ⟨some "pnpm/8.0.0", rfl⟩
     (some "package_manager = \"yarn\"\ntest = \"npm run ts-mocha -t 100\"".data)⟩

end CreateMagicblock
